import Mathlib

/-!
Verification of the reactive signal runtime in `src/Signal.ts` of the solit
repository (classes `SignalBase`, `Computed`, `Signal`, the `batch` combinator),
together with a small model of the older `Writable.set` from `src/Observable.ts`.

The TypeScript code is shallowly embedded as a small-step interpreter over an
explicit heap of writable signals and computed signals.  JS values are modelled
as `Option Int` (`none` plays the role of `undefined`), subscriber callbacks as
opaque tags (`Sub.ext n` for external callbacks, `Sub.comp c` for the bound
`updateSubscribers` method of computed cell `c`), and getter functions of
computed signals as a small expression language `Expr` whose reads go through
the same `get()` logic as in the source.  Every observable effect needed by the
claims is logged in the state: external subscriber invocations in `log`,
getter invocations in `getterRuns`, dependency-registering reads in `readLog`.

The interpreter `exec` is structurally recursive on a fuel argument that bounds
the depth of nested calls; running out of fuel yields the error `Err.noFuel`,
a getter `throw` yields `Err.thrown`, and an out-of-range cell index yields
`Err.oob`.  State mutations performed before an exception are kept, exactly as
in JavaScript.
-/

namespace Solit

/-- Values: `none` models the JavaScript `undefined`, `some n` an integer. -/
abbrev Val := Option Int

/-- Model of `notEqual` from Signal.ts: `(a, b) => !Object.is(a, b)`. -/
def notEqual (a b : Val) : Bool := a != b

/-- A member of a `_subscribers` set: an external callback identified by a tag,
or the bound `updateSubscribers` arrow function of computed cell `c`. -/
inductive Sub where
  | ext (n : Nat)
  | comp (c : Nat)
deriving DecidableEq

/-- Heap identifiers: `wId i` is the i-th writable `Signal`, `cId i` the i-th
`Computed`. -/
inductive CellId where
  | wId (i : Nat)
  | cId (i : Nat)
deriving DecidableEq

/-- Getter bodies of computed signals: reads of writables and computeds go
through the tracked `get()`; `throw` models a getter that throws. -/
inductive Expr where
  | const (v : Val)
  | getW (i : Nat)
  | getC (i : Nat)
  | add (a b : Expr)
  | ifPos (s t e : Expr)
  | throw
deriving DecidableEq

/-- One entry of a `Computed`'s `_cache` list: a value together with the
recorded dependency snapshot (a `Map` kept in insertion order). -/
structure CachedResult where
  value : Val
  dependencies : List (CellId × Val)
deriving DecidableEq

/-- Model of a writable `Signal` instance (Signal.ts, class `Signal`). -/
structure Signal where
  value : Val
  lastBroadcastValue : Val
  subscribers : List Sub
  hasChanged : Val → Val → Bool

/-- Model of a `Computed` instance (Signal.ts, class `Computed`). -/
structure Computed where
  value : Val
  lastBroadcastValue : Val
  subscribers : List Sub
  hasChanged : Val → Val → Bool
  getter : Expr
  cacheSize : Nat
  cache : List CachedResult
  toUnsubscribe : List CellId

/-- The whole mutable world: the two heaps, the process-wide dependency-context
stack (`SignalBase.context`, top = last element), the batch dedup set
(`Signal.batchedUpdateChecks`), and three observation logs. -/
structure St where
  signals : List Signal
  computeds : List Computed
  context : List Nat
  batchedUpdateChecks : Option (List Nat)
  log : List (CellId × Nat × Val)
  getterRuns : List Nat
  readLog : List (Nat × CellId)

/-- Errors of a run: a getter threw, a cell index was out of range, or the
fuel (call-depth bound) ran out. -/
inductive Err where
  | thrown
  | oob
  | noFuel
deriving DecidableEq

/-- A fresh writable signal: the constructor sets `_lastBroadcastValue = _value`. -/
def Signal.new (v : Val) : Signal := ⟨v, v, [], notEqual⟩

/-- A fresh writable signal with a custom `hasChanged` option. -/
def Signal.newWith (v : Val) (hc : Val → Val → Bool) : Signal := ⟨v, v, [], hc⟩

/-- A fresh computed signal: `_value` starts as `undefined`, cache empty. -/
def Computed.new (g : Expr) (cacheSize : Nat := 1) : Computed :=
  ⟨none, none, [], notEqual, g, cacheSize, [], []⟩

/-- A fresh computed signal with a custom `hasChanged` option. -/
def Computed.newWith (g : Expr) (cacheSize : Nat) (hc : Val → Val → Bool) : Computed :=
  ⟨none, none, [], hc, g, cacheSize, [], []⟩

/-- Index lookup on lists, kept as a first-class recursive definition so that
proofs control its unfolding. -/
def nth : List α → Nat → Option α
  | [], _ => none
  | a :: _, 0 => some a
  | _ :: t, Nat.succ n => nth t n

/-- Update the n-th element of a list in place (no-op when out of range). -/
def updAt : List α → Nat → (α → α) → List α
  | [], _, _ => []
  | a :: l, 0, g => g a :: l
  | a :: l, Nat.succ n, g => a :: updAt l n g

/-- Model of `Set.add` on a subscriber set: append if absent, keep position if present. -/
def addDedup (l : List Sub) (x : Sub) : List Sub := if x ∈ l then l else l ++ [x]

/-- Model of `Set.add` on the batch dedup set of writable indices. -/
def addDedupNat (l : List Nat) (x : Nat) : List Nat := if x ∈ l then l else l ++ [x]

/-- Model of `Map.set` on a dependency snapshot: replace in place or append. -/
def mapSet : List (CellId × Val) → CellId → Val → List (CellId × Val)
  | [], k, v => [(k, v)]
  | (k', v') :: rest, k, v =>
    if k' = k then (k, v) :: rest else (k', v') :: mapSet rest k v

/-- Remove the n-th element, returning it and the remaining list in order
(models `splice(indexOf(x), 1)` followed by `unshift`). -/
def extractAt : List α → Nat → Option (α × List α)
  | [], _ => none
  | a :: l, 0 => some (a, l)
  | a :: l, Nat.succ n =>
    match extractAt l n with
    | none => none
    | some (b, r) => some (b, a :: r)

/-- State update helpers. -/
def St.setSig (s : St) (i : Nat) (g : Signal → Signal) : St :=
  { s with signals := updAt s.signals i g }

def St.setComp (s : St) (i : Nat) (g : Computed → Computed) : St :=
  { s with computeds := updAt s.computeds i g }

/-- Subscriber list of a cell (empty for an out-of-range index). -/
def St.subsOf (s : St) : CellId → List Sub
  | .wId i => ((nth s.signals i).map Signal.subscribers).getD []
  | .cId i => ((nth s.computeds i).map Computed.subscribers).getD []

/-- Current `_value` of a cell (an untracked read of the raw field, not
`Computed.peek`). -/
def St.rawValue (s : St) : CellId → Val
  | .wId i => ((nth s.signals i).map Signal.value).getD none
  | .cId i => ((nth s.computeds i).map Computed.value).getD none

/-- The pending operations of the interpreter, one constructor per code path of
Signal.ts that can re-enter the call graph. -/
inductive Job where
  | peekCell (x : CellId)
  | computeC (c : Nat)
  | getCell (x : CellId)
  | setDep (caller : Nat) (dep : CellId) (v : Val)
  | observeCell (x : CellId) (sub : Sub)
  | removeSubC (x : CellId) (sub : Sub)
  | updSubs (x : CellId)
  | notifyLoop (x : CellId) (visited : List Sub)
  | setW (i : Nat) (v : Val)
  | batch (acts : List Job)
  | subscribeTop (x : CellId) (e : Nat)

/-- Decidable equality for interpreter results. -/
instance exceptDecEq [DecidableEq ε] [DecidableEq α] : DecidableEq (Except ε α) := fun x y =>
  match x, y with
  | .ok a, .ok b =>
    if h : a = b then .isTrue (by rw [h]) else .isFalse (by simp [h])
  | .error a, .error b =>
    if h : a = b then .isTrue (by rw [h]) else .isFalse (by simp [h])
  | .ok _, .error _ => .isFalse (by simp)
  | .error _, .ok _ => .isFalse (by simp)

/-- Result type of one interpreter step. -/
abbrev Res := Except Err Val × St

/-- Sequencing that propagates errors but keeps the state mutated so far,
as JavaScript exceptions do. -/
def andThen (r : Res) (k : Val → St → Res) : Res :=
  match r with
  | (.error e, s) => (.error e, s)
  | (.ok v, s) => k v s

/-- JS `+` on our values: any operand that is `undefined` poisons the result. -/
def vadd : Val → Val → Val
  | some a, some b => some (a + b)
  | _, _ => none

/-- JS truthiness of `v > 0` used by `Expr.ifPos`. -/
def isPos : Val → Bool
  | some v => v > 0
  | none => false

/-- Evaluate a getter body; reads re-enter the interpreter through `recur`
(`Job.getCell`), exactly as the getter calls `signal.get()`. -/
def evalGo (recur : Job → St → Res) : Expr → St → Res
  | .const v, s => (.ok v, s)
  | .throw, s => (.error .thrown, s)
  | .getW i, s => recur (.getCell (.wId i)) s
  | .getC i, s => recur (.getCell (.cId i)) s
  | .add a b, s =>
    andThen (evalGo recur a s) fun va s' =>
      andThen (evalGo recur b s') fun vb s'' => (.ok (vadd va vb), s'')
  | .ifPos c t e, s =>
    andThen (evalGo recur c s) fun vc s' =>
      if isPos vc then evalGo recur t s' else evalGo recur e s'

/-- The `for (const [dependency, value] of cache.dependencies)` loop inside
`Computed.peek`'s cache scan: stop at the first mismatching dependency. -/
def checkGo (recur : Job → St → Res) : List (CellId × Val) → St → Except Err Bool × St
  | [], s => (.ok true, s)
  | (x, u) :: rest, s =>
    match recur (.peekCell x) s with
    | (.error e, s') => (.error e, s')
    | (.ok v, s') => if v = u then checkGo recur rest s' else (.ok false, s')

/-- The `this._cache.find(...)` scan of `Computed.peek`: index of the first
entry whose recorded snapshot matches the dependencies' current `peek` values. -/
def scanGo (recur : Job → St → Res) : List CachedResult → St → Except Err (Option Nat) × St
  | [], s => (.ok none, s)
  | e :: rest, s =>
    match checkGo recur e.dependencies s with
    | (.error err, s') => (.error err, s')
    | (.ok true, s') => (.ok (some 0), s')
    | (.ok false, s') =>
      match scanGo recur rest s' with
      | (.error err, s'') => (.error err, s'')
      | (.ok none, s'') => (.ok none, s'')
      | (.ok (some k), s'') => (.ok (some (k + 1)), s'')

/-- The `this._toUnsubscribe.forEach(Reflect.apply)` loop: each stored closure
unsubscribes `who`'s `updateSubscribers` from one dependency. -/
def dropGo (recur : Job → St → Res) (who : Nat) : List CellId → St → Res
  | [], s => (.ok none, s)
  | d :: rest, s =>
    andThen (recur (.removeSubC d (.comp who)) s) fun _ s' => dropGo recur who rest s'

/-- Run the operations of a `batch` action body in order. -/
def actsGo (recur : Job → St → Res) : List Job → St → Res
  | [], s => (.ok none, s)
  | j :: rest, s =>
    andThen (recur j s) fun _ s' => actsGo recur rest s'

/-- The flush loop at the end of the outermost `batch`:
`batchedUpdateChecks.forEach(signal => signal.updateSubscribers())`. -/
def flushGo (recur : Job → St → Res) : List Nat → St → Res
  | [], s => (.ok none, s)
  | i :: rest, s =>
    andThen (recur (.updSubs (.wId i)) s) fun _ s' => flushGo recur rest s'

/-- The cache seeding at the start of `computeValue`: clear `_toUnsubscribe`,
then `unshift` an entry holding the old value and trim to `cacheSize`. -/
def seedComp (c' : Computed) : Computed :=
  let c'' := { c' with toUnsubscribe := ([] : List CellId) }
  if c''.cacheSize ≠ 0 then
    { c'' with cache := ⟨c''.value, []⟩ :: c''.cache.take (c''.cacheSize - 1) }
  else c''

/-- The tail of `computeValue`: store the getter's result in `_value` and in
the newest cache entry. -/
def storeVal (v : Val) (c' : Computed) : Computed :=
  { c' with
    value := v
    cache := match c'.cache with
      | [] => []
      | e :: rest => { e with value := v } :: rest }

/-- The cache-hit path of `Computed.peek`: move entry `k` to the front and
adopt its value. -/
def adoptHit (k : Nat) (c' : Computed) : Computed :=
  match extractAt c'.cache k with
  | none => c'
  | some (e, rest) => { c' with cache := e :: rest, value := e.value }

/-- The snapshot-recording tail of `setDependency`. -/
def recordDep (x : CellId) (v : Val) (c' : Computed) : Computed :=
  { c' with cache := match c'.cache with
    | [] => []
    | e :: rest => { e with dependencies := mapSet e.dependencies x v } :: rest }

/-- One step of the interpreter; `recur` performs nested calls at one less
fuel.  Each arm is a direct transcription of the corresponding method of
Signal.ts (quoted in the comments). -/
def execBody (recur : Job → St → Res) : Job → St → Res
  | .peekCell (.wId i), s =>
    -- SignalBase.peek: `return this._value` (no side effects).
    match nth s.signals i with
    | none => (.error .oob, s)
    | some sig => (.ok sig.value, s)
  | .peekCell (.cId i), s =>
    -- Computed.peek: scan the cache; on hit move the entry to the front and
    -- adopt its value; on miss call computeValue(); return `super.peek`.
    match nth s.computeds i with
    | none => (.error .oob, s)
    | some c =>
      match scanGo recur c.cache s with
      | (.error e, s') => (.error e, s')
      | (.ok (some k), s') =>
        let s'' := s'.setComp i (adoptHit k)
        (.ok (s''.rawValue (.cId i)), s'')
      | (.ok none, s') =>
        andThen (recur (.computeC i) s') fun _ s'' => (.ok (s''.rawValue (.cId i)), s'')
  | .computeC i, s =>
    -- Computed.computeValue: push context, unsubscribe from old dependencies,
    -- clear the set, seed a cache entry, run the getter (NO try/finally:
    -- on throw the context is not popped and the seeded entry remains),
    -- store the value, pop context.
    match nth s.computeds i with
    | none => (.error .oob, s)
    | some c =>
      let s1 := { s with context := s.context ++ [i] }
      andThen (dropGo recur i c.toUnsubscribe s1) fun _ s2 =>
        let s3 := s2.setComp i seedComp
        let s4 := { s3 with getterRuns := s3.getterRuns ++ [i] }
        match evalGo recur ((nth s4.computeds i).map Computed.getter |>.getD .throw) s4 with
        | (.error e, s5) => (.error e, s5)
        | (.ok v, s5) =>
          let s6 := s5.setComp i (storeVal v)
          (.ok none, { s6 with context := s6.context.dropLast })
  | .getCell x, s =>
    -- SignalBase.get: snapshot the context top, peek, then register the
    -- dependency with the calling computed, in this order.
    let caller := s.context.getLast?
    andThen (recur (.peekCell x) s) fun v s' =>
      match caller with
      | none => (.ok v, s')
      | some k => andThen (recur (.setDep k x v) s') fun _ s'' => (.ok v, s'')
  | .setDep k x v, s =>
    -- Computed.setDependency: if this computed has subscribers, observe the
    -- dependency (adding our updateSubscribers) and remember the unsubscriber;
    -- always record (dep, value) in the newest cache entry.
    match nth s.computeds k with
    | none => (.error .oob, s)
    | some c =>
      let s0 := { s with readLog := s.readLog ++ [(k, x)] }
      let step1 : Res :=
        if c.subscribers ≠ [] then
          andThen (recur (.observeCell x (.comp k)) s0) fun _ s1 =>
            (.ok none, s1.setComp k fun c' =>
              { c' with toUnsubscribe := c'.toUnsubscribe ++ [x] })
        else (.ok none, s0)
      andThen step1 fun _ s2 =>
        (.ok none, s2.setComp k (recordDep x v))
  | .observeCell (.wId i) sub, s =>
    -- SignalBase.observe on a writable: just add to the subscriber set.
    match nth s.signals i with
    | none => (.error .oob, s)
    | some _ => (.ok none, s.setSig i fun sg =>
        { sg with subscribers := addDedup sg.subscribers sub })
  | .observeCell (.cId i) sub, s =>
    -- Computed.observe: add, and when the set size becomes exactly 1, compute
    -- the value to (re)establish dependency tracking.
    match nth s.computeds i with
    | none => (.error .oob, s)
    | some c =>
      let subs' := addDedup c.subscribers sub
      let s1 := s.setComp i fun c' => { c' with subscribers := subs' }
      if subs'.length = 1 then
        andThen (recur (.computeC i) s1) fun _ s2 => (.ok none, s2)
      else (.ok none, s1)
  | .removeSubC (.wId i) sub, s =>
    -- SignalBase.unsubscribe on a writable: just delete.
    match nth s.signals i with
    | none => (.error .oob, s)
    | some _ => (.ok none, s.setSig i fun sg =>
        { sg with subscribers := sg.subscribers.filter (· ≠ sub) })
  | .removeSubC (.cId i) sub, s =>
    -- Computed.unsubscribe: delete; if no subscribers remain, run every stored
    -- unsubscriber (which may cascade) and clear the set.
    match nth s.computeds i with
    | none => (.error .oob, s)
    | some _ =>
      let s1 := s.setComp i fun c' =>
        { c' with subscribers := c'.subscribers.filter (· ≠ sub) }
      match nth s1.computeds i with
      | none => (.error .oob, s1)
      | some c1 =>
        if c1.subscribers = [] then
          andThen (dropGo recur i c1.toUnsubscribe s1) fun _ s2 =>
            (.ok none, s2.setComp i fun c' => { c' with toUnsubscribe := [] })
        else (.ok none, s1)
  | .updSubs (.wId i), s =>
    -- SignalBase.updateSubscribers on a writable: if there are subscribers and
    -- hasChanged(lastBroadcastValue, peek), notify all, then record the value.
    match nth s.signals i with
    | none => (.error .oob, s)
    | some sig =>
      if sig.subscribers ≠ [] && sig.hasChanged sig.lastBroadcastValue sig.value then
        andThen (recur (.notifyLoop (.wId i) []) s) fun _ s' =>
          (.ok none, s'.setSig i fun sg => { sg with lastBroadcastValue := sg.value })
      else (.ok none, s)
  | .updSubs (.cId i), s =>
    -- Same method on a computed: `this.peek` in the guard runs the cache/
    -- recompute machinery; the short-circuit on an empty subscriber set means
    -- the peek does not even happen then.
    match nth s.computeds i with
    | none => (.error .oob, s)
    | some c =>
      if c.subscribers ≠ [] then
        andThen (recur (.peekCell (.cId i)) s) fun v s' =>
          match nth s'.computeds i with
          | none => (.error .oob, s')
          | some c' =>
            if c'.hasChanged c'.lastBroadcastValue v then
              andThen (recur (.notifyLoop (.cId i) []) s') fun _ s'' =>
                (.ok none, s''.setComp i fun cc =>
                  { cc with lastBroadcastValue := cc.value })
            else (.ok none, s')
      else (.ok none, s)
  | .notifyLoop x visited, s =>
    -- `this._subscribers.forEach(subscriber => subscriber(this._value))` with
    -- live JS Set iteration: next entry = first not yet visited.
    match (s.subsOf x).find? (fun sub => sub ∉ visited) with
    | none => (.ok none, s)
    | some sub =>
      let deliver : Res :=
        match sub with
        | .ext n => (.ok none, { s with log := s.log ++ [(x, n, s.rawValue x)] })
        | .comp d => recur (.updSubs (.cId d)) s
      andThen deliver fun _ s' => recur (.notifyLoop x (visited ++ [sub])) s'
  | .setW i v, s =>
    -- Signal.set: assign unconditionally, then requestUpdate(): register with
    -- the batch set when one is open, else updateSubscribers() immediately.
    match nth s.signals i with
    | none => (.error .oob, s)
    | some _ =>
      let s1 := s.setSig i fun sg => { sg with value := v }
      match s1.batchedUpdateChecks with
      | some l => (.ok none, { s1 with batchedUpdateChecks := some (addDedupNat l i) })
      | none => recur (.updSubs (.wId i)) s1
  | .batch acts, s =>
    -- Signal.batch: open the dedup set if this is the outermost call, run the
    -- action, and only then flush and close.
    let flush := s.batchedUpdateChecks.isNone
    let s1 := if flush then { s with batchedUpdateChecks := some [] } else s
    andThen (actsGo recur acts s1) fun _ s2 =>
      if flush then
        andThen (flushGo recur (s2.batchedUpdateChecks.getD []) s2) fun _ s3 =>
          (.ok none, { s3 with batchedUpdateChecks := none })
      else (.ok none, s2)
  | .subscribeTop x e, s =>
    -- SignalBase.subscribe: observe, call the new callback with peek, then
    -- set lastBroadcastValue to the current value.
    andThen (recur (.observeCell x (.ext e)) s) fun _ s1 =>
      andThen (recur (.peekCell x) s1) fun v s2 =>
        let s3 := { s2 with log := s2.log ++ [(x, e, v)] }
        let s4 :=
          match x with
          | .wId i => s3.setSig i fun sg => { sg with lastBroadcastValue := sg.value }
          | .cId i => s3.setComp i fun cc => { cc with lastBroadcastValue := cc.value }
        (.ok none, s4)

/-- The fueled interpreter: structurally recursive on the depth bound. -/
def exec : Nat → Job → St → Res
  | 0, _, s => (.error .noFuel, s)
  | Nat.succ f, j, s => execBody (exec f) j s

/-- Run a list of top-level operations in order, stopping at the first error. -/
def execList (f : Nat) : List Job → St → Res
  | [], s => (.ok none, s)
  | j :: rest, s => andThen (exec f j s) fun _ s' => execList f rest s'

/-- Model of `Writable.set` from the older src/Observable.ts: unlike
`Signal.set` in Signal.ts it consults `hasChanged` before assigning; the
returned flag records whether `requestUpdate()` was reached. -/
def writableSet (w : Signal) (v : Val) : Signal × Bool :=
  if w.hasChanged w.value v then ({ w with value := v }, true) else (w, false)

/-- External-subscriber tags of a subscriber set, in order. -/
def extTags : List Sub → List Nat
  | [] => []
  | .ext n :: rest => n :: extTags rest
  | .comp _ :: rest => extTags rest

/-- Last value assigned to writable `i` by a list of batched `set` calls, or
its current value when the list never sets `i`. -/
def finalVal (sets : List (Nat × Val)) (s : St) (i : Nat) : Val :=
  sets.foldl (fun acc p => if p.1 = i then p.2 else acc) (s.rawValue (.wId i))

/-- The `_value` assignments performed by a list of batched `set` calls, in
order (each one is `Signal.set`'s unconditional `this._value = value`). -/
def applySets : List (Nat × Val) → St → St
  | [], s => s
  | (i, v) :: rest, s => applySets rest (s.setSig i fun sg => { sg with value := v })

/-- The test `updateSubscribers` performs on writable `i` before notifying:
a non-empty subscriber set and a value change per the cell's policy. -/
def wGuard (s : St) (i : Nat) : Bool :=
  match nth s.signals i with
  | none => false
  | some sig => decide (sig.subscribers ≠ []) && sig.hasChanged sig.lastBroadcastValue sig.value

/-- The notifications a full broadcast from writable `i` delivers to external
subscribers: one entry per tag, carrying the current value. -/
def wNotifs (s : St) (i : Nat) : List (CellId × Nat × Val) :=
  (extTags (s.subsOf (.wId i))).map (fun n => ((.wId i : CellId), n, s.rawValue (.wId i)))

/-- Decidable check that every subscriber set in the state is duplicate-free
(the invariant JS `Set`s maintain by construction). -/
def nodupState (s : St) : Bool :=
  s.signals.all (fun sg => decide sg.subscribers.Nodup) &&
    s.computeds.all (fun c => decide c.subscribers.Nodup)

/-- The dedup set of writables registered by a list of batched `set` calls. -/
def affected (sets : List (Nat × Val)) : List Nat :=
  sets.foldl (fun acc p => addDedupNat acc p.1) []

/-- The primitive state updates performed by the notification / recomputation
cascade (every code path reachable from `updateSubscribers` of a computed,
`peek`, `computeValue`, `get`, `setDependency`, `observe` with a computed
callback, and the unsubscribe loop). -/
inductive SafeStep : St → St → Prop
  | sigSub (s : St) (i k : Nat) :
      SafeStep s (s.setSig i fun sg =>
        { sg with subscribers := addDedup sg.subscribers (.comp k) })
  | sigUnsub (s : St) (i k : Nat) :
      SafeStep s (s.setSig i fun sg =>
        { sg with subscribers := sg.subscribers.filter (· ≠ Sub.comp k) })
  | compSub (s : St) (i k : Nat) :
      SafeStep s (s.setComp i fun c =>
        { c with subscribers := addDedup c.subscribers (.comp k) })
  | compUnsub (s : St) (i k : Nat) :
      SafeStep s (s.setComp i fun c =>
        { c with subscribers := c.subscribers.filter (· ≠ Sub.comp k) })
  | compMisc (s : St) (i : Nat) (g : Computed → Computed)
      (hsubs : ∀ c, (g c).subscribers = c.subscribers)
      (hhc : ∀ c, (g c).hasChanged = c.hasChanged)
      (hget : ∀ c, (g c).getter = c.getter)
      (hsize : ∀ c, (g c).cacheSize = c.cacheSize) :
      SafeStep s (s.setComp i g)
  | ctxSet (s : St) (l : List Nat) : SafeStep s { s with context := l }
  | logC (s : St) (i n : Nat) (v : Val) :
      SafeStep s { s with log := s.log ++ [(.cId i, n, v)] }
  | runsAdd (s : St) (i : Nat) :
      SafeStep s { s with getterRuns := s.getterRuns ++ [i] }
  | readsAdd (s : St) (k : Nat) (x : CellId) :
      SafeStep s { s with readLog := s.readLog ++ [(k, x)] }

/-- Everything the cascade leaves intact, apart from the logs: heap sizes,
every writable's value, broadcast bookkeeping and policy, every cell's
external subscribers (with order and dedup), computed getters / policies /
cache sizes, and the batch dedup set. -/
def UnchCore (s s' : St) : Prop :=
  s'.signals.length = s.signals.length ∧
  s'.computeds.length = s.computeds.length ∧
  (∀ i, (nth s'.signals i).map Signal.value = (nth s.signals i).map Signal.value) ∧
  (∀ i, (nth s'.signals i).map Signal.lastBroadcastValue =
    (nth s.signals i).map Signal.lastBroadcastValue) ∧
  (∀ i, (nth s'.signals i).map Signal.hasChanged = (nth s.signals i).map Signal.hasChanged) ∧
  (∀ i, (nth s'.computeds i).map Computed.hasChanged =
    (nth s.computeds i).map Computed.hasChanged) ∧
  (∀ i, (nth s'.computeds i).map Computed.getter = (nth s.computeds i).map Computed.getter) ∧
  (∀ i, (nth s'.computeds i).map Computed.cacheSize =
    (nth s.computeds i).map Computed.cacheSize) ∧
  (∀ y, extTags (s'.subsOf y) = extTags (s.subsOf y)) ∧
  (∀ y, (s.subsOf y).Nodup → (s'.subsOf y).Nodup) ∧
  s'.batchedUpdateChecks = s.batchedUpdateChecks

/-- Strengthening of `UnchCore`: the log grows only by computed-cell notifications, and
the getter-run and read logs only grow. -/
def Unch (s s' : St) : Prop :=
  UnchCore s s' ∧
  (∃ t, s'.log = s.log ++ t ∧ ∀ e ∈ t, ∃ i n v, e = ((.cId i : CellId), n, v)) ∧
  (∃ t, s'.getterRuns = s.getterRuns ++ t) ∧
  (∃ t, s'.readLog = s.readLog ++ t)

def CSafe : Job → Prop
  | .peekCell _ => True
  | .computeC _ => True
  | .getCell _ => True
  | .setDep _ _ _ => True
  | .observeCell _ (.comp _) => True
  | .removeSubC _ (.comp _) => True
  | .updSubs (.cId _) => True
  | .notifyLoop (.cId _) _ => True
  | _ => False

/-- Star of cascade steps. -/
abbrev SStar (s s' : St) : Prop := Relation.ReflTransGen SafeStep s s'

/-- Concrete state for the C9 witness: one writable whose subscriber set holds
the computed's callback, one computed with a sole external subscriber and a
recorded unsubscriber for that edge. -/
def unsubSt : St :=
  ⟨[⟨some 1, some 1, [.comp 0], notEqual⟩],
   [⟨some 1, none, [.ext 5], notEqual, .getW 0, 1, [], [.wId 0]⟩], [], none, [], [], []⟩


/-! ## Validation examples

Each example replays one of the repository's own test scenarios
(src/\*.test files) against the embedding, with multiplication rendered
as `x + x`. -/

/-- Test state for the repo's `cacheSize: 2` caching test. -/
def cacheTestSt : St :=
  ⟨[Signal.new (some 1)], [Computed.new (.add (.getW 0) (.getW 0)) 2], [], none, [], [], []⟩

/-- Operations of the repo's `cacheSize: 2` caching test. -/
def cacheTestOps : List Job :=
  [ .getCell (.cId 0), .setW 0 (some 2), .getCell (.cId 0),
    .setW 0 (some 1), .getCell (.cId 0),
    .setW 0 (some 2), .getCell (.cId 0),
    .setW 0 (some 3), .getCell (.cId 0),
    .setW 0 (some 1), .getCell (.cId 0),
    .setW 0 (some 3), .getCell (.cId 0) ]

/-- Nested-computed state: `doubled = 2 * number`, `quadrupled = 2 * doubled`. -/
def nestedSt : St :=
  ⟨[Signal.new (some 1)],
   [Computed.new (.add (.getW 0) (.getW 0)) 1,
    Computed.new (.add (.getC 0) (.getC 0)) 1], [], none, [], [], []⟩

/-- Batch state: two independent writables sharing one external subscriber. -/
def batchTestSt : St :=
  ⟨[Signal.new (some 1), Signal.new (some 10)], [], [], none, [], [], []⟩

/-- State for the throwing-getter scenarios: one writable holding `-1`, one
computed whose getter reads it and throws exactly when it is positive. -/
def throwSt : St :=
  ⟨[Signal.new (some (-1))],
   [Computed.new (.ifPos (.getW 0) .throw (.getW 0)) 1], [], none, [], [], []⟩

/-- A computed cell whose getter always throws, with no writables. -/
def throwOnlySt : St := ⟨[], [Computed.new .throw 1], [], none, [], [], []⟩

/-- State for the C4 counterexample: one writable, identity getter,
`cacheSize = 1`. -/
def lruSt : St :=
  ⟨[Signal.new (some 0)], [Computed.new (.getW 0) 1], [], none, [], [], []⟩

/-- State for the C8 counterexample: a writable whose equality policy reports
every value as unchanged, inside an open batch. -/
def neverChangedSt : St :=
  ⟨[Signal.newWith (some 0) (fun _ _ => false)], [], [], some [], [], [], []⟩

/-- State for the C10 counterexample: a dependency-free computed cell. -/
def reobserveSt : St := ⟨[], [Computed.new (.const (some 7)) 1], [], none, [], [], []⟩

/-- Jobs on whose execution paths no subscriber is ever invoked: everything
reachable from `observe` / `peek` / `get` / `computeValue` / `unsubscribe`,
which never reach `updateSubscribers`. -/
def OSafe : Job → Prop
  | .peekCell _ => True
  | .computeC _ => True
  | .getCell _ => True
  | .setDep _ _ _ => True
  | .observeCell _ _ => True
  | .removeSubC _ _ => True
  | _ => False

/-- A computed cell with one existing external subscriber, for the C10
witness. -/
def observedSt : St :=
  ⟨[], [⟨some 7, none, [.ext 1], notEqual, .const (some 7), 1, [], []⟩], [], none, [], [], []⟩

/-- The writable-cell entries of a log fragment. -/
def wEntries (i : Nat) (t : List (CellId × Nat × Val)) : List (CellId × Nat × Val) :=
  t.filter (fun p => p.1 = CellId.wId i)

/-- The external subscribers of `l` not yet visited, in order. -/
def pendingExts (l : List Sub) (visited : List Sub) : List Nat :=
  (extTags l).filter (fun n => Sub.ext n ∉ visited)

def batchSets : List (Nat × Val) := [(0, some 2), (0, some 3), (1, some 6), (1, some 5)]

def batchSt : St :=
  ⟨[⟨some 1, some 1, [.ext 0], notEqual⟩, ⟨some 5, some 5, [.ext 1], notEqual⟩],
   [], [], none, [], [], []⟩

def customEqSt : St :=
  ⟨[⟨some 0, some 0, [.ext 0], fun _ _ => false⟩], [], [], none, [], [], []⟩

/-- Whether an expression (a getter body) contains a read of computed `c`. -/
def mentionsC (c : Nat) : Expr → Bool
  | .const _ => false
  | .throw => false
  | .getW _ => false
  | .getC d => d = c
  | .add a b => mentionsC c a || mentionsC c b
  | .ifPos x t e => mentionsC c x || mentionsC c t || mentionsC c e

/-- Jobs that perform no direct `get`/`peek`/`observe`/`subscribe`/
`computeValue`/`setDependency` call on computed `c` (dependency changes —
`set`, batches of them, notification, unsubscription — all qualify). -/
def AvoidsC (c : Nat) : Job → Prop
  | .peekCell x => x ≠ .cId c
  | .computeC d => d ≠ c
  | .getCell x => x ≠ .cId c
  | .setDep k x _ => k ≠ c ∧ x ≠ .cId c
  | .observeCell x sub => x ≠ .cId c ∧ sub ≠ .comp c
  | .removeSubC _ _ => True
  | .updSubs x => x ≠ .cId c
  | .notifyLoop _ _ => True
  | .setW _ _ => True
  | .batch acts => ∀ a ∈ acts, AvoidsC c a
  | .subscribeTop x _ => x ≠ .cId c

/-- Computed `c` is inert in state `s`: its update callback is registered
nowhere, it is not mid-recomputation on the context stack, and no getter or
recorded dependency snapshot of any computed reads it. -/
def cUntouched (c : Nat) (s : St) : Prop :=
  (∀ y, Sub.comp c ∉ s.subsOf y) ∧
  c ∉ s.context ∧
  (∀ d cc, nth s.computeds d = some cc →
    mentionsC c cc.getter = false ∧
    ∀ e ∈ cc.cache, ∀ p ∈ e.dependencies, p.1 ≠ CellId.cId c)

/-- Execution of a job starting from an inert `c` leaves `c` inert and never
appends `c` to the getter-run trace. -/
def LazyRel (c : Nat) (s s' : St) : Prop :=
  (∃ u, s'.getterRuns = s.getterRuns ++ u ∧ c ∉ u) ∧ cUntouched c s'

/-- Decidable form of `cUntouched` for concrete states. -/
def cUntouchedB (c : Nat) (s : St) : Bool :=
  s.signals.all (fun sg => decide (Sub.comp c ∉ sg.subscribers)) &&
  s.computeds.all (fun cc => decide (Sub.comp c ∉ cc.subscribers)) &&
  decide (c ∉ s.context) &&
  s.computeds.all (fun cc => !(mentionsC c cc.getter) &&
    cc.cache.all (fun e => e.dependencies.all (fun p => decide (p.1 ≠ CellId.cId c))))

def lazySt : St :=
  ⟨[⟨some 1, some 1, [.ext 0], notEqual⟩],
   [⟨some 0, none, [], notEqual, .getW 0, 1, [], []⟩], [], none, [], [], []⟩

/-- Cache entry left by one recomputation of the one-dependency computed:
the computed value with the dependency snapshot that produced it. -/
def mkEntry (u : Val) : CachedResult := ⟨u, [(CellId.wId 0, u)]⟩

/-- The one-writable / one-computed family used for the cache-cycle analysis:
`w0 = v` and a computed over `getW 0` with `cacheSize = N`, cached history
`hist` (most recent first), current value `cv`. -/
def c4Stx (N : Nat) (v cv : Val) (cache : List CachedResult) (ctx : List Nat)
    (runs : List Nat) (reads : List (Nat × CellId)) : St :=
  ⟨[⟨v, none, [], notEqual⟩], [⟨cv, none, [], notEqual, .getW 0, N, cache, []⟩],
   ctx, none, [], runs, reads⟩

def c4St (N : Nat) (v cv : Val) (hist : List Val) (runs : List Nat)
    (reads : List (Nat × CellId)) : St :=
  c4Stx N v cv (hist.map mkEntry) [] runs reads

/-- Drive the dependency through a list of values, reading the computed after
each `set`. -/
def c4drive (f : Nat) : List Val → St → St
  | [], s => s
  | v :: rest, s => c4drive f rest (exec f (.peekCell (.cId 0)) (exec f (.setW 0 v) s).2).2

/-- Last element of the list, or the default. -/
def lastD : List Val → Val → Val
  | [], d => d
  | w :: rest, _ => lastD rest w

/-- Each driven value misses the cache contents present when it is read. -/
def c4misses (N : Nat) : List Val → List Val → Prop
  | [], _ => True
  | w :: rest, hist => (∀ u ∈ hist, u ≠ w) ∧ c4misses N rest (w :: hist.take (N - 1))

/-- Getter bodies that read no computed cell (only writables or constants). -/
def noGetC : Expr → Bool
  | .const _ => true
  | .throw => true
  | .getW _ => true
  | .getC _ => false
  | .add a b => noGetC a && noGetC b
  | .ifPos x t e => noGetC x && noGetC t && noGetC e

/-- What one getter evaluation does to the dependency graph while computed
`c` is on top of the context stack: the context and every computed's
subscriber set are untouched, and `c` is newly registered as a dependent of
exactly the writables recorded in the read-log delta. -/
def C3Rel (c : Nat) (s s' : St) : Prop :=
  s'.context = s.context ∧
  (nth s'.computeds c).map Computed.subscribers =
    (nth s.computeds c).map Computed.subscribers ∧
  (∀ y, s'.subsOf (.cId y) = s.subsOf (.cId y)) ∧
  ∃ t, s'.readLog = s.readLog ++ t ∧
    (∀ e ∈ t, ∃ j, e = (c, CellId.wId j)) ∧
    (∀ j, Sub.comp c ∈ s'.subsOf (.wId j) ↔
      Sub.comp c ∈ s.subsOf (.wId j) ∨ (c, CellId.wId j) ∈ t)

def condSt : St :=
  ⟨[⟨some 0, none, [.comp 0], notEqual⟩, ⟨some 5, none, [.comp 0], notEqual⟩],
   [⟨some 5, none, [.ext 7], notEqual,
     .ifPos (.getW 0) (.add (.getW 0) (.getW 1)) (.const (some 0)), 1, [],
     [.wId 0, .wId 1]⟩],
   [], none, [], [], []⟩

theorem sanityCacheLru : (execList 30 cacheTestOps cacheTestSt).2.getterRuns = [0, 0, 0, 0] := by decide

theorem sanityNested :
    (execList 30 [.observeCell (.cId 1) (.ext 0), .setW 0 (some 2), .setW 0 (some 3)]
      nestedSt).2.log =
    [(.cId 1, 0, some 8), (.cId 1, 0, some 12)] := by decide

theorem sanityBatch :
    (execList 30
      [ .observeCell (.wId 0) (.ext 7), .observeCell (.wId 1) (.ext 7),
        .batch [ .setW 0 (some 2), .setW 1 (some 20) ] ] batchTestSt).2.log =
    [(.wId 0, 7, some 2), (.wId 1, 7, some 20)] := by decide

theorem sanityThrow :
    (execList 30
      [ .observeCell (.wId 0) (.ext 7),
        .batch [ .setW 0 (some 2), .setW 0 (some 3), .setW 0 (some 1) ] ] batchTestSt).2.log =
    [] := by decide



/-! ## Claim theorems -/

/-- C7: the claim says every recomputation pushes the Computed on the
process-wide context stack and pops it on exit "including when the getter
exits by throwing an exception".  The code has no try/finally: evaluating a
computed whose getter throws propagates the exception but leaves the cell on
`SignalBase.context` — the stack after the failed recomputation is `[0]`,
not the empty stack it started from. -/
theorem C7_context_not_popped_on_throw :
    (exec 20 (.peekCell (.cId 0)) throwOnlySt).1 = .error .thrown ∧
    throwOnlySt.context = [] ∧
    (exec 20 (.peekCell (.cId 0)) throwOnlySt).2.context = [0] := by decide

/-- C6: the claim says a throwing getter leaves the cached state untouched and
a subsequent read retries the getter.  In the code the exception does
propagate synchronously and the held `_value` survives, but `computeValue`
has already unshifted a fresh cache entry (seeded with the old value) before
running the getter; the scrutinee read recorded `(w0, 1)` into it, so after
the throw the cache holds a corrupted entry `{value: -1, deps: [(w0, 1)]}`.
A subsequent read at `w0 = 1` matches that entry and serves the stale `-1`
without ever re-running the getter (`getterRuns` stays at two entries). -/
theorem C6_failed_getter_wedges_cache :
    (exec 20 (.getCell (.cId 0)) throwSt).1 = .ok (some (-1)) ∧
    (nth (execList 20 [.getCell (.cId 0)] throwSt).2.computeds 0).map Computed.cache =
      some [⟨some (-1), [(.wId 0, some (-1))]⟩] ∧
    (execList 20 [.getCell (.cId 0), .setW 0 (some 1), .getCell (.cId 0)] throwSt).1 =
      .error .thrown ∧
    (nth (execList 20 [.getCell (.cId 0), .setW 0 (some 1), .getCell (.cId 0)]
        throwSt).2.computeds 0).map Computed.cache =
      some [⟨some (-1), [(.wId 0, some 1)]⟩] ∧
    (exec 20 (.getCell (.cId 0))
        (execList 20 [.getCell (.cId 0), .setW 0 (some 1), .getCell (.cId 0)] throwSt).2).1 =
      .ok (some (-1)) ∧
    (exec 20 (.getCell (.cId 0))
        (execList 20 [.getCell (.cId 0), .setW 0 (some 1), .getCell (.cId 0)]
          throwSt).2).2.getterRuns = [0, 0] := by decide

/-- C4 counterexample: with `cacheSize = N = 1`, driving the dependency
through the `N + 1 = 2` distinct values `0, 1` (reading the Computed after
each) and then back to the oldest value `0` invokes the getter three times,
not the `N + 1 = 2` times the claim asserts: the entry for the oldest value
is evicted when the second distinct value is computed. -/
theorem C4_oldest_value_recomputes :
    (execList 20
      [ .getCell (.cId 0), .setW 0 (some 1), .getCell (.cId 0),
        .setW 0 (some 0), .getCell (.cId 0) ] lruSt).2.getterRuns = [0, 0, 0] ∧
    ¬ ((execList 20
      [ .getCell (.cId 0), .setW 0 (some 1), .getCell (.cId 0),
        .setW 0 (some 0), .getCell (.cId 0) ] lruSt).2.getterRuns.length = 1 + 1) := by decide

/-- C8 counterexample: `Signal.set` (Signal.ts) assigns unconditionally and
always calls `requestUpdate()`.  With a policy that reports `5` as unchanged
from `0`, the claim says the stored value stays `0` and no propagation is
requested; in fact a subsequent peek returns `5` and the cell has been
registered with the batch coordinator. -/
theorem C8_set_assigns_unconditionally :
    (exec 20 (.setW 0 (some 5)) neverChangedSt).2.rawValue (.wId 0) = some 5 ∧
    (exec 20 (.setW 0 (some 5)) neverChangedSt).2.batchedUpdateChecks = some [0] := by decide

/-- C10 counterexample: `observe` on a Computed that already has a subscriber
is claimed never to run the getter, but the code checks `size === 1` after
the `Set.add`; re-observing the sole existing subscriber leaves the size at 1
and triggers a second full recomputation. -/
theorem C10_reobserve_sole_subscriber_recomputes :
    (execList 20 [.observeCell (.cId 0) (.ext 0)] reobserveSt).2.subsOf (.cId 0) = [.ext 0] ∧
    (execList 20 [.observeCell (.cId 0) (.ext 0), .observeCell (.cId 0) (.ext 0)]
      reobserveSt).2.getterRuns = [0, 0] := by decide

theorem length_updAt (l : List α) (i : Nat) (g : α → α) : (updAt l i g).length = l.length := by
  induction l generalizing i with
  | nil => rfl
  | cons a t ih => cases i <;> simp [updAt, ih]

theorem nth_updAt_self (l : List α) (i : Nat) (g : α → α) :
    nth (updAt l i g) i = (nth l i).map g := by
  induction l generalizing i with
  | nil => cases i <;> rfl
  | cons a t ih => cases i <;> simp [updAt, nth, ih]

theorem nth_updAt_ne (l : List α) {i j : Nat} (g : α → α) (h : j ≠ i) :
    nth (updAt l i g) j = nth l j := by
  induction l generalizing i j with
  | nil => cases j <;> rfl
  | cons a t ih =>
    cases i with
    | zero => cases j with
      | zero => exact absurd rfl h
      | succ j => simp [updAt, nth]
    | succ i => cases j with
      | zero => simp [updAt, nth]
      | succ j => simpa [updAt, nth] using ih (fun hh => h (by rw [hh]))

theorem nth_updAt (l : List α) (i j : Nat) (g : α → α) :
    nth (updAt l i g) j = if j = i then (nth l i).map g else nth l j := by
  by_cases h : j = i
  · subst h; simp [nth_updAt_self]
  · simp [h, nth_updAt_ne _ _ h]

theorem subsOf_setSig_self (s : St) (i : Nat) (g : Signal → Signal) :
    (s.setSig i g).subsOf (.wId i) =
      ((nth s.signals i).map (fun sg => (g sg).subscribers)).getD [] := by
  simp only [St.subsOf, St.setSig, nth_updAt_self]
  cases nth s.signals i <;> simp

theorem subsOf_setSig_wne (s : St) {i j : Nat} (g : Signal → Signal) (h : j ≠ i) :
    (s.setSig i g).subsOf (.wId j) = s.subsOf (.wId j) := by
  simp [St.subsOf, St.setSig, nth_updAt_ne _ _ h]

theorem subsOf_setSig_c (s : St) (i : Nat) (g : Signal → Signal) (j : Nat) :
    (s.setSig i g).subsOf (.cId j) = s.subsOf (.cId j) := by
  simp [St.subsOf, St.setSig]

theorem subsOf_setComp_self (s : St) (i : Nat) (g : Computed → Computed) :
    (s.setComp i g).subsOf (.cId i) =
      ((nth s.computeds i).map (fun c => (g c).subscribers)).getD [] := by
  simp only [St.subsOf, St.setComp, nth_updAt_self]
  cases nth s.computeds i <;> simp

theorem subsOf_setComp_cne (s : St) {i j : Nat} (g : Computed → Computed) (h : j ≠ i) :
    (s.setComp i g).subsOf (.cId j) = s.subsOf (.cId j) := by
  simp [St.subsOf, St.setComp, nth_updAt_ne _ _ h]

theorem subsOf_setComp_w (s : St) (i : Nat) (g : Computed → Computed) (j : Nat) :
    (s.setComp i g).subsOf (.wId j) = s.subsOf (.wId j) := by
  simp [St.subsOf, St.setComp]

/-- Membership in the subscriber set of any cell after a `setSig` whose
transform only filters the subscribers implies prior membership. -/
theorem mem_subsOf_setSig_filter {s : St} {i : Nat} {p : Sub → Bool} {y : CellId} {q : Sub}
    (h : q ∈ (s.setSig i (fun sg => { sg with subscribers := sg.subscribers.filter p })).subsOf y) :
    q ∈ s.subsOf y := by
  cases y with
  | cId j => rwa [subsOf_setSig_c] at h
  | wId j =>
    by_cases hji : j = i
    · subst hji
      rw [subsOf_setSig_self] at h
      cases hget : nth s.signals j with
      | none => rw [hget] at h; simp at h
      | some sg =>
        rw [hget] at h
        simp only [Option.map_some, Option.getD_some] at h
        simp [St.subsOf, hget]
        exact List.mem_of_mem_filter h
    · rwa [subsOf_setSig_wne _ _ hji] at h

theorem mem_subsOf_setComp_filter {s : St} {i : Nat} {p : Sub → Bool} {y : CellId} {q : Sub}
    (h : q ∈ (s.setComp i
      (fun c => { c with subscribers := c.subscribers.filter p })).subsOf y) :
    q ∈ s.subsOf y := by
  cases y with
  | wId j => rwa [subsOf_setComp_w] at h
  | cId j =>
    by_cases hji : j = i
    · subst hji
      rw [subsOf_setComp_self] at h
      cases hget : nth s.computeds j with
      | none => rw [hget] at h; simp at h
      | some c =>
        rw [hget] at h
        simp only [Option.map_some, Option.getD_some] at h
        simp [St.subsOf, hget]
        exact List.mem_of_mem_filter h
    · rwa [subsOf_setComp_cne _ _ hji] at h

theorem subsOf_setComp_keepSubs {s : St} {i : Nat} {g : Computed → Computed}
    (hg : ∀ c, (g c).subscribers = c.subscribers) (y : CellId) :
    (s.setComp i g).subsOf y = s.subsOf y := by
  cases y with
  | wId j => rw [subsOf_setComp_w]
  | cId j =>
    by_cases hji : j = i
    · subst hji
      rw [subsOf_setComp_self]
      simp only [St.subsOf]
      cases nth s.computeds j <;> simp [hg]
    · rw [subsOf_setComp_cne _ _ hji]

/-- During the unsubscribe cascade (`Computed.unsubscribe` and the
`Reflect.apply` loop over `_toUnsubscribe`) subscriber sets only shrink. -/
theorem removeSub_shrink :
    ∀ f x sub s y q, q ∈ ((exec f (.removeSubC x sub) s).2.subsOf y) → q ∈ s.subsOf y := by
  intro f
  induction f with
  | zero => intro x sub s y q h; simpa [exec] using h
  | succ f ih =>
    have dropLemma : ∀ (l : List CellId) (who : Nat) (s : St) (y : CellId) (q : Sub),
        q ∈ ((dropGo (exec f) who l s).2.subsOf y) → q ∈ s.subsOf y := by
      intro l
      induction l with
      | nil => intro who s y q h; simpa [dropGo] using h
      | cons d rest ihl =>
        intro who s y q h
        simp only [dropGo] at h
        rcases hrec : exec f (.removeSubC d (.comp who)) s with ⟨r, s'⟩
        have base := ih d (.comp who) s y q
        rw [hrec] at h base
        cases r with
        | error e => simp [andThen] at h; exact base h
        | ok v => simp [andThen] at h; exact base (ihl who s' y q h)
    intro x sub s y q h
    rw [exec] at h
    cases x with
    | wId i =>
      simp only [execBody] at h
      cases hget : nth s.signals i with
      | none => rw [hget] at h; simpa using h
      | some sig =>
        rw [hget] at h
        simp only at h
        exact mem_subsOf_setSig_filter h
    | cId i =>
      simp only [execBody] at h
      cases hget : nth s.computeds i with
      | none => rw [hget] at h; simpa using h
      | some c =>
        rw [hget] at h
        simp only at h
        set s1 := s.setComp i fun c' =>
          { c' with subscribers := c'.subscribers.filter (· ≠ sub) } with hs1
        have hmem1 : ∀ y q, q ∈ s1.subsOf y → q ∈ s.subsOf y := by
          intro y q hq
          exact mem_subsOf_setComp_filter (hs1 ▸ hq)
        cases hget1 : nth s1.computeds i with
        | none => rw [hget1] at h; exact hmem1 y q (by simpa using h)
        | some c1 =>
          rw [hget1] at h
          simp only at h
          by_cases hempty : c1.subscribers = []
          · rw [if_pos hempty] at h
            rcases hdrop : dropGo (exec f) i c1.toUnsubscribe s1 with ⟨r, s2⟩
            rw [hdrop] at h
            have hd := dropLemma c1.toUnsubscribe i s1 y q
            rw [hdrop] at hd
            cases r with
            | error e =>
              simp [andThen] at h
              exact hmem1 y q (hd h)
            | ok v =>
              simp [andThen] at h
              have h2 : q ∈ s2.subsOf y := by
                rwa [subsOf_setComp_keepSubs
                  (g := fun c' => { c' with toUnsubscribe := [] }) (fun c => rfl) y] at h
              exact hmem1 y q (hd h2)
          · rw [if_neg hempty] at h
            exact hmem1 y q h

theorem nth_eq_none_of_le {l : List α} {i : Nat} (h : l.length ≤ i) : nth l i = none := by
  induction l generalizing i with
  | nil => cases i <;> rfl
  | cons a t ih =>
    cases i with
    | zero => simp at h
    | succ i => simpa [nth] using ih (by simpa using h)

/-- The loop `dropGo` never adds subscriber memberships. -/
theorem dropGo_shrink (f : Nat) (who : Nat) :
    ∀ (l : List CellId) (s : St) (y : CellId) (q : Sub),
      q ∈ ((dropGo (exec f) who l s).2.subsOf y) → q ∈ s.subsOf y := by
  intro l
  induction l with
  | nil => intro s y q h; simpa [dropGo] using h
  | cons d rest ihl =>
    intro s y q h
    simp only [dropGo] at h
    rcases hrec : exec f (.removeSubC d (.comp who)) s with ⟨r, s'⟩
    have base := removeSub_shrink f d (.comp who) s y q
    rw [hrec] at h base
    cases r with
    | error e => simp [andThen] at h; exact base h
    | ok v => simp [andThen] at h; exact base (ihl s' y q h)

/-- After a successful `removeSubC x sub`, `sub` is gone from `x`'s set. -/
theorem removeSub_removes (f : Nat) (x : CellId) (sub : Sub) (s : St) :
    sub ∉ ((exec (f + 1) (.removeSubC x sub) s).2.subsOf x) := by
  rw [exec]
  cases x with
  | wId i =>
    simp only [execBody]
    cases hget : nth s.signals i with
    | none => simp [St.subsOf, hget]
    | some sig =>
      simp only
      rw [subsOf_setSig_self, hget]
      simp [List.mem_filter]
  | cId i =>
    simp only [execBody]
    cases hget : nth s.computeds i with
    | none => simp [St.subsOf, hget]
    | some c =>
      simp only
      set s1 := s.setComp i fun c' =>
        { c' with subscribers := c'.subscribers.filter (· ≠ sub) } with hs1
      have h1 : sub ∉ s1.subsOf (.cId i) := by
        rw [hs1, subsOf_setComp_self, hget]
        simp [List.mem_filter]
      cases hget1 : nth s1.computeds i with
      | none => simpa using h1
      | some c1 =>
        simp only
        by_cases hempty : c1.subscribers = []
        · rw [if_pos hempty]
          rcases hdrop : dropGo (exec f) i c1.toUnsubscribe s1 with ⟨r, s2⟩
          have hd := dropGo_shrink f i c1.toUnsubscribe s1 (.cId i) sub
          rw [hdrop] at hd
          cases r with
          | error e =>
            simp [andThen]
            intro hmem; exact h1 (hd hmem)
          | ok v =>
            simp [andThen]
            rw [subsOf_setComp_keepSubs
              (g := fun c' => { c' with toUnsubscribe := [] }) (fun c => rfl)]
            intro hmem; exact h1 (hd hmem)
        · rw [if_neg hempty]
          exact h1

/-- After a successful `dropGo` pass, `who`'s callback is gone from every
dependency in the processed list. -/
theorem dropGo_removes (f : Nat) (who : Nat) :
    ∀ (l : List CellId) (s : St) (v : Val) (s' : St),
      dropGo (exec (f + 1)) who l s = (.ok v, s') →
      ∀ X ∈ l, .comp who ∉ s'.subsOf X := by
  intro l
  induction l with
  | nil => intro s v s' h X hX; simp at hX
  | cons d rest ihl =>
    intro s v s' h X hX
    simp only [dropGo] at h
    rcases hrec : exec (f + 1) (.removeSubC d (.comp who)) s with ⟨r, s1⟩
    rw [hrec] at h
    cases r with
    | error e => simp [andThen] at h
    | ok v1 =>
      simp only [andThen] at h
      rcases List.mem_cons.mp hX with hXd | hXrest
      · subst hXd
        intro hmem
        have h0 := removeSub_removes f X (.comp who) s
        rw [hrec] at h0
        -- membership in s' pulls back through the remaining dropGo steps
        have : .comp who ∈ s1.subsOf X := by
          have := dropGo_shrink (f + 1) who rest s1 X (.comp who)
          rw [h] at this
          exact this hmem
        exact h0 this
      · exact ihl s1 v s' h X hXrest

theorem unchCore_refl (s : St) : UnchCore s s :=
  ⟨rfl, rfl, fun _ => rfl, fun _ => rfl, fun _ => rfl, fun _ => rfl, fun _ => rfl,
    fun _ => rfl, fun _ => rfl, fun _ h => h, rfl⟩

theorem unchCore_trans {a b c : St} (h1 : UnchCore a b) (h2 : UnchCore b c) : UnchCore a c := by
  obtain ⟨l1, l2, v1, lb1, hc1, chc1, g1, cs1, e1, nd1, bt1⟩ := h1
  obtain ⟨l1', l2', v1', lb1', hc1', chc1', g1', cs1', e1', nd1', bt1'⟩ := h2
  exact ⟨l1'.trans l1, l2'.trans l2, fun i => (v1' i).trans (v1 i),
    fun i => (lb1' i).trans (lb1 i), fun i => (hc1' i).trans (hc1 i),
    fun i => (chc1' i).trans (chc1 i), fun i => (g1' i).trans (g1 i),
    fun i => (cs1' i).trans (cs1 i), fun y => (e1' y).trans (e1 y),
    fun y h => nd1' y (nd1 y h), bt1'.trans bt1⟩

theorem unch_refl (s : St) : Unch s s :=
  ⟨unchCore_refl s, ⟨[], by simp⟩, ⟨[], by simp⟩, ⟨[], by simp⟩⟩

theorem unch_trans {a b c : St} (h1 : Unch a b) (h2 : Unch b c) : Unch a c := by
  obtain ⟨c1, ⟨t1, hlog1, ht1⟩, ⟨r1, hr1⟩, ⟨d1, hd1⟩⟩ := h1
  obtain ⟨c1', ⟨t1', hlog1', ht1'⟩, ⟨r1', hr1'⟩, ⟨d1', hd1'⟩⟩ := h2
  refine ⟨unchCore_trans c1 c1', ⟨t1 ++ t1', by rw [hlog1', hlog1, List.append_assoc], ?_⟩,
    ⟨r1 ++ r1', by rw [hr1', hr1, List.append_assoc]⟩,
    ⟨d1 ++ d1', by rw [hd1', hd1, List.append_assoc]⟩⟩
  intro e he
  rcases List.mem_append.mp he with h | h
  · exact ht1 e h
  · exact ht1' e h

theorem extTags_append_comp (l : List Sub) (k : Nat) :
    extTags (l ++ [.comp k]) = extTags l := by
  induction l with
  | nil => rfl
  | cons a t ih => cases a <;> simp [extTags, ih]

theorem extTags_addDedup_comp (l : List Sub) (k : Nat) :
    extTags (addDedup l (.comp k)) = extTags l := by
  unfold addDedup
  by_cases h : Sub.comp k ∈ l
  · simp [h]
  · simp [h, extTags_append_comp]

theorem extTags_filter_comp (l : List Sub) (k : Nat) :
    extTags (l.filter (· ≠ Sub.comp k)) = extTags l := by
  simp only [ne_eq, decide_not]
  induction l with
  | nil => rfl
  | cons a t ih =>
    rw [List.filter_cons]
    by_cases h : a = Sub.comp k
    · subst h
      rw [if_neg (by simp)]
      simpa [extTags] using ih
    · rw [if_pos (by simp [h])]
      cases a <;> simp [extTags, ih]

theorem nodup_addDedup (l : List Sub) (x : Sub) (h : l.Nodup) : (addDedup l x).Nodup := by
  unfold addDedup
  by_cases hx : x ∈ l
  · simpa [hx]
  · simp only [hx, if_false]
    simpa [List.nodup_append] using ⟨h, hx⟩

/-- Proof of `Unch` for a signal-heap update that keeps value, broadcast bookkeeping,
policy, external subscribers and dedup. -/
theorem unch_setSig (s : St) (i : Nat) (g : Signal → Signal)
    (hval : ∀ x, (g x).value = x.value)
    (hlb : ∀ x, (g x).lastBroadcastValue = x.lastBroadcastValue)
    (hhc : ∀ x, (g x).hasChanged = x.hasChanged)
    (hext : ∀ x, extTags (g x).subscribers = extTags x.subscribers)
    (hnd : ∀ x, x.subscribers.Nodup → (g x).subscribers.Nodup) :
    Unch s (s.setSig i g) := by
  refine ⟨⟨by simp [St.setSig, length_updAt], rfl, ?_, ?_, ?_, fun _ => rfl, fun _ => rfl,
    fun _ => rfl, ?_, ?_, rfl⟩, ⟨[], by simp [St.setSig], fun e h => by simp at h⟩,
    ⟨[], by simp [St.setSig]⟩, ⟨[], by simp [St.setSig]⟩⟩
  · intro j
    by_cases hji : j = i
    · subst hji; simp [St.setSig, nth_updAt_self]; cases nth s.signals j <;> simp [hval]
    · simp [St.setSig, nth_updAt_ne _ _ hji]
  · intro j
    by_cases hji : j = i
    · subst hji; simp [St.setSig, nth_updAt_self]; cases nth s.signals j <;> simp [hlb]
    · simp [St.setSig, nth_updAt_ne _ _ hji]
  · intro j
    by_cases hji : j = i
    · subst hji; simp [St.setSig, nth_updAt_self]; cases nth s.signals j <;> simp [hhc]
    · simp [St.setSig, nth_updAt_ne _ _ hji]
  · intro y
    cases y with
    | cId j => rw [subsOf_setSig_c]
    | wId j =>
      by_cases hji : j = i
      · subst hji
        rw [subsOf_setSig_self]
        simp only [St.subsOf]
        cases nth s.signals j <;> simp [hext]
      · rw [subsOf_setSig_wne _ _ hji]
  · intro y
    cases y with
    | cId j => rw [subsOf_setSig_c]; exact id
    | wId j =>
      by_cases hji : j = i
      · subst hji
        rw [subsOf_setSig_self]
        simp only [St.subsOf]
        cases nth s.signals j with
        | none => simp
        | some sg => intro h; exact hnd _ (by simpa using h)
      · rw [subsOf_setSig_wne _ _ hji]; exact id

/-- Proof of `Unch` for a computed-heap update that keeps policy, getter, cache size,
external subscribers and dedup. -/
theorem unch_setComp (s : St) (i : Nat) (g : Computed → Computed)
    (hhc : ∀ x, (g x).hasChanged = x.hasChanged)
    (hget : ∀ x, (g x).getter = x.getter)
    (hsize : ∀ x, (g x).cacheSize = x.cacheSize)
    (hext : ∀ x, extTags (g x).subscribers = extTags x.subscribers)
    (hnd : ∀ x, x.subscribers.Nodup → (g x).subscribers.Nodup) :
    Unch s (s.setComp i g) := by
  refine ⟨⟨rfl, by simp [St.setComp, length_updAt], fun _ => rfl, fun _ => rfl, fun _ => rfl,
    ?_, ?_, ?_, ?_, ?_, rfl⟩, ⟨[], by simp [St.setComp], fun e h => by simp at h⟩,
    ⟨[], by simp [St.setComp]⟩, ⟨[], by simp [St.setComp]⟩⟩
  · intro j
    by_cases hji : j = i
    · subst hji; simp [St.setComp, nth_updAt_self]; cases nth s.computeds j <;> simp [hhc]
    · simp [St.setComp, nth_updAt_ne _ _ hji]
  · intro j
    by_cases hji : j = i
    · subst hji; simp [St.setComp, nth_updAt_self]; cases nth s.computeds j <;> simp [hget]
    · simp [St.setComp, nth_updAt_ne _ _ hji]
  · intro j
    by_cases hji : j = i
    · subst hji; simp [St.setComp, nth_updAt_self]; cases nth s.computeds j <;> simp [hsize]
    · simp [St.setComp, nth_updAt_ne _ _ hji]
  · intro y
    cases y with
    | wId j => rw [subsOf_setComp_w]
    | cId j =>
      by_cases hji : j = i
      · subst hji
        rw [subsOf_setComp_self]
        simp only [St.subsOf]
        cases nth s.computeds j <;> simp [hext]
      · rw [subsOf_setComp_cne _ _ hji]
  · intro y
    cases y with
    | wId j => rw [subsOf_setComp_w]; exact id
    | cId j =>
      by_cases hji : j = i
      · subst hji
        rw [subsOf_setComp_self]
        simp only [St.subsOf]
        cases nth s.computeds j with
        | none => simp
        | some c => intro h; exact hnd _ (by simpa using h)
      · rw [subsOf_setComp_cne _ _ hji]; exact id

/-- Proof of `Unch` for updates that do not touch the heaps or the batch set. -/
theorem unch_ctx (s : St) (l : List Nat) : Unch s { s with context := l } := by
  refine ⟨⟨rfl, rfl, fun _ => rfl, fun _ => rfl, fun _ => rfl, fun _ => rfl, fun _ => rfl,
    fun _ => rfl, ?_, ?_, rfl⟩, ⟨[], by simp⟩, ⟨[], by simp⟩, ⟨[], by simp⟩⟩
  · intro y; cases y <;> rfl
  · intro y; cases y <;> exact id

theorem unch_logC (s : St) (i n : Nat) (v : Val) :
    Unch s { s with log := s.log ++ [(.cId i, n, v)] } := by
  refine ⟨⟨rfl, rfl, fun _ => rfl, fun _ => rfl, fun _ => rfl, fun _ => rfl, fun _ => rfl,
    fun _ => rfl, ?_, ?_, rfl⟩, ⟨[(.cId i, n, v)], rfl, by simp⟩, ⟨[], by simp⟩, ⟨[], by simp⟩⟩
  · intro y; cases y <;> rfl
  · intro y; cases y <;> exact id

theorem unch_runs (s : St) (i : Nat) : Unch s { s with getterRuns := s.getterRuns ++ [i] } := by
  refine ⟨⟨rfl, rfl, fun _ => rfl, fun _ => rfl, fun _ => rfl, fun _ => rfl, fun _ => rfl,
    fun _ => rfl, ?_, ?_, rfl⟩, ⟨[], by simp⟩, ⟨[i], rfl⟩, ⟨[], by simp⟩⟩
  · intro y; cases y <;> rfl
  · intro y; cases y <;> exact id

theorem unch_reads (s : St) (k : Nat) (x : CellId) :
    Unch s { s with readLog := s.readLog ++ [(k, x)] } := by
  refine ⟨⟨rfl, rfl, fun _ => rfl, fun _ => rfl, fun _ => rfl, fun _ => rfl, fun _ => rfl,
    fun _ => rfl, ?_, ?_, rfl⟩, ⟨[], by simp⟩, ⟨[], by simp⟩, ⟨[(k, x)], rfl⟩⟩
  · intro y; cases y <;> rfl
  · intro y; cases y <;> exact id

/-- One cascade step keeps the `Unch` bundle. -/
theorem SafeStep.unch {s s' : St} (h : SafeStep s s') : Unch s s' := by
  cases h with
  | sigSub i k =>
    exact unch_setSig _ _ _ (fun _ => rfl) (fun _ => rfl) (fun _ => rfl)
      (fun x => extTags_addDedup_comp _ _) (fun x => nodup_addDedup _ _)
  | sigUnsub i k =>
    exact unch_setSig _ _ _ (fun _ => rfl) (fun _ => rfl) (fun _ => rfl)
      (fun x => extTags_filter_comp _ _) (fun x h => h.filter _)
  | compSub i k =>
    exact unch_setComp _ _ _ (fun _ => rfl) (fun _ => rfl) (fun _ => rfl)
      (fun x => extTags_addDedup_comp _ _) (fun x => nodup_addDedup _ _)
  | compUnsub i k =>
    exact unch_setComp _ _ _ (fun _ => rfl) (fun _ => rfl) (fun _ => rfl)
      (fun x => extTags_filter_comp _ _) (fun x h => h.filter _)
  | compMisc i g hsubs hhc hget hsize =>
    exact unch_setComp _ _ _ hhc hget hsize (fun x => by rw [hsubs]) (fun x h => by
      rw [hsubs]; exact h)
  | ctxSet l => exact unch_ctx _ _
  | logC i n v => exact unch_logC _ _ _ _
  | runsAdd i => exact unch_runs _ _
  | readsAdd k x => exact unch_reads _ _ _

/-- Chains of cascade steps keep the bundle. -/
theorem star_unch {s s' : St} (h : Relation.ReflTransGen SafeStep s s') : Unch s s' := by
  induction h with
  | refl => exact unch_refl _
  | tail _ hstep ih => exact unch_trans ih hstep.unch

theorem updAt_congr (l : List α) (i : Nat) (g1 g2 : α → α)
    (h : ∀ a, nth l i = some a → g1 a = g2 a) : updAt l i g1 = updAt l i g2 := by
  induction l generalizing i with
  | nil => rfl
  | cons a t ih =>
    cases i with
    | zero => simp [updAt, h a rfl]
    | succ n =>
      simp only [updAt, List.cons.injEq, true_and]
      exact ih n (fun b hb => h b hb)

/-- Every execution of a cascade-safe job is a chain of `SafeStep`s. -/
theorem safeStar : ∀ f j s, CSafe j → SStar s (exec f j s).2 := by
  intro f
  induction f with
  | zero => intro j s _; rw [exec]
  | succ f ih =>
    intro j s hj
    have hEval : ∀ e s, SStar s (evalGo (exec f) e s).2 := by
      intro e
      induction e with
      | const v => intro s; exact Relation.ReflTransGen.refl
      | throw => intro s; exact Relation.ReflTransGen.refl
      | getW i => intro s; exact ih (.getCell (.wId i)) s trivial
      | getC i => intro s; exact ih (.getCell (.cId i)) s trivial
      | add a b iha ihb =>
        intro s
        simp only [evalGo]
        rcases ha : evalGo (exec f) a s with ⟨r, s1⟩
        cases r with
        | error e => simp [andThen]; have := iha s; rw [ha] at this; exact this
        | ok va =>
          simp only [andThen]
          rcases hb : evalGo (exec f) b s1 with ⟨r2, s2⟩
          have h1 := iha s; rw [ha] at h1
          have h2 := ihb s1; rw [hb] at h2
          cases r2 with
          | error e => simp [andThen]; exact h1.trans h2
          | ok vb => simp [andThen]; exact h1.trans h2
      | ifPos c t e ihc iht ihe =>
        intro s
        simp only [evalGo]
        rcases hc : evalGo (exec f) c s with ⟨r, s1⟩
        cases r with
        | error err => simp [andThen]; have := ihc s; rw [hc] at this; exact this
        | ok vc =>
          simp only [andThen]
          have h1 := ihc s; rw [hc] at h1
          by_cases hp : isPos vc
          · simp only [hp, if_true]
            have h2 := iht s1
            exact h1.trans h2
          · simp only [hp, if_false]
            have h2 := ihe s1
            exact h1.trans h2
    have hCheck : ∀ (deps : List (CellId × Val)) s,
        SStar s (checkGo (exec f) deps s).2 := by
      intro deps
      induction deps with
      | nil => intro s; exact Relation.ReflTransGen.refl
      | cons d rest ihd =>
        intro s
        rcases d with ⟨x, u⟩
        simp only [checkGo]
        rcases hp : exec f (.peekCell x) s with ⟨r, s1⟩
        have h1 := ih (.peekCell x) s trivial; rw [hp] at h1
        cases r with
        | error e => exact h1
        | ok v =>
          dsimp only
          by_cases hv : v = u
          · rw [if_pos hv]
            exact h1.trans (ihd s1)
          · rw [if_neg hv]
            exact h1
    have hScan : ∀ (entries : List CachedResult) s,
        SStar s (scanGo (exec f) entries s).2 := by
      intro entries
      induction entries with
      | nil => intro s; exact Relation.ReflTransGen.refl
      | cons e rest ihe =>
        intro s
        simp only [scanGo]
        rcases hc : checkGo (exec f) e.dependencies s with ⟨r, s1⟩
        have h1 := hCheck e.dependencies s; rw [hc] at h1
        cases r with
        | error err => exact h1
        | ok b =>
          cases b with
          | true => exact h1
          | false =>
            dsimp only
            rcases hs2 : scanGo (exec f) rest s1 with ⟨r2, s2⟩
            have h2 := ihe s1; rw [hs2] at h2
            cases r2 with
            | error err => exact h1.trans h2
            | ok o => cases o <;> exact h1.trans h2
    have hDrop : ∀ (l : List CellId) (who : Nat) s,
        SStar s (dropGo (exec f) who l s).2 := by
      intro l who
      induction l with
      | nil => intro s; exact Relation.ReflTransGen.refl
      | cons d rest ihd =>
        intro s
        simp only [dropGo]
        rcases hr : exec f (.removeSubC d (.comp who)) s with ⟨r, s1⟩
        have h1 := ih (.removeSubC d (.comp who)) s trivial; rw [hr] at h1
        cases r with
        | error e => simp [andThen]; exact h1
        | ok v => simp only [andThen]; exact h1.trans (ihd s1)
    rw [exec]
    cases j with
    | peekCell x =>
      cases x with
      | wId i =>
        simp only [execBody]
        cases nth s.signals i <;> exact Relation.ReflTransGen.refl
      | cId i =>
        simp only [execBody]
        cases hget : nth s.computeds i with
        | none => exact Relation.ReflTransGen.refl
        | some c =>
          simp only
          rcases hs1 : scanGo (exec f) c.cache s with ⟨r, s1⟩
          have h1 := hScan c.cache s; rw [hs1] at h1
          cases r with
          | error e => exact h1
          | ok o =>
            cases o with
            | some k =>
              simp only
              refine h1.trans (Relation.ReflTransGen.single ?_)
              refine SafeStep.compMisc s1 i (adoptHit k) ?_ ?_ ?_ ?_ <;>
                intro c' <;> unfold adoptHit <;>
                rcases extractAt c'.cache k with _ | ⟨e, rest⟩ <;> rfl
            | none =>
              simp only
              rcases h2r : exec f (.computeC i) s1 with ⟨r2, s2⟩
              have h2 := ih (.computeC i) s1 trivial; rw [h2r] at h2
              cases r2 with
              | error e => simp [andThen]; exact h1.trans h2
              | ok v => simp [andThen]; exact h1.trans h2
    | computeC i =>
      simp only [execBody]
      cases hget : nth s.computeds i with
      | none => exact Relation.ReflTransGen.refl
      | some c =>
        simp only
        set s1 := { s with context := s.context ++ [i] } with hs1
        have step1 : SStar s s1 := Relation.ReflTransGen.single (SafeStep.ctxSet s _)
        rcases hd : dropGo (exec f) i c.toUnsubscribe s1 with ⟨r, s2⟩
        have h2 := hDrop c.toUnsubscribe i s1; rw [hd] at h2
        cases r with
        | error e => simp [andThen]; exact step1.trans h2
        | ok v =>
          simp only [andThen]
          have step3 : SStar s2 (s2.setComp i seedComp) := by
            refine Relation.ReflTransGen.single (SafeStep.compMisc s2 i seedComp ?_ ?_ ?_ ?_) <;>
              intro c' <;> unfold seedComp <;> dsimp only <;> split <;> rfl
          set s3 := s2.setComp i seedComp
          set s4 := { s3 with getterRuns := s3.getterRuns ++ [i] } with hs4
          have step4 : SStar s3 s4 := Relation.ReflTransGen.single (SafeStep.runsAdd s3 i)
          rcases he : evalGo (exec f) (((nth s4.computeds i).map Computed.getter).getD .throw) s4
            with ⟨r2, s5⟩
          have h5 := hEval (((nth s4.computeds i).map Computed.getter).getD .throw) s4
          rw [he] at h5
          cases r2 with
          | error e =>
            exact (((step1.trans h2).trans step3).trans step4).trans h5
          | ok v2 =>
            simp only
            have step6 : SStar s5 (s5.setComp i (storeVal v2)) := by
              refine Relation.ReflTransGen.single
                (SafeStep.compMisc s5 i (storeVal v2) ?_ ?_ ?_ ?_) <;>
                intro c' <;> unfold storeVal <;> cases c'.cache <;> rfl
            set s6 := s5.setComp i (storeVal v2)
            have step7 : SStar s6 { s6 with context := s6.context.dropLast } :=
              Relation.ReflTransGen.single (SafeStep.ctxSet s6 _)
            exact ((((((step1.trans h2).trans step3).trans step4).trans h5).trans
              step6).trans step7)
    | getCell x =>
      simp only [execBody]
      rcases hp : exec f (.peekCell x) s with ⟨r, s1⟩
      have h1 := ih (.peekCell x) s trivial; rw [hp] at h1
      cases r with
      | error e => simp [andThen]; exact h1
      | ok v =>
        simp only [andThen]
        cases hc : s.context.getLast? with
        | none => exact h1
        | some k =>
          simp only
          rcases h2r : exec f (.setDep k x v) s1 with ⟨r2, s2⟩
          have h2 := ih (.setDep k x v) s1 trivial; rw [h2r] at h2
          cases r2 with
          | error e => simp [andThen]; exact h1.trans h2
          | ok v2 => simp [andThen]; exact h1.trans h2
    | setDep k x v =>
      simp only [execBody]
      cases hget : nth s.computeds k with
      | none => exact Relation.ReflTransGen.refl
      | some c =>
        simp only
        set s0 := { s with readLog := s.readLog ++ [(k, x)] } with hs0
        have step0 : SStar s s0 := Relation.ReflTransGen.single (SafeStep.readsAdd s k x)
        have hRecord : ∀ (s' : St), SStar s' (s'.setComp k (recordDep x v)) := by
          intro s'
          refine Relation.ReflTransGen.single (SafeStep.compMisc s' k _ ?_ ?_ ?_ ?_) <;>
            intro c' <;> unfold recordDep <;> cases c'.cache <;> rfl
        by_cases hsubs : c.subscribers ≠ []
        · simp only [if_pos hsubs]
          rcases ho : exec f (.observeCell x (.comp k)) s0 with ⟨r, s1⟩
          have h1 := ih (.observeCell x (.comp k)) s0 trivial; rw [ho] at h1
          cases r with
          | error e => simp [andThen]; exact step0.trans h1
          | ok v1 =>
            simp only [andThen]
            set s2 := s1.setComp k fun c' =>
              { c' with toUnsubscribe := c'.toUnsubscribe ++ [x] } with hs2
            have step2 : SStar s1 s2 := by
              refine Relation.ReflTransGen.single (SafeStep.compMisc s1 k _ ?_ ?_ ?_ ?_) <;>
                intro c' <;> rfl
            exact ((step0.trans h1).trans step2).trans (hRecord s2)
        · simp only [if_neg hsubs]
          simp only [andThen]
          exact step0.trans (hRecord s0)
    | observeCell x sub =>
      rcases sub with n | k
      · exact absurd hj (by simp [CSafe])
      cases x with
      | wId i =>
        simp only [execBody]
        cases hget : nth s.signals i with
        | none => exact Relation.ReflTransGen.refl
        | some sig =>
          simp only
          exact Relation.ReflTransGen.single (SafeStep.sigSub s i k)
      | cId i =>
        simp only [execBody]
        cases hget : nth s.computeds i with
        | none => exact Relation.ReflTransGen.refl
        | some c =>
          simp only
          have hcongr : (s.setComp i fun c' =>
              { c' with subscribers := addDedup c.subscribers (Sub.comp k) }) =
              s.setComp i fun c' =>
              { c' with subscribers := addDedup c'.subscribers (Sub.comp k) } := by
            unfold St.setComp
            congr 1
            refine updAt_congr _ _ _ _ ?_
            intro a ha
            rw [hget] at ha
            cases ha
            rfl
          have step1 : SStar s (s.setComp i fun c' =>
              { c' with subscribers := addDedup c.subscribers (Sub.comp k) }) := by
            rw [hcongr]
            exact Relation.ReflTransGen.single (SafeStep.compSub s i k)
          by_cases hlen : (addDedup c.subscribers (Sub.comp k)).length = 1
          · simp only [hlen, if_pos rfl]
            rcases hc2 : exec f (.computeC i)
              (s.setComp i fun c' =>
                { c' with subscribers := addDedup c.subscribers (Sub.comp k) }) with ⟨r, s2⟩
            have h2 := ih (.computeC i)
              (s.setComp i fun c' =>
                { c' with subscribers := addDedup c.subscribers (Sub.comp k) }) trivial
            rw [hc2] at h2
            cases r with
            | error e => simp [andThen]; exact step1.trans h2
            | ok v => simp [andThen]; exact step1.trans h2
          · simp only [hlen, if_neg, if_false]
            exact step1
    | removeSubC x sub =>
      rcases sub with n | k
      · exact absurd hj (by simp [CSafe])
      cases x with
      | wId i =>
        simp only [execBody]
        cases hget : nth s.signals i with
        | none => exact Relation.ReflTransGen.refl
        | some sig =>
          simp only
          exact Relation.ReflTransGen.single (SafeStep.sigUnsub s i k)
      | cId i =>
        simp only [execBody]
        cases hget : nth s.computeds i with
        | none => exact Relation.ReflTransGen.refl
        | some c =>
          simp only
          set s1 := s.setComp i fun c' =>
            { c' with subscribers := c'.subscribers.filter (· ≠ Sub.comp k) } with hs1
          have step1 : SStar s s1 := Relation.ReflTransGen.single (SafeStep.compUnsub s i k)
          cases hget1 : nth s1.computeds i with
          | none => exact step1
          | some c1 =>
            simp only
            by_cases hempty : c1.subscribers = []
            · simp only [if_pos hempty]
              rcases hd : dropGo (exec f) i c1.toUnsubscribe s1 with ⟨r, s2⟩
              have h2 := hDrop c1.toUnsubscribe i s1; rw [hd] at h2
              cases r with
              | error e => simp [andThen]; exact step1.trans h2
              | ok v =>
                simp only [andThen]
                refine (step1.trans h2).trans (Relation.ReflTransGen.single ?_)
                exact SafeStep.compMisc s2 i _ (fun _ => rfl) (fun _ => rfl) (fun _ => rfl)
                  (fun _ => rfl)
            · simp only [if_neg hempty]
              exact step1
    | updSubs x =>
      cases x with
      | wId i => exact absurd hj (by simp [CSafe])
      | cId i =>
        simp only [execBody]
        cases hget : nth s.computeds i with
        | none => exact Relation.ReflTransGen.refl
        | some c =>
          simp only
          by_cases hsubs : c.subscribers ≠ []
          · simp only [if_pos hsubs]
            rcases hp : exec f (.peekCell (.cId i)) s with ⟨r, s1⟩
            have h1 := ih (.peekCell (.cId i)) s trivial; rw [hp] at h1
            cases r with
            | error e => simp [andThen]; exact h1
            | ok v =>
              simp only [andThen]
              cases hget1 : nth s1.computeds i with
              | none => exact h1
              | some c1 =>
                simp only
                by_cases hchg : c1.hasChanged c1.lastBroadcastValue v
                · simp only [hchg, if_true]
                  rcases hn : exec f (.notifyLoop (.cId i) []) s1 with ⟨r2, s2⟩
                  have h2 := ih (.notifyLoop (.cId i) []) s1 trivial; rw [hn] at h2
                  cases r2 with
                  | error e => simp [andThen]; exact h1.trans h2
                  | ok v2 =>
                    simp only [andThen]
                    refine (h1.trans h2).trans (Relation.ReflTransGen.single ?_)
                    exact SafeStep.compMisc s2 i _ (fun _ => rfl) (fun _ => rfl)
                      (fun _ => rfl) (fun _ => rfl)
                · simp only [hchg, if_false]
                  exact h1
          · simp only [if_neg hsubs]
            exact Relation.ReflTransGen.refl
    | notifyLoop x visited =>
      cases x with
      | wId i => exact absurd hj (by simp [CSafe])
      | cId i =>
        simp only [execBody]
        cases hf : (s.subsOf (.cId i)).find? (fun sub => sub ∉ visited) with
        | none => exact Relation.ReflTransGen.refl
        | some sub =>
          simp only
          cases sub with
          | ext n =>
            show SStar s (andThen ((.ok none, { s with
              log := s.log ++ [(.cId i, n, s.rawValue (.cId i))] }) : Res) fun _ s' =>
                exec f (.notifyLoop (.cId i) (visited ++ [Sub.ext n])) s').2
            simp only [andThen]
            have step1 : SStar s { s with
                log := s.log ++ [(.cId i, n, s.rawValue (.cId i))] } :=
              Relation.ReflTransGen.single (SafeStep.logC s i n _)
            rcases hn : exec f (.notifyLoop (.cId i) (visited ++ [Sub.ext n]))
              { s with log := s.log ++ [(.cId i, n, s.rawValue (.cId i))] } with ⟨r2, s2⟩
            have h2 := ih (.notifyLoop (.cId i) (visited ++ [Sub.ext n]))
              { s with log := s.log ++ [(.cId i, n, s.rawValue (.cId i))] } trivial
            rw [hn] at h2
            exact step1.trans h2
          | comp d =>
            show SStar s (andThen (exec f (.updSubs (.cId d)) s) fun _ s' =>
                exec f (.notifyLoop (.cId i) (visited ++ [Sub.comp d])) s').2
            rcases hu : exec f (.updSubs (.cId d)) s with ⟨r, s1⟩
            have h1 := ih (.updSubs (.cId d)) s trivial; rw [hu] at h1
            cases r with
            | error e => simp [andThen]; exact h1
            | ok v =>
              simp only [andThen]
              rcases hn : exec f (.notifyLoop (.cId i) (visited ++ [Sub.comp d])) s1 with ⟨r2, s2⟩
              have h2 := ih (.notifyLoop (.cId i) (visited ++ [Sub.comp d])) s1 trivial
              rw [hn] at h2
              exact h1.trans h2
    | setW i v => exact absurd hj (by simp [CSafe])
    | batch acts => exact absurd hj (by simp [CSafe])
    | subscribeTop x e => exact absurd hj (by simp [CSafe])

theorem lt_of_nth_some {l : List α} {i : Nat} {a : α} (h : nth l i = some a) :
    i < l.length := by
  induction l generalizing i with
  | nil => cases i <;> simp [nth] at h
  | cons b t ih =>
    cases i with
    | zero => simp
    | succ n => simpa [Nat.succ_lt_succ_iff] using ih (by simpa [nth] using h)

theorem nth_some_of_lt {l : List α} {i : Nat} (h : i < l.length) :
    ∃ a, nth l i = some a := by
  induction l generalizing i with
  | nil => simp at h
  | cons b t ih =>
    cases i with
    | zero => exact ⟨b, rfl⟩
    | succ n => simpa [nth] using ih (by simpa using h)

/-- Any cascade-safe execution leaves the `Unch` bundle intact. -/
theorem cascadeUnch (f : Nat) (j : Job) (s : St) (hj : CSafe j) :
    Unch s (exec f j s).2 := star_unch (safeStar f j s hj)

/-- The `Reflect.apply` loop is a chain of cascade steps too. -/
theorem dropGo_star (f : Nat) (who : Nat) :
    ∀ (l : List CellId) (s : St), SStar s (dropGo (exec f) who l s).2 := by
  intro l
  induction l with
  | nil => intro s; exact Relation.ReflTransGen.refl
  | cons d rest ihd =>
    intro s
    simp only [dropGo]
    rcases hr : exec f (.removeSubC d (.comp who)) s with ⟨r, s1⟩
    have h1 := safeStar f (.removeSubC d (.comp who)) s trivial
    rw [hr] at h1
    cases r with
    | error e => simp [andThen]; exact h1
    | ok v => simp only [andThen]; exact h1.trans (ihd s1)

/-- C9: removing the last subscriber of a Computed runs every stored
unsubscriber, so its `updateSubscribers` callback disappears from every
cell's subscriber set (using the code's maintained invariant that
`_toUnsubscribe` covers all registered edges), and `_toUnsubscribe` itself is
cleared: a subscriber-less Computed holds no subscription on any cell. -/
theorem tC9 (f : Nat) (s : St) (c e : Nat) (cc : Computed) (v : Val) (s' : St)
    (hc : nth s.computeds c = some cc)
    (hsubs : cc.subscribers = [.ext e])
    (hcov : ∀ X, .comp c ∈ s.subsOf X → X ∈ cc.toUnsubscribe)
    (hrun : exec (f + 2) (.removeSubC (.cId c) (.ext e)) s = (.ok v, s')) :
    (∀ X, .comp c ∉ s'.subsOf X) ∧
    (nth s'.computeds c).map Computed.toUnsubscribe = some [] := by
  rw [exec] at hrun
  simp only [execBody] at hrun
  rw [hc] at hrun
  simp only at hrun
  set s1 := s.setComp c fun c' =>
    { c' with subscribers := c'.subscribers.filter (· ≠ Sub.ext e) } with hs1
  have hget1 : nth s1.computeds c = some
      { cc with subscribers := cc.subscribers.filter (· ≠ Sub.ext e) } := by
    rw [hs1]
    simp only [St.setComp, nth_updAt_self, hc]
    rfl
  rw [hget1] at hrun
  simp only [hsubs] at hrun
  have hfilter : List.filter (fun x => decide (x ≠ Sub.ext e)) [Sub.ext e] = [] := by
    simp
  rw [hfilter] at hrun
  simp only [if_pos rfl] at hrun
  rcases hdrop : dropGo (exec (f + 1)) c cc.toUnsubscribe s1 with ⟨r, s2⟩
  rw [hdrop] at hrun
  cases r with
  | error err => simp [andThen] at hrun
  | ok v2 =>
    simp only [andThen] at hrun
    have hs' : s' = s2.setComp c fun c' => { c' with toUnsubscribe := [] } := by
      have := congrArg Prod.snd hrun
      simpa using this.symm
    constructor
    · intro X
      rw [hs', subsOf_setComp_keepSubs
        (g := fun c' => { c' with toUnsubscribe := [] }) (fun c => rfl)]
      by_cases hX : X ∈ cc.toUnsubscribe
      · exact dropGo_removes f c cc.toUnsubscribe s1 v2 s2 hdrop X hX
      · intro hmem
        have h2 : .comp c ∈ s1.subsOf X := by
          have := dropGo_shrink (f + 1) c cc.toUnsubscribe s1 X (.comp c)
          rw [hdrop] at this
          exact this hmem
        have h3 : .comp c ∈ s.subsOf X := mem_subsOf_setComp_filter (hs1 ▸ h2)
        exact hX (hcov X h3)
    · rw [hs']
      have hlen2 : s2.computeds.length = s.computeds.length := by
        have hu := star_unch (dropGo_star (f + 1) c cc.toUnsubscribe s1)
        rw [hdrop] at hu
        have h1 : s1.computeds.length = s.computeds.length := by
          rw [hs1]; simp [St.setComp, length_updAt]
        exact hu.1.2.1.trans h1
      obtain ⟨c2, hc2⟩ := nth_some_of_lt (i := c)
        (hlen2 ▸ lt_of_nth_some hc)
      simp [St.setComp, nth_updAt_self, hc2]

theorem eq_ok_split {r : Res} {v : Val} (h : r.1 = .ok v) : r = (.ok v, r.2) := by
  rcases r with ⟨a, b⟩
  cases h
  rfl

theorem tC9_witness :
    (Sub.comp 0 ∉ (exec 5 (.removeSubC (.cId 0) (.ext 5)) unsubSt).2.subsOf (.wId 0)) ∧
    (nth (exec 5 (.removeSubC (.cId 0) (.ext 5)) unsubSt).2.computeds 0).map
      Computed.toUnsubscribe = some [] := by
  have h1 : (exec 5 (.removeSubC (.cId 0) (.ext 5)) unsubSt).1 = .ok none := by decide
  have hrun := eq_ok_split h1
  have hcov : ∀ X, Sub.comp 0 ∈ unsubSt.subsOf X → X ∈
      (⟨some 1, none, [.ext 5], notEqual, .getW 0, 1, [], [.wId 0]⟩ : Computed).toUnsubscribe := by
    intro X h
    cases X with
    | wId i =>
      cases i with
      | zero => exact List.mem_singleton.mpr rfl
      | succ n => simp [unsubSt, St.subsOf, nth] at h
    | cId i =>
      cases i with
      | zero => simp [unsubSt, St.subsOf, nth] at h
      | succ n => simp [unsubSt, St.subsOf, nth] at h
  have := tC9 3 unsubSt 0 5 _ none _ rfl rfl hcov hrun
  exact ⟨this.1 (.wId 0), this.2⟩

/-- No job in the observe/read closure appends to the invocation log. -/
theorem osafeNoLog : ∀ f j s, OSafe j → (exec f j s).2.log = s.log := by
  intro f
  induction f with
  | zero => intro j s _; rw [exec]
  | succ f ih =>
    intro j s hj
    have hEval : ∀ e s, (evalGo (exec f) e s).2.log = s.log := by
      intro e
      induction e with
      | const v => intro s; rfl
      | throw => intro s; rfl
      | getW i => intro s; exact ih (.getCell (.wId i)) s trivial
      | getC i => intro s; exact ih (.getCell (.cId i)) s trivial
      | add a b iha ihb =>
        intro s
        simp only [evalGo]
        rcases ha : evalGo (exec f) a s with ⟨r, s1⟩
        have h1 := iha s; rw [ha] at h1
        cases r with
        | error e => exact h1
        | ok va =>
          simp only [andThen]
          rcases hb : evalGo (exec f) b s1 with ⟨r2, s2⟩
          have h2 := ihb s1; rw [hb] at h2
          cases r2 with
          | error e => exact h2.trans h1
          | ok vb => exact h2.trans h1
      | ifPos c t e ihc iht ihe =>
        intro s
        simp only [evalGo]
        rcases hc : evalGo (exec f) c s with ⟨r, s1⟩
        have h1 := ihc s; rw [hc] at h1
        cases r with
        | error err => exact h1
        | ok vc =>
          simp only [andThen]
          by_cases hp : isPos vc
          · simp only [hp, if_true]; exact (iht s1).trans h1
          · simp only [hp, if_false]; exact (ihe s1).trans h1
    have hCheck : ∀ (deps : List (CellId × Val)) s,
        (checkGo (exec f) deps s).2.log = s.log := by
      intro deps
      induction deps with
      | nil => intro s; rfl
      | cons d rest ihd =>
        intro s
        rcases d with ⟨x, u⟩
        simp only [checkGo]
        rcases hp : exec f (.peekCell x) s with ⟨r, s1⟩
        have h1 := ih (.peekCell x) s trivial; rw [hp] at h1
        cases r with
        | error e => exact h1
        | ok v =>
          dsimp only
          by_cases hv : v = u
          · rw [if_pos hv]; exact (ihd s1).trans h1
          · rw [if_neg hv]; exact h1
    have hScan : ∀ (entries : List CachedResult) s,
        (scanGo (exec f) entries s).2.log = s.log := by
      intro entries
      induction entries with
      | nil => intro s; rfl
      | cons e rest ihe =>
        intro s
        simp only [scanGo]
        rcases hc : checkGo (exec f) e.dependencies s with ⟨r, s1⟩
        have h1 := hCheck e.dependencies s; rw [hc] at h1
        cases r with
        | error err => exact h1
        | ok b =>
          cases b with
          | true => exact h1
          | false =>
            dsimp only
            rcases hs2 : scanGo (exec f) rest s1 with ⟨r2, s2⟩
            have h2 := ihe s1; rw [hs2] at h2
            cases r2 with
            | error err => exact h2.trans h1
            | ok o => cases o <;> exact h2.trans h1
    have hDrop : ∀ (l : List CellId) (who : Nat) s,
        (dropGo (exec f) who l s).2.log = s.log := by
      intro l who
      induction l with
      | nil => intro s; rfl
      | cons d rest ihd =>
        intro s
        simp only [dropGo]
        rcases hr : exec f (.removeSubC d (.comp who)) s with ⟨r, s1⟩
        have h1 := ih (.removeSubC d (.comp who)) s trivial; rw [hr] at h1
        cases r with
        | error e => exact h1
        | ok v => simp only [andThen]; exact (ihd s1).trans h1
    rw [exec]
    cases j with
    | peekCell x =>
      cases x with
      | wId i =>
        simp only [execBody]
        cases nth s.signals i <;> rfl
      | cId i =>
        simp only [execBody]
        cases hget : nth s.computeds i with
        | none => rfl
        | some c =>
          dsimp only
          rcases hs1 : scanGo (exec f) c.cache s with ⟨r, s1⟩
          have h1 := hScan c.cache s; rw [hs1] at h1
          cases r with
          | error e => exact h1
          | ok o =>
            cases o with
            | some k =>
              dsimp only
              rw [← h1]; simp [St.setComp]
            | none =>
              dsimp only
              rcases h2r : exec f (.computeC i) s1 with ⟨r2, s2⟩
              have h2 := ih (.computeC i) s1 trivial; rw [h2r] at h2
              cases r2 with
              | error e => exact h2.trans h1
              | ok v => exact h2.trans h1
    | computeC i =>
      simp only [execBody]
      cases hget : nth s.computeds i with
      | none => rfl
      | some c =>
        dsimp only
        rcases hd : dropGo (exec f) i c.toUnsubscribe { s with context := s.context ++ [i] }
          with ⟨r, s2⟩
        have h2 := hDrop c.toUnsubscribe i { s with context := s.context ++ [i] }
        rw [hd] at h2
        cases r with
        | error e => exact h2
        | ok v =>
          simp only [andThen]
          set s4 := { s2.setComp i seedComp with
            getterRuns := (s2.setComp i seedComp).getterRuns ++ [i] } with hs4
          rcases he : evalGo (exec f)
            (((nth s4.computeds i).map Computed.getter).getD .throw) s4 with ⟨r2, s5⟩
          have h5 := hEval (((nth s4.computeds i).map Computed.getter).getD .throw) s4
          rw [he] at h5
          have h4log : s4.log = s.log := by
            rw [hs4]; simp only [St.setComp]; exact h2
          cases r2 with
          | error e => exact h5.trans h4log
          | ok v2 =>
            dsimp only
            simpa [St.setComp] using h5.trans h4log
    | getCell x =>
      simp only [execBody]
      rcases hp : exec f (.peekCell x) s with ⟨r, s1⟩
      have h1 := ih (.peekCell x) s trivial; rw [hp] at h1
      cases r with
      | error e => exact h1
      | ok v =>
        simp only [andThen]
        cases s.context.getLast? with
        | none => exact h1
        | some k =>
          dsimp only
          rcases h2r : exec f (.setDep k x v) s1 with ⟨r2, s2⟩
          have h2 := ih (.setDep k x v) s1 trivial; rw [h2r] at h2
          cases r2 with
          | error e => exact h2.trans h1
          | ok v2 => exact h2.trans h1
    | setDep k x v =>
      simp only [execBody]
      cases hget : nth s.computeds k with
      | none => rfl
      | some c =>
        dsimp only
        by_cases hsubs : c.subscribers ≠ []
        · simp only [if_pos hsubs]
          rcases ho : exec f (.observeCell x (.comp k))
            { s with readLog := s.readLog ++ [(k, x)] } with ⟨r, s1⟩
          have h1 := ih (.observeCell x (.comp k)) { s with readLog := s.readLog ++ [(k, x)] }
            trivial
          rw [ho] at h1
          cases r with
          | error e => exact h1
          | ok v1 =>
            simp only [andThen]
            simpa [St.setComp] using h1
        · simp only [if_neg hsubs]
          simp only [andThen]
          simp [St.setComp]
    | observeCell x sub =>
      cases x with
      | wId i =>
        simp only [execBody]
        cases nth s.signals i with
        | none => rfl
        | some sig => simp [St.setSig]
      | cId i =>
        simp only [execBody]
        cases hget : nth s.computeds i with
        | none => rfl
        | some c =>
          dsimp only
          by_cases hlen : (addDedup c.subscribers sub).length = 1
          · simp only [hlen, if_pos rfl]
            rcases hc2 : exec f (.computeC i)
              (s.setComp i fun c' => { c' with subscribers := addDedup c.subscribers sub })
              with ⟨r, s2⟩
            have h2 := ih (.computeC i)
              (s.setComp i fun c' => { c' with subscribers := addDedup c.subscribers sub })
              trivial
            rw [hc2] at h2
            have hbase : (s.setComp i fun c' =>
                { c' with subscribers := addDedup c.subscribers sub }).log = s.log := by
              simp [St.setComp]
            cases r with
            | error e => exact h2.trans hbase
            | ok v => simp only [andThen]; exact h2.trans hbase
          · simp only [hlen, if_neg, if_false]
            simp [St.setComp]
    | removeSubC x sub =>
      cases x with
      | wId i =>
        simp only [execBody]
        cases nth s.signals i with
        | none => rfl
        | some sig => simp [St.setSig]
      | cId i =>
        simp only [execBody]
        cases hget : nth s.computeds i with
        | none => rfl
        | some c =>
          dsimp only
          set s1 := s.setComp i fun c' =>
            { c' with subscribers := c'.subscribers.filter (· ≠ sub) } with hs1
          have hbase : s1.log = s.log := by rw [hs1]; simp [St.setComp]
          cases hget1 : nth s1.computeds i with
          | none => exact hbase
          | some c1 =>
            dsimp only
            by_cases hempty : c1.subscribers = []
            · rw [if_pos hempty]
              rcases hd : dropGo (exec f) i c1.toUnsubscribe s1 with ⟨r, s2⟩
              have h2 := hDrop c1.toUnsubscribe i s1; rw [hd] at h2
              cases r with
              | error e => exact h2.trans hbase
              | ok v =>
                simp only [andThen]
                simpa [St.setComp] using h2.trans hbase
            · rw [if_neg hempty]
              exact hbase
    | updSubs x => exact absurd hj (by simp [OSafe])
    | notifyLoop x visited => exact absurd hj (by simp [OSafe])
    | setW i v => exact absurd hj (by simp [OSafe])
    | batch acts => exact absurd hj (by simp [OSafe])
    | subscribeTop x e => exact absurd hj (by simp [OSafe])

/-- Getter evaluation is a chain of cascade steps. -/
theorem evalGo_star (f : Nat) : ∀ (e : Expr) (s : St), SStar s (evalGo (exec f) e s).2 := by
  intro e
  induction e with
  | const v => intro s; exact Relation.ReflTransGen.refl
  | throw => intro s; exact Relation.ReflTransGen.refl
  | getW i => intro s; exact safeStar f (.getCell (.wId i)) s trivial
  | getC i => intro s; exact safeStar f (.getCell (.cId i)) s trivial
  | add a b iha ihb =>
    intro s
    simp only [evalGo]
    rcases ha : evalGo (exec f) a s with ⟨r, s1⟩
    have h1 := iha s; rw [ha] at h1
    cases r with
    | error e => exact h1
    | ok va =>
      simp only [andThen]
      rcases hb : evalGo (exec f) b s1 with ⟨r2, s2⟩
      have h2 := ihb s1; rw [hb] at h2
      cases r2 with
      | error e => exact h1.trans h2
      | ok vb => exact h1.trans h2
  | ifPos c t e ihc iht ihe =>
    intro s
    simp only [evalGo]
    rcases hc : evalGo (exec f) c s with ⟨r, s1⟩
    have h1 := ihc s; rw [hc] at h1
    cases r with
    | error err => exact h1
    | ok vc =>
      simp only [andThen]
      by_cases hp : isPos vc
      · simp only [hp, if_true]; exact h1.trans (iht s1)
      · simp only [hp, if_false]; exact h1.trans (ihe s1)

/-- C10 amended: `observe` on a Computed with zero subscribers synchronously
triggers a full recomputation (the getter-run log gains that cell, first)
while the invocation log is untouched (the new callback is not called);
`observe` on a Computed that already has a subscriber, other than re-adding a
sole existing subscriber, adds the callback and does nothing else. -/
theorem tC10 (f : Nat) (s : St) (c e : Nat) (cc : Computed)
    (hc : nth s.computeds c = some cc) (htu : cc.toUnsubscribe = []) :
    (cc.subscribers = [] →
      (∃ rest, (exec (f + 2) (.observeCell (.cId c) (.ext e)) s).2.getterRuns =
        s.getterRuns ++ c :: rest) ∧
      (exec (f + 2) (.observeCell (.cId c) (.ext e)) s).2.log = s.log) ∧
    (cc.subscribers ≠ [] → cc.subscribers ≠ [.ext e] →
      exec (f + 2) (.observeCell (.cId c) (.ext e)) s =
        (.ok none, s.setComp c fun c' =>
          { c' with subscribers := addDedup cc.subscribers (.ext e) })) := by
  constructor
  · intro hempty
    constructor
    · rw [exec]
      simp only [execBody]
      rw [hc]
      dsimp only
      rw [hempty]
      have hone : (addDedup ([] : List Sub) (.ext e)).length = 1 := by
        simp [addDedup]
      rw [if_pos hone]
      set s1 := s.setComp c fun c' =>
        { c' with subscribers := addDedup ([] : List Sub) (.ext e) } with hs1
      rw [exec]
      simp only [execBody]
      have hget1 : nth s1.computeds c = some
          { cc with subscribers := addDedup ([] : List Sub) (.ext e) } := by
        rw [hs1]; simp only [St.setComp, nth_updAt_self, hc]; rfl
      rw [hget1]
      dsimp only
      rw [htu]
      simp only [dropGo, andThen]
      set s4 := { (({ s1 with context := s1.context ++ [c] } : St).setComp c seedComp) with
        getterRuns := (({ s1 with context := s1.context ++ [c] } : St).setComp c
          seedComp).getterRuns ++ [c] } with hs4
      have hruns4 : s4.getterRuns = s.getterRuns ++ [c] := by
        simp only [hs4, hs1, St.setComp]
      rcases he : evalGo (exec f)
        (((nth s4.computeds c).map Computed.getter).getD .throw) s4 with ⟨r2, s5⟩
      have hstar := evalGo_star f (((nth s4.computeds c).map Computed.getter).getD .throw) s4
      rw [he] at hstar
      have h5 := star_unch hstar
      obtain ⟨t, ht⟩ := h5.2.2.1
      cases r2 with
      | error err =>
        exact ⟨t, by rw [ht, hruns4, List.append_assoc]; rfl⟩
      | ok v2 =>
        dsimp only
        refine ⟨t, ?_⟩
        simp only [St.setComp]
        rw [ht, hruns4, List.append_assoc]
        rfl
    · exact osafeNoLog (f + 2) (.observeCell (.cId c) (.ext e)) s trivial
  · intro hne hnsole
    rw [exec]
    simp only [execBody]
    rw [hc]
    dsimp only
    have hlen : (addDedup cc.subscribers (.ext e)).length ≠ 1 := by
      unfold addDedup
      by_cases hmem : Sub.ext e ∈ cc.subscribers
      · rw [if_pos hmem]
        intro h1
        obtain ⟨a, ha⟩ := List.length_eq_one.mp h1
        rw [ha] at hmem
        rcases List.mem_singleton.mp hmem with rfl
        exact hnsole (by rw [ha])
      · rw [if_neg hmem]
        simp only [List.length_append, List.length_singleton]
        intro h1
        have : cc.subscribers.length = 0 := by omega
        exact hne (List.eq_nil_of_length_eq_zero this)
    rw [if_neg hlen]

theorem tC10_witness :
    ((∃ rest, (exec 5 (.observeCell (.cId 0) (.ext 0)) reobserveSt).2.getterRuns =
        reobserveSt.getterRuns ++ 0 :: rest) ∧
      (exec 5 (.observeCell (.cId 0) (.ext 0)) reobserveSt).2.log = reobserveSt.log) ∧
    (exec 5 (.observeCell (.cId 0) (.ext 0)) observedSt =
      (.ok none, observedSt.setComp 0 fun c' =>
        { c' with subscribers := addDedup [.ext 1] (.ext 0) })) := by
  constructor
  · exact (tC10 3 reobserveSt 0 0 _ rfl rfl).1 rfl
  · exact (tC10 3 observedSt 0 0 _ rfl rfl).2 (by decide) (by decide)

theorem mem_extTags {l : List Sub} {n : Nat} : n ∈ extTags l ↔ Sub.ext n ∈ l := by
  induction l with
  | nil => simp [extTags]
  | cons a t ih =>
    cases a with
    | ext m => simp [extTags, ih, Sub.ext.injEq, eq_comm]
    | comp c => simp [extTags, ih]

theorem extTags_append (a b : List Sub) : extTags (a ++ b) = extTags a ++ extTags b := by
  induction a with
  | nil => rfl
  | cons x t ih => cases x <;> simp [extTags, ih]

theorem find?_decomp {l : List α} {p : α → Bool} {a : α} (h : l.find? p = some a) :
    p a = true ∧ ∃ pre post, l = pre ++ a :: post ∧ ∀ x ∈ pre, p x = false := by
  induction l with
  | nil => simp [List.find?] at h
  | cons b t ih =>
    by_cases hb : p b
    · simp only [List.find?_cons, hb] at h
      cases h
      exact ⟨hb, [], t, rfl, by simp⟩
    · have hb' : p b = false := Bool.of_not_eq_true hb
      simp only [List.find?_cons, hb'] at h
      obtain ⟨hpa, pre, post, hsplit, hpre⟩ := ih h
      refine ⟨hpa, b :: pre, post, by rw [hsplit]; rfl, ?_⟩
      intro x hx
      rcases List.mem_cons.mp hx with rfl | hx
      · exact hb'
      · exact hpre x hx

theorem pendingExts_none {l visited : List Sub}
    (h : l.find? (fun sub => sub ∉ visited) = none) : pendingExts l visited = [] := by
  unfold pendingExts
  rw [List.filter_eq_nil]
  intro n hn
  have hmem := mem_extTags.mp hn
  have := List.find?_eq_none.mp h _ hmem
  simpa using this

theorem pendingExts_comp (l visited : List Sub) (d : Nat) :
    pendingExts l (visited ++ [.comp d]) = pendingExts l visited := by
  unfold pendingExts
  apply List.filter_congr
  intro n _
  simp [List.mem_append]

theorem pendingExts_ext_step {l visited : List Sub} {n : Nat} (hnd : l.Nodup)
    (h : l.find? (fun sub => sub ∉ visited) = some (.ext n)) :
    pendingExts l visited = n :: pendingExts l (visited ++ [.ext n]) := by
  obtain ⟨hpa, pre, post, hsplit, hpre⟩ := find?_decomp h
  have hnvis : Sub.ext n ∉ visited := by simpa using hpa
  have hnpost : Sub.ext n ∉ post := by
    rw [hsplit] at hnd
    have := hnd.of_append_right
    exact (List.nodup_cons.mp this).1
  subst hsplit
  unfold pendingExts
  rw [extTags_append]
  have hpreTags : ∀ m ∈ extTags pre, Sub.ext m ∈ visited := by
    intro m hm
    have := hpre _ (mem_extTags.mp hm)
    simpa using this
  rw [List.filter_append, List.filter_append]
  have hpre1 : (extTags pre).filter (fun m => Sub.ext m ∉ visited) = [] := by
    rw [List.filter_eq_nil]
    intro m hm
    simpa using hpreTags m hm
  have hpre2 : (extTags pre).filter (fun m => Sub.ext m ∉ visited ++ [Sub.ext n]) = [] := by
    rw [List.filter_eq_nil]
    intro m hm
    simp [List.mem_append]
    intro h'
    exact absurd (hpreTags m hm) h'
  rw [hpre1, hpre2]
  simp only [List.nil_append, extTags]
  rw [List.filter_cons, List.filter_cons]
  rw [if_pos (by simpa using hnvis), if_neg (by simp)]
  congr 1
  apply List.filter_congr
  intro m hm
  have hmn : m ≠ n := by
    intro h'
    subst h'
    exact hnpost (mem_extTags.mp hm)
  simp [List.mem_append, hmn]

theorem wEntries_append (i : Nat) (a b : List (CellId × Nat × Val)) :
    wEntries i (a ++ b) = wEntries i a ++ wEntries i b := by
  simp [wEntries]

theorem wEntries_cid {t : List (CellId × Nat × Val)}
    (h : ∀ e ∈ t, ∃ d n v, e = ((.cId d : CellId), n, v)) (i : Nat) : wEntries i t = [] := by
  rw [wEntries, List.filter_eq_nil]
  intro e he
  obtain ⟨d, n, v, rfl⟩ := h e he
  simp

theorem unchCore_log (s : St) (l : List (CellId × Nat × Val)) :
    UnchCore s { s with log := l } := by
  refine ⟨rfl, rfl, fun _ => rfl, fun _ => rfl, fun _ => rfl, fun _ => rfl, fun _ => rfl,
    fun _ => rfl, ?_, ?_, rfl⟩
  · intro y; cases y <;> rfl
  · intro y; cases y <;> exact id

theorem rawW_of_core {s s' : St} (h : UnchCore s s') (i : Nat) :
    s'.rawValue (.wId i) = s.rawValue (.wId i) := by
  have := h.2.2.1 i
  simp only [St.rawValue]
  rw [this]

theorem pendingExts_of_core {s s' : St} (h : UnchCore s s') (i : Nat) (visited : List Sub) :
    pendingExts (s'.subsOf (.wId i)) visited = pendingExts (s.subsOf (.wId i)) visited := by
  unfold pendingExts
  rw [h.2.2.2.2.2.2.2.2.1 (.wId i)]

/-- The writable-cell notification loop delivers, among writable entries,
exactly one log entry per not-yet-visited external subscriber of cell `i`, in
set order, each carrying the cell's current value; everything else it
touches is cascade-safe. -/
theorem notifyW (f : Nat) :
    ∀ (i : Nat) (visited : List Sub) (s : St) (v : Val) (s' : St),
      exec f (.notifyLoop (.wId i) visited) s = (.ok v, s') →
      (s.subsOf (.wId i)).Nodup →
      UnchCore s s' ∧
      ∃ t, s'.log = s.log ++ t ∧
        wEntries i t = (pendingExts (s.subsOf (.wId i)) visited).map
          (fun n => ((.wId i : CellId), n, s.rawValue (.wId i))) ∧
        (∀ j, j ≠ i → wEntries j t = []) ∧
        (∃ u, s'.getterRuns = s.getterRuns ++ u) := by
  induction f with
  | zero =>
    intro i visited s v s' hrun _
    rw [exec] at hrun
    simp at hrun
  | succ f ih =>
    intro i visited s v s' hrun hnd
    rw [exec] at hrun
    simp only [execBody] at hrun
    cases hf : (s.subsOf (.wId i)).find? (fun sub => sub ∉ visited) with
    | none =>
      rw [hf] at hrun
      have hs : s = s' := congrArg Prod.snd hrun
      subst hs
      refine ⟨unchCore_refl s, [], by simp, ?_, by simp [wEntries], ⟨[], by simp⟩⟩
      rw [pendingExts_none hf]
      simp [wEntries]
    | some sub =>
      rw [hf] at hrun
      cases sub with
      | ext n =>
        dsimp only at hrun
        simp only [andThen] at hrun
        have hnd1 : (({ s with log := s.log ++ [(.wId i, n, s.rawValue (.wId i))] } :
            St).subsOf (.wId i)).Nodup := hnd
        obtain ⟨core1, t', hlog', hW', hOther', ⟨u', hruns'⟩⟩ :=
          ih i (visited ++ [Sub.ext n])
            { s with log := s.log ++ [(.wId i, n, s.rawValue (.wId i))] } v s' hrun hnd1
        refine ⟨unchCore_trans (unchCore_log s _) core1,
          (.wId i, n, s.rawValue (.wId i)) :: t', ?_, ?_, ?_, ⟨u', hruns'⟩⟩
        · rw [hlog']
          simp
        · rw [pendingExts_ext_step hnd hf]
          simp only [List.map_cons]
          have : wEntries i ((CellId.wId i, n, s.rawValue (.wId i)) :: t') =
              (CellId.wId i, n, s.rawValue (.wId i)) :: wEntries i t' := by
            simp [wEntries]
          rw [this, hW']
          rfl
        · intro j hj
          have : wEntries j ((CellId.wId i, n, s.rawValue (.wId i)) :: t') =
              wEntries j t' := by
            simp only [wEntries, List.filter_cons]
            have hne : (decide ((CellId.wId i : CellId) = CellId.wId j)) = false := by
              simp only [CellId.wId.injEq, decide_eq_false_iff_not]
              omega
            simp [hne]
            omega
          rw [this]
          exact hOther' j hj
      | comp d =>
        dsimp only at hrun
        rcases hu : exec f (.updSubs (.cId d)) s with ⟨r1, s1⟩
        rw [hu] at hrun
        cases r1 with
        | error e => simp [andThen] at hrun
        | ok v1 =>
          simp only [andThen] at hrun
          have hcas := cascadeUnch f (.updSubs (.cId d)) s trivial
          rw [hu] at hcas
          obtain ⟨core1, ⟨t1, hlog1, ht1⟩, ⟨u1, hruns1⟩, _⟩ := hcas
          have hnd1 : (s1.subsOf (.wId i)).Nodup :=
            core1.2.2.2.2.2.2.2.2.2.1 (.wId i) hnd
          obtain ⟨core2, t2, hlog2, hW2, hOther2, ⟨u2, hruns2⟩⟩ :=
            ih i (visited ++ [Sub.comp d]) s1 v s' hrun hnd1
          refine ⟨unchCore_trans core1 core2, t1 ++ t2, ?_, ?_, ?_, ?_⟩
          · rw [hlog2, hlog1, List.append_assoc]
          · rw [wEntries_append, wEntries_cid ht1, List.nil_append, hW2,
              pendingExts_of_core core1, pendingExts_comp, rawW_of_core core1]
          · intro j hj
            rw [wEntries_append, wEntries_cid ht1, List.nil_append]
            exact hOther2 j hj
          · exact ⟨u1 ++ u2, by rw [hruns2, hruns1, List.append_assoc]⟩

theorem pendingExts_nil_visited (l : List Sub) : pendingExts l [] = extTags l := by
  unfold pendingExts
  apply List.filter_eq_self.mpr
  intro n _
  simp

theorem map_map_proj (o : Option Signal) (g : Signal → Signal) (p : Signal → β)
    (hp : ∀ sg, p (g sg) = p sg) : (o.map g).map p = o.map p := by
  cases o <;> simp [hp]

/-- Running `updateSubscribers` on a writable: among writable entries, the log grows
by exactly one entry per external subscriber when the policy reports the
value changed, and by nothing otherwise; other writables keep their value,
broadcast bookkeeping, policy and external subscribers. -/
theorem updSubsW (f : Nat) (i : Nat) (s : St) (v : Val) (s' : St) (sig : Signal)
    (hget : nth s.signals i = some sig)
    (hnd : (s.subsOf (.wId i)).Nodup)
    (hrun : exec (f + 1) (.updSubs (.wId i)) s = (.ok v, s')) :
    ∃ t, s'.log = s.log ++ t ∧
      wEntries i t =
        (if sig.subscribers ≠ [] ∧ sig.hasChanged sig.lastBroadcastValue sig.value = true then
          (extTags sig.subscribers).map (fun n => ((.wId i : CellId), n, sig.value))
        else []) ∧
      (∀ j, j ≠ i → wEntries j t = []) ∧
      s'.signals.length = s.signals.length ∧
      (∀ j, (nth s'.signals j).map Signal.value = (nth s.signals j).map Signal.value) ∧
      (∀ j, j ≠ i → (nth s'.signals j).map Signal.lastBroadcastValue =
        (nth s.signals j).map Signal.lastBroadcastValue) ∧
      (∀ j, (nth s'.signals j).map Signal.hasChanged =
        (nth s.signals j).map Signal.hasChanged) ∧
      (∀ y, extTags (s'.subsOf y) = extTags (s.subsOf y)) ∧
      (∀ y, (s.subsOf y).Nodup → (s'.subsOf y).Nodup) ∧
      s'.batchedUpdateChecks = s.batchedUpdateChecks := by
  rw [exec] at hrun
  simp only [execBody] at hrun
  rw [hget] at hrun
  dsimp only at hrun
  by_cases hguard : (decide (sig.subscribers ≠ []) && sig.hasChanged
      sig.lastBroadcastValue sig.value) = true
  · rw [if_pos hguard] at hrun
    rcases hn : exec f (.notifyLoop (.wId i) []) s with ⟨r1, s1⟩
    rw [hn] at hrun
    cases r1 with
    | error e => simp [andThen] at hrun
    | ok v1 =>
      simp only [andThen] at hrun
      obtain ⟨core1, t, hlog, hW, hOther, _⟩ := notifyW f i [] s v1 s1 hn hnd
      have hs' : s' = s1.setSig i fun sg => { sg with lastBroadcastValue := sg.value } := by
        have := congrArg Prod.snd hrun
        simpa using this.symm
      have hsubs : s.subsOf (.wId i) = sig.subscribers := by
        simp [St.subsOf, hget]
      have hraw : s.rawValue (.wId i) = sig.value := by
        simp [St.rawValue, hget]
      obtain ⟨hgs, hgc⟩ := (Bool.and_eq_true _ _).mp hguard
      refine ⟨t, by rw [hs']; exact hlog, ?_, hOther, ?_, ?_, ?_, ?_, ?_, ?_, ?_⟩
      · rw [hW, pendingExts_nil_visited, hsubs, hraw]
        rw [if_pos ⟨by simpa using hgs, hgc⟩]
      · rw [hs']
        simp only [St.setSig, length_updAt]
        exact core1.1
      · intro j
        rw [hs']
        by_cases hji : j = i
        · subst hji
          simp only [St.setSig, nth_updAt_self]
          rw [map_map_proj _ (fun sg => { sg with lastBroadcastValue := sg.value }) Signal.value (fun sg => rfl)]
          exact core1.2.2.1 j
        · simp only [St.setSig, nth_updAt_ne _ _ hji]
          exact core1.2.2.1 j
      · intro j hji
        rw [hs']
        simp only [St.setSig, nth_updAt_ne _ _ hji]
        exact core1.2.2.2.1 j
      · intro j
        rw [hs']
        by_cases hji : j = i
        · subst hji
          simp only [St.setSig, nth_updAt_self]
          rw [map_map_proj _ (fun sg => { sg with lastBroadcastValue := sg.value }) Signal.hasChanged (fun sg => rfl)]
          exact core1.2.2.2.2.1 j
        · simp only [St.setSig, nth_updAt_ne _ _ hji]
          exact core1.2.2.2.2.1 j
      · intro y
        rw [hs']
        have hcore := core1.2.2.2.2.2.2.2.2.1 y
        cases y with
        | cId j => rw [subsOf_setSig_c]; exact hcore
        | wId j =>
          by_cases hji : j = i
          · subst hji
            rw [subsOf_setSig_self]
            have heq : ((nth s1.signals j).map (fun sg =>
                ({ sg with lastBroadcastValue := sg.value } : Signal).subscribers)).getD [] =
                s1.subsOf (.wId j) := by
              simp only [St.subsOf]
            rw [heq]
            exact hcore
          · rw [subsOf_setSig_wne _ _ hji]; exact hcore
      · intro y hy
        rw [hs']
        have hcore := core1.2.2.2.2.2.2.2.2.2.1 y hy
        cases y with
        | cId j => rw [subsOf_setSig_c]; exact hcore
        | wId j =>
          by_cases hji : j = i
          · subst hji
            rw [subsOf_setSig_self]
            have heq : ((nth s1.signals j).map (fun sg =>
                ({ sg with lastBroadcastValue := sg.value } : Signal).subscribers)).getD [] =
                s1.subsOf (.wId j) := by
              simp only [St.subsOf]
            rw [heq]
            exact hcore
          · rw [subsOf_setSig_wne _ _ hji]; exact hcore
      · rw [hs']
        simpa [St.setSig] using core1.2.2.2.2.2.2.2.2.2.2
  · rw [if_neg hguard] at hrun
    have hs : s = s' := congrArg Prod.snd hrun
    subst hs
    refine ⟨[], by simp, ?_, by simp [wEntries], rfl, fun _ => rfl, fun _ _ => rfl,
      fun _ => rfl, fun _ => rfl, fun _ h => h, rfl⟩
    rw [if_neg, wEntries]
    · rfl
    · intro ⟨h1, h2⟩
      exact hguard (by simp [h1, h2])

theorem nth_mem : ∀ {l : List α} {i : Nat} {a : α}, nth l i = some a → a ∈ l := by
  intro l
  induction l with
  | nil => intro i a h; rw [nth] at h; cases h
  | cons x t ih =>
    intro i a h
    cases i with
    | zero => rw [nth] at h; cases h; exact List.mem_cons_self x t
    | succ n => exact List.mem_cons_of_mem x (ih h)

theorem allNodup_of_nodupState {s : St} (h : nodupState s = true) :
    ∀ y, (s.subsOf y).Nodup := by
  obtain ⟨h1, h2⟩ := (Bool.and_eq_true _ _).mp h
  intro y
  cases y with
  | wId i =>
    cases hn : nth s.signals i with
    | none => simp [St.subsOf, hn]
    | some sg =>
      have := List.all_eq_true.mp h1 sg (nth_mem hn)
      simpa [St.subsOf, hn] using of_decide_eq_true this
  | cId i =>
    cases hn : nth s.computeds i with
    | none => simp [St.subsOf, hn]
    | some c =>
      have := List.all_eq_true.mp h2 c (nth_mem hn)
      simpa [St.subsOf, hn] using of_decide_eq_true this

theorem mem_addDedupNat {l : List Nat} {x j : Nat} : j ∈ addDedupNat l x ↔ j ∈ l ∨ j = x := by
  by_cases h : x ∈ l
  · rw [addDedupNat, if_pos h]
    constructor
    · exact Or.inl
    · rintro (hj | rfl)
      · exact hj
      · exact h
  · rw [addDedupNat, if_neg h]
    simp

theorem nodup_addDedupNat {l : List Nat} (x : Nat) (h : l.Nodup) : (addDedupNat l x).Nodup := by
  unfold addDedupNat
  by_cases hx : x ∈ l
  · simpa [hx]
  · simp only [hx, if_false]
    simpa [List.nodup_append] using ⟨h, hx⟩

theorem accum_mem : ∀ (sets : List (Nat × Val)) (l : List Nat) (j : Nat),
    (j ∈ sets.foldl (fun acc p => addDedupNat acc p.1) l) ↔ j ∈ l ∨ ∃ v, (j, v) ∈ sets := by
  intro sets
  induction sets with
  | nil => intro l j; simp
  | cons p rest ih =>
    obtain ⟨k, v⟩ := p
    intro l j
    rw [List.foldl_cons, ih]
    constructor
    · rintro (hm | hv)
      · rcases mem_addDedupNat.mp hm with hj | rfl
        · exact Or.inl hj
        · exact Or.inr ⟨v, List.mem_cons_self _ _⟩
      · obtain ⟨v', hv'⟩ := hv
        exact Or.inr ⟨v', List.mem_cons_of_mem _ hv'⟩
    · rintro (hj | ⟨v', hv'⟩)
      · exact Or.inl (mem_addDedupNat.mpr (Or.inl hj))
      · rcases List.mem_cons.mp hv' with heq | hmem
        · injection heq with e1 e2
          exact Or.inl (mem_addDedupNat.mpr (Or.inr e1))
        · exact Or.inr ⟨v', hmem⟩

theorem accum_nodup : ∀ (sets : List (Nat × Val)) (l : List Nat), l.Nodup →
    (sets.foldl (fun acc p => addDedupNat acc p.1) l).Nodup := by
  intro sets
  induction sets with
  | nil => intro l h; exact h
  | cons p rest ih =>
    intro l h
    rw [List.foldl_cons]
    exact ih _ (nodup_addDedupNat _ h)

theorem affected_mem {sets : List (Nat × Val)} {j : Nat} :
    j ∈ affected sets ↔ ∃ v, (j, v) ∈ sets := by
  rw [affected, accum_mem]
  simp

theorem affected_nodup (sets : List (Nat × Val)) : (affected sets).Nodup :=
  accum_nodup sets [] List.nodup_nil

theorem nodup_extTags : ∀ {l : List Sub}, l.Nodup → (extTags l).Nodup := by
  intro l
  induction l with
  | nil => intro; simp [extTags]
  | cons a t ih =>
    intro h
    obtain ⟨ha, ht⟩ := List.nodup_cons.mp h
    cases a with
    | comp c => exact ih ht
    | ext n =>
      rw [extTags]
      exact List.nodup_cons.mpr ⟨fun hn => ha (mem_extTags.mp hn), ih ht⟩

theorem extTags_ne_nil {l : List Sub} (h : extTags l ≠ []) : l ≠ [] := by
  intro hl
  subst hl
  exact h rfl

theorem applySets_computeds : ∀ (sets : List (Nat × Val)) (s : St),
    (applySets sets s).computeds = s.computeds := by
  intro sets
  induction sets with
  | nil => intro s; rfl
  | cons p rest ih =>
    obtain ⟨k, v⟩ := p
    intro s
    rw [applySets, ih]
    rfl

theorem applySets_log : ∀ (sets : List (Nat × Val)) (s : St),
    (applySets sets s).log = s.log := by
  intro sets
  induction sets with
  | nil => intro s; rfl
  | cons p rest ih =>
    obtain ⟨k, v⟩ := p
    intro s
    rw [applySets, ih]
    rfl

theorem applySets_len : ∀ (sets : List (Nat × Val)) (s : St),
    (applySets sets s).signals.length = s.signals.length := by
  intro sets
  induction sets with
  | nil => intro s; rfl
  | cons p rest ih =>
    obtain ⟨k, v⟩ := p
    intro s
    rw [applySets, ih]
    exact length_updAt _ _ _

theorem applySets_bUC : ∀ (sets : List (Nat × Val)) (s : St) (b : Option (List Nat)),
    applySets sets { s with batchedUpdateChecks := b } =
      { applySets sets s with batchedUpdateChecks := b } := by
  intro sets
  induction sets with
  | nil => intro s b; rfl
  | cons p rest ih =>
    obtain ⟨k, v⟩ := p
    intro s b
    rw [applySets]
    have hstep : (({ s with batchedUpdateChecks := b } : St).setSig k
        fun sg => { sg with value := v }) =
        { s.setSig k (fun sg => { sg with value := v }) with batchedUpdateChecks := b } := rfl
    rw [hstep, ih]
    rfl

theorem finalVal_cons (k : Nat) (v : Val) (rest : List (Nat × Val)) (s : St) (j : Nat) :
    finalVal ((k, v) :: rest) s j =
      rest.foldl (fun acc p => if p.1 = j then p.2 else acc)
        (if k = j then v else s.rawValue (.wId j)) := rfl

theorem nth_applySets : ∀ (sets : List (Nat × Val)) (s : St) (j : Nat),
    nth (applySets sets s).signals j =
      (nth s.signals j).map (fun sg => { sg with value := finalVal sets s j }) := by
  intro sets
  induction sets with
  | nil =>
    intro s j
    cases h : nth s.signals j with
    | none => simp [applySets, h]
    | some sg =>
      have hv : finalVal [] s j = sg.value := by simp [finalVal, St.rawValue, h]
      simp only [applySets]
      rw [h, hv]
      rfl
  | cons p rest ih =>
    obtain ⟨k, v⟩ := p
    intro s j
    simp only [applySets]
    rw [ih]
    by_cases hk : j = k
    · subst hk
      cases h : nth s.signals j with
      | none =>
        simp [St.setSig, nth_updAt_self, h]
      | some sg =>
        have h1 : (s.setSig j fun sg => { sg with value := v }).rawValue (.wId j) = v := by
          simp [St.rawValue, St.setSig, nth_updAt_self, h]
        have h2 : finalVal rest (s.setSig j fun sg => { sg with value := v }) j =
            finalVal ((j, v) :: rest) s j := by
          rw [finalVal_cons, if_pos rfl]
          show List.foldl _ ((s.setSig j fun sg => { sg with value := v }).rawValue (.wId j))
            rest = _
          rw [h1]
        rw [h2]
        show ((nth (updAt s.signals j _) j).map _) = _
        rw [nth_updAt_self, h]
        rfl
    · have h1 : (s.setSig k fun sg => { sg with value := v }).rawValue (.wId j) =
          s.rawValue (.wId j) := by
        simp [St.rawValue, St.setSig, nth_updAt_ne _ _ hk]
      have h2 : finalVal rest (s.setSig k fun sg => { sg with value := v }) j =
          finalVal ((k, v) :: rest) s j := by
        rw [finalVal_cons, if_neg (fun hkj => hk hkj.symm)]
        show List.foldl _ ((s.setSig k fun sg => { sg with value := v }).rawValue (.wId j))
          rest = _
        rw [h1]
      rw [h2]
      show ((nth (updAt s.signals k _) j).map _) = _
      rw [nth_updAt_ne _ _ hk]

theorem subsOf_applySets (sets : List (Nat × Val)) (s : St) (y : CellId) :
    (applySets sets s).subsOf y = s.subsOf y := by
  cases y with
  | wId j =>
    show ((nth (applySets sets s).signals j).map Signal.subscribers).getD [] = _
    rw [nth_applySets,
      map_map_proj _ (fun sg => { sg with value := finalVal sets s j }) Signal.subscribers
        (fun sg => rfl)]
    rfl
  | cId j =>
    show ((nth (applySets sets s).computeds j).map Computed.subscribers).getD [] = _
    rw [applySets_computeds]
    rfl

theorem setsGo (f : Nat) : ∀ (sets : List (Nat × Val)) (s : St) (l : List Nat),
    s.batchedUpdateChecks = some l →
    (∀ p ∈ sets, p.1 < s.signals.length) →
    actsGo (exec (f + 1)) (sets.map fun p => Job.setW p.1 p.2) s =
      (.ok none,
        { applySets sets s with
            batchedUpdateChecks := some (sets.foldl (fun acc p => addDedupNat acc p.1) l) }) := by
  intro sets
  induction sets with
  | nil =>
    intro s l hbuc _
    simp only [List.map_nil, actsGo, List.foldl_nil, applySets]
    rw [← hbuc]
  | cons p rest ih =>
    obtain ⟨k, v⟩ := p
    intro s l hbuc hvalid
    obtain ⟨sg, hsg⟩ : ∃ sg, nth s.signals k = some sg :=
      nth_some_of_lt (hvalid (k, v) (List.mem_cons_self _ _))
    simp only [List.map_cons, actsGo]
    have hstep : exec (f + 1) (.setW k v) s =
        (.ok none,
          { s.setSig k (fun sg => { sg with value := v }) with
              batchedUpdateChecks := some (addDedupNat l k) }) := by
      rw [exec]
      simp only [execBody]
      rw [hsg]
      dsimp only
      have hb1 : (s.setSig k fun sg => { sg with value := v }).batchedUpdateChecks =
          some l := hbuc
      rw [hb1]
    rw [hstep]
    simp only [andThen]
    have hv2 : ∀ p ∈ rest, p.1 <
        ({ s.setSig k (fun sg => { sg with value := v }) with
            batchedUpdateChecks := some (addDedupNat l k) } : St).signals.length := by
      intro p hp
      have := hvalid p (List.mem_cons_of_mem _ hp)
      simpa [St.setSig, length_updAt] using this
    rw [ih _ (addDedupNat l k) rfl hv2]
    rw [applySets_bUC]
    simp only [applySets, List.foldl_cons]

theorem guard_bridge {s s1 : St} {j : Nat}
    (hval : (nth s1.signals j).map Signal.value = (nth s.signals j).map Signal.value)
    (hlb : (nth s1.signals j).map Signal.lastBroadcastValue =
      (nth s.signals j).map Signal.lastBroadcastValue)
    (hhc : (nth s1.signals j).map Signal.hasChanged = (nth s.signals j).map Signal.hasChanged)
    (hext : extTags (s1.subsOf (.wId j)) = extTags (s.subsOf (.wId j))) :
    (if wGuard s1 j then wNotifs s1 j else []) = (if wGuard s j then wNotifs s j else []) := by
  cases hn : nth s.signals j with
  | none =>
    have hn1 : nth s1.signals j = none := by
      rw [hn] at hval
      exact Option.map_eq_none'.mp hval
    simp [wGuard, hn, hn1]
  | some sg =>
    rw [hn] at hval hlb hhc
    cases hn1 : nth s1.signals j with
    | none =>
      rw [hn1] at hval
      simp at hval
    | some sg1 =>
      rw [hn1] at hval hlb hhc
      have hv : sg1.value = sg.value := by simpa using hval
      have hl : sg1.lastBroadcastValue = sg.lastBroadcastValue := by simpa using hlb
      have hc : sg1.hasChanged = sg.hasChanged := by simpa using hhc
      have hraw : s1.rawValue (.wId j) = s.rawValue (.wId j) := by
        simp [St.rawValue, hn, hn1, hv]
      have hnot : wNotifs s1 j = wNotifs s j := by
        rw [wNotifs, wNotifs, hext, hraw]
      cases hext0 : extTags (s.subsOf (.wId j)) with
      | nil =>
        have h1 : wNotifs s j = [] := by rw [wNotifs, hext0]; rfl
        have h2 : wNotifs s1 j = [] := by rw [hnot, h1]
        cases wGuard s1 j <;> cases wGuard s j <;> simp [h1, h2]
      | cons x xs =>
        have hne : s.subsOf (.wId j) ≠ [] :=
          extTags_ne_nil (by rw [hext0]; intro h; cases h)
        have hne1 : s1.subsOf (.wId j) ≠ [] :=
          extTags_ne_nil (by rw [hext, hext0]; intro h; cases h)
        have hsub : s.subsOf (.wId j) = sg.subscribers := by simp [St.subsOf, hn]
        have hsub1 : s1.subsOf (.wId j) = sg1.subscribers := by simp [St.subsOf, hn1]
        rw [hsub] at hne
        rw [hsub1] at hne1
        have hg : wGuard s1 j = wGuard s j := by
          simp only [wGuard, hn, hn1]
          rw [hv, hl, hc, decide_eq_true hne1, decide_eq_true hne]
        rw [hg, hnot]

theorem flushW (f : Nat) : ∀ (pending : List Nat) (s : St) (v : Val) (s' : St),
    flushGo (exec (f + 1)) pending s = (.ok v, s') →
    pending.Nodup →
    (∀ y, (s.subsOf y).Nodup) →
    ∃ t, s'.log = s.log ++ t ∧
      (∀ i ∈ pending, wEntries i t = if wGuard s i then wNotifs s i else []) ∧
      (∀ j, j ∉ pending → wEntries j t = []) := by
  intro pending
  induction pending with
  | nil =>
    intro s v s' hrun _ _
    obtain rfl : s = s' := congrArg Prod.snd hrun
    exact ⟨[], by simp, fun i hi => absurd hi (List.not_mem_nil i), fun j _ => rfl⟩
  | cons i rest ih =>
    intro s v s' hrun hnd hall
    simp only [flushGo] at hrun
    rcases h1 : exec (f + 1) (.updSubs (.wId i)) s with ⟨r1, s1⟩
    rw [h1] at hrun
    cases r1 with
    | error e => simp [andThen] at hrun
    | ok v1 =>
      simp only [andThen] at hrun
      cases hsg : nth s.signals i with
      | none =>
        rw [exec] at h1
        simp only [execBody] at h1
        rw [hsg] at h1
        simp at h1
      | some sig =>
        obtain ⟨t1, hlog1, hWi, hOther1, hlen, hval, hlb, hhc, hext, hndp, hbuc⟩ :=
          updSubsW f i s v1 s1 sig hsg (hall (.wId i)) h1
        obtain ⟨t2, hlog2, hmem2, hother2⟩ := ih s1 v s' hrun (List.nodup_cons.mp hnd).2
          (fun y => hndp y (hall y))
        refine ⟨t1 ++ t2, by rw [hlog2, hlog1, List.append_assoc], ?_, ?_⟩
        · intro j hj
          rcases List.mem_cons.mp hj with rfl | hjr
          · rw [wEntries_append, hother2 j (List.nodup_cons.mp hnd).1, List.append_nil, hWi]
            have hsub : s.subsOf (.wId j) = sig.subscribers := by simp [St.subsOf, hsg]
            have hraw : s.rawValue (.wId j) = sig.value := by simp [St.rawValue, hsg]
            have hg : wGuard s j = true ↔ (sig.subscribers ≠ [] ∧
                sig.hasChanged sig.lastBroadcastValue sig.value = true) := by
              simp [wGuard, hsg, Bool.and_eq_true, decide_eq_true_eq]
            by_cases hp : sig.subscribers ≠ [] ∧
                sig.hasChanged sig.lastBroadcastValue sig.value = true
            · rw [if_pos hp, if_pos (hg.mpr hp)]
              rw [wNotifs, hsub, hraw]
            · rw [if_neg hp, if_neg (fun hb => hp (hg.mp hb))]
          · rw [wEntries_append]
            have hji : j ≠ i := fun h => (List.nodup_cons.mp hnd).1 (h ▸ hjr)
            rw [hOther1 j hji, List.nil_append, hmem2 j hjr]
            exact guard_bridge (hval j) (hlb j hji) (hhc j) (hext (.wId j))
        · intro j hj
          have hji : j ≠ i := fun h => hj (h ▸ List.mem_cons_self _ _)
          have hjr : j ∉ rest := fun h => hj (List.mem_cons_of_mem _ h)
          rw [wEntries_append, hOther1 j hji, List.nil_append, hother2 j hjr]

/-- C1: inside one outermost `batch` made of `set` calls on writable cells,
the flush notifies each external subscriber of each affected cell at most
once (the delivered tags are duplicate-free), always with the final
post-batch value, and a cell whose final value is unchanged from its last
broadcast per its own equality policy — including one driven through
intermediate values and back — produces zero notifications; cells not set
in the batch produce none. -/
theorem tC1 (f : Nat) (sets : List (Nat × Val)) (s : St)
    (hbuc : s.batchedUpdateChecks = none)
    (hvalid : ∀ p ∈ sets, p.1 < s.signals.length)
    (hnd : ∀ y, (s.subsOf y).Nodup)
    (hok : (exec (f + 2) (.batch (sets.map fun p => Job.setW p.1 p.2)) s).1 = .ok none) :
    ∃ t, (exec (f + 2) (.batch (sets.map fun p => Job.setW p.1 p.2)) s).2.log = s.log ++ t ∧
      (∀ i ∈ affected sets, ∃ sig, nth s.signals i = some sig ∧
        wEntries i t =
          (if sig.subscribers ≠ [] ∧
              sig.hasChanged sig.lastBroadcastValue (finalVal sets s i) = true then
            (extTags sig.subscribers).map (fun n => ((.wId i : CellId), n, finalVal sets s i))
          else [])) ∧
      (∀ j, j ∉ affected sets → wEntries j t = []) ∧
      (∀ i, ((wEntries i t).map (fun e => e.2.1)).Nodup) := by
  have hs2 : actsGo (exec (f + 1)) (sets.map fun p => Job.setW p.1 p.2)
      { s with batchedUpdateChecks := some [] } =
      (.ok none,
        { applySets sets s with batchedUpdateChecks := some (affected sets) }) := by
    rw [setsGo f sets { s with batchedUpdateChecks := some [] } [] rfl hvalid]
    rw [applySets_bUC]
    rfl
  have hexec : exec (f + 2) (.batch (sets.map fun p => Job.setW p.1 p.2)) s =
      andThen (flushGo (exec (f + 1)) (affected sets)
          { applySets sets s with batchedUpdateChecks := some (affected sets) })
        (fun _ s3 => (.ok none, { s3 with batchedUpdateChecks := none })) := by
    rw [exec]
    simp only [execBody]
    rw [hbuc]
    simp only [Option.isNone_none, if_true]
    rw [hs2]
    simp only [andThen, Option.getD_some]
  rcases hfl : flushGo (exec (f + 1)) (affected sets)
      { applySets sets s with batchedUpdateChecks := some (affected sets) } with ⟨r3, s3⟩
  rw [hexec, hfl] at hok
  cases r3 with
  | error e => simp [andThen] at hok
  | ok v3 =>
    have hsubs2 : ∀ y,
        ({ applySets sets s with batchedUpdateChecks := some (affected sets) } : St).subsOf y =
          s.subsOf y := by
      intro y
      rw [← subsOf_applySets sets s y]
      cases y <;> rfl
    obtain ⟨t, hlog3, hmem, hoth⟩ := flushW f (affected sets)
      { applySets sets s with batchedUpdateChecks := some (affected sets) } v3 s3 hfl
      (affected_nodup sets) (fun y => (hsubs2 y).symm ▸ hnd y)
    refine ⟨t, ?_, ?_, ?_, ?_⟩
    · rw [hexec, hfl]
      simp only [andThen]
      show s3.log = s.log ++ t
      rw [hlog3]
      show (applySets sets s).log ++ t = s.log ++ t
      rw [applySets_log]
    · intro i hi
      obtain ⟨v0, hv0⟩ := affected_mem.mp hi
      obtain ⟨sig, hsig⟩ := nth_some_of_lt (hvalid (i, v0) hv0)
      refine ⟨sig, hsig, ?_⟩
      rw [hmem i hi]
      have hni : nth ({ applySets sets s with
          batchedUpdateChecks := some (affected sets) } : St).signals i =
          some { sig with value := finalVal sets s i } := by
        show nth (applySets sets s).signals i = _
        rw [nth_applySets, hsig]
        rfl
      have hsub2 : ({ applySets sets s with
          batchedUpdateChecks := some (affected sets) } : St).subsOf (.wId i) =
          sig.subscribers := by
        rw [hsubs2 (.wId i)]
        simp [St.subsOf, hsig]
      have hraw2 : ({ applySets sets s with
          batchedUpdateChecks := some (affected sets) } : St).rawValue (.wId i) =
          finalVal sets s i := by
        show ((nth ({ applySets sets s with
          batchedUpdateChecks := some (affected sets) } : St).signals i).map
            Signal.value).getD none = _
        rw [hni]
        rfl
      have hg : wGuard { applySets sets s with
          batchedUpdateChecks := some (affected sets) } i = true ↔
          (sig.subscribers ≠ [] ∧
            sig.hasChanged sig.lastBroadcastValue (finalVal sets s i) = true) := by
        simp [wGuard, hni, Bool.and_eq_true, decide_eq_true_eq]
      by_cases hp : sig.subscribers ≠ [] ∧
          sig.hasChanged sig.lastBroadcastValue (finalVal sets s i) = true
      · rw [if_pos (hg.mpr hp), if_pos hp, wNotifs, hsub2, hraw2]
      · rw [if_neg (fun hb => hp (hg.mp hb)), if_neg hp]
    · intro j hj
      exact hoth j hj
    · intro i
      by_cases hi : i ∈ affected sets
      · rw [hmem i hi]
        by_cases hgb : wGuard { applySets sets s with
            batchedUpdateChecks := some (affected sets) } i = true
        · rw [if_pos hgb, wNotifs, List.map_map]
          have hcomp : ((fun e : CellId × Nat × Val => e.2.1) ∘
              (fun n => ((.wId i : CellId), n,
                ({ applySets sets s with
                  batchedUpdateChecks := some (affected sets) } : St).rawValue (.wId i)))) =
              (fun n : Nat => n) := rfl
          rw [hcomp, List.map_id', hsubs2 (.wId i)]
          exact nodup_extTags (hnd (.wId i))
        · rw [if_neg hgb]
          simp
      · rw [hoth i hi]
        simp

theorem tC1_witness :
    ∃ t, (exec 5 (.batch (batchSets.map fun p => Job.setW p.1 p.2)) batchSt).2.log =
        batchSt.log ++ t ∧
      wEntries 0 t = [(CellId.wId 0, 0, some 3)] ∧
      wEntries 1 t = [] := by
  obtain ⟨t, hlog, hmem, hoth, hndp⟩ := tC1 3 batchSets batchSt rfl (by decide)
    (allNodup_of_nodupState (by decide)) (by decide)
  refine ⟨t, hlog, ?_, ?_⟩
  · obtain ⟨sig, hsig, he⟩ := hmem 0 (by decide)
    have hs0 : some (⟨some 1, some 1, [.ext 0], notEqual⟩ : Signal) = some sig := by
      rw [← hsig]
      rfl
    obtain rfl := Option.some.inj hs0
    rw [he]
    decide
  · obtain ⟨sig, hsig, he⟩ := hmem 1 (by decide)
    have hs1 : some (⟨some 5, some 5, [.ext 1], notEqual⟩ : Signal) = some sig := by
      rw [← hsig]
      rfl
    obtain rfl := Option.some.inj hs1
    rw [he]
    decide

theorem updSubs_noChangeW (f : Nat) (i : Nat) (s : St) (sig : Signal)
    (hget : nth s.signals i = some sig)
    (hf : sig.hasChanged sig.lastBroadcastValue sig.value = false) :
    exec (f + 1) (.updSubs (.wId i)) s = (.ok none, s) := by
  rw [exec]
  simp only [execBody]
  rw [hget]
  dsimp only
  rw [hf, Bool.and_false]
  simp

theorem setW_noChange (f : Nat) (i : Nat) (v : Val) (s : St) (sig : Signal)
    (hget : nth s.signals i = some sig)
    (hbuc : s.batchedUpdateChecks = none)
    (hf : sig.hasChanged sig.lastBroadcastValue v = false) :
    exec (f + 2) (.setW i v) s = (.ok none, s.setSig i fun sg => { sg with value := v }) := by
  rw [exec]
  simp only [execBody]
  rw [hget]
  dsimp only
  have hb1 : (s.setSig i fun sg => { sg with value := v }).batchedUpdateChecks = none := hbuc
  rw [hb1]
  apply updSubs_noChangeW f i _ { sig with value := v }
  · show nth (updAt s.signals i _) i = _
    rw [nth_updAt_self, hget]
    rfl
  · exact hf

theorem updSubs_noSubsC (f : Nat) (i : Nat) (s : St) (c : Computed)
    (hget : nth s.computeds i = some c) (hsubs : c.subscribers = []) :
    exec (f + 1) (.updSubs (.cId i)) s = (.ok none, s) := by
  rw [exec]
  simp only [execBody]
  rw [hget]
  dsimp only
  rw [hsubs]
  simp

theorem updSubs_noChangeC (f : Nat) (i : Nat) (s s1 : St) (v : Val) (c c' : Computed)
    (hget : nth s.computeds i = some c) (hsubs : c.subscribers ≠ [])
    (hpeek : exec f (.peekCell (.cId i)) s = (.ok v, s1))
    (hget1 : nth s1.computeds i = some c')
    (hf : c'.hasChanged c'.lastBroadcastValue v = false) :
    exec (f + 1) (.updSubs (.cId i)) s = (.ok none, s1) ∧ s1.log = s.log := by
  constructor
  · rw [exec]
    simp only [execBody]
    rw [hget]
    dsimp only
    rw [if_pos hsubs, hpeek]
    simp only [andThen]
    rw [hget1]
    dsimp only
    simp [hf]
  · have h := osafeNoLog f (.peekCell (.cId i)) s trivial
    rw [hpeek] at h
    exact h

/-- C5: the broadcast path never delivers a value the cell's policy reports
as unchanged from the last broadcast: a writable whose policy reports its
current value unchanged from `lastBroadcastValue` broadcasts nothing and is
left untouched; any broadcast that does happen implies the policy reported a
change, and every delivered entry carries the broadcast value; `set` with a
custom equality that reports the new value unchanged stores it but notifies
no one, even though the reference differs; a computed with no subscribers,
or whose freshly peeked value its policy reports unchanged, notifies no one. -/
theorem tC5 :
    (∀ f i s sig, nth s.signals i = some sig →
      sig.hasChanged sig.lastBroadcastValue sig.value = false →
      exec (f + 1) (.updSubs (.wId i)) s = (.ok none, s)) ∧
    (∀ f i s v s' sig, nth s.signals i = some sig →
      (s.subsOf (.wId i)).Nodup →
      exec (f + 1) (.updSubs (.wId i)) s = (.ok v, s') →
      ∃ t, s'.log = s.log ++ t ∧
        (wEntries i t ≠ [] → sig.hasChanged sig.lastBroadcastValue sig.value = true) ∧
        (∀ e ∈ wEntries i t, e.2.2 = sig.value)) ∧
    (∀ f i v s sig, nth s.signals i = some sig →
      s.batchedUpdateChecks = none →
      sig.hasChanged sig.lastBroadcastValue v = false →
      exec (f + 2) (.setW i v) s =
        (.ok none, s.setSig i fun sg => { sg with value := v })) ∧
    (∀ f i s c, nth s.computeds i = some c → c.subscribers = [] →
      exec (f + 1) (.updSubs (.cId i)) s = (.ok none, s)) ∧
    (∀ f i s s1 v c c', nth s.computeds i = some c → c.subscribers ≠ [] →
      exec f (.peekCell (.cId i)) s = (.ok v, s1) →
      nth s1.computeds i = some c' →
      c'.hasChanged c'.lastBroadcastValue v = false →
      exec (f + 1) (.updSubs (.cId i)) s = (.ok none, s1) ∧ s1.log = s.log) := by
  refine ⟨?_, ?_, ?_, ?_, ?_⟩
  · intro f i s sig hget hf
    exact updSubs_noChangeW f i s sig hget hf
  · intro f i s v s' sig hget hnd hrun
    obtain ⟨t, hlog, hWi, _⟩ := updSubsW f i s v s' sig hget hnd hrun
    refine ⟨t, hlog, ?_, ?_⟩
    · intro hne
      by_cases hp : sig.subscribers ≠ [] ∧
          sig.hasChanged sig.lastBroadcastValue sig.value = true
      · exact hp.2
      · rw [if_neg hp] at hWi
        exact absurd hWi hne
    · intro e he
      by_cases hp : sig.subscribers ≠ [] ∧
          sig.hasChanged sig.lastBroadcastValue sig.value = true
      · rw [if_pos hp] at hWi
        rw [hWi] at he
        obtain ⟨n, _, rfl⟩ := List.mem_map.mp he
        rfl
      · rw [if_neg hp] at hWi
        rw [hWi] at he
        cases he
  · intro f i v s sig hget hbuc hf
    exact setW_noChange f i v s sig hget hbuc hf
  · intro f i s c hget hsubs
    exact updSubs_noSubsC f i s c hget hsubs
  · intro f i s s1 v c c' hget hsubs hpeek hget1 hf
    exact updSubs_noChangeC f i s s1 v c c' hget hsubs hpeek hget1 hf

theorem tC5_witness :
    exec 3 (.updSubs (.wId 0)) customEqSt = (.ok none, customEqSt) ∧
    exec 4 (.setW 0 (some 9)) customEqSt =
      (.ok none, customEqSt.setSig 0 fun sg => { sg with value := some 9 }) :=
  ⟨tC5.1 2 0 customEqSt ⟨some 0, some 0, [.ext 0], fun _ _ => false⟩ rfl rfl,
   tC5.2.2.1 2 0 (some 9) customEqSt ⟨some 0, some 0, [.ext 0], fun _ _ => false⟩ rfl rfl rfl⟩

theorem cUntouched_of_b {c : Nat} {s : St} (h : cUntouchedB c s = true) : cUntouched c s := by
  obtain ⟨⟨⟨h1, h2⟩, h3⟩, h4⟩ : ((_ ∧ _) ∧ _) ∧ _ := by
    simpa [cUntouchedB, Bool.and_eq_true] using h
  refine ⟨?_, h3, ?_⟩
  · intro y
    cases y with
    | wId i =>
      cases hn : nth s.signals i with
      | none => simp [St.subsOf, hn]
      | some sg =>
        have := h1 sg (nth_mem hn)
        simpa [St.subsOf, hn] using this
    | cId i =>
      cases hn : nth s.computeds i with
      | none => simp [St.subsOf, hn]
      | some cc =>
        have := h2 cc (nth_mem hn)
        simpa [St.subsOf, hn] using this
  · intro d cc hd
    obtain ⟨hg, hc⟩ := h4 cc (nth_mem hd)
    refine ⟨hg, ?_⟩
    intro e he p hp
    exact hc e he p.1 p.2 hp

theorem lazyRefl {c : Nat} {s : St} (h : cUntouched c s) : LazyRel c s s :=
  ⟨⟨[], by simp, by simp⟩, h⟩

theorem lazyTrans {c : Nat} {s s1 s2 : St} (h1 : LazyRel c s s1) (h2 : LazyRel c s1 s2) :
    LazyRel c s s2 := by
  obtain ⟨⟨u1, hr1, hn1⟩, _⟩ := h1
  obtain ⟨⟨u2, hr2, hn2⟩, hu⟩ := h2
  exact ⟨⟨u1 ++ u2, by rw [hr2, hr1, List.append_assoc],
    fun h => (List.mem_append.mp h).elim hn1 hn2⟩, hu⟩

theorem lazyStep0 {c : Nat} {s s' : St} (hr : s'.getterRuns = s.getterRuns)
    (hu : cUntouched c s') : LazyRel c s s' :=
  ⟨⟨[], by rw [hr]; simp, by simp⟩, hu⟩

theorem unt_of_eq {c : Nat} {s s' : St} (h : cUntouched c s)
    (h1 : ∀ y, s'.subsOf y = s.subsOf y) (h2 : s'.context = s.context)
    (h3 : s'.computeds = s.computeds) : cUntouched c s' := by
  refine ⟨fun y => (h1 y) ▸ h.1 y, h2 ▸ h.2.1, ?_⟩
  intro d cc hd
  rw [h3] at hd
  exact h.2.2 d cc hd

theorem mem_addDedup {l : List Sub} {a x : Sub} (h : x ∈ addDedup l a) : x ∈ l ∨ x = a := by
  rw [addDedup] at h
  by_cases ha : a ∈ l
  · rw [if_pos ha] at h
    exact Or.inl h
  · rw [if_neg ha] at h
    rcases List.mem_append.mp h with h1 | h1
    · exact Or.inl h1
    · exact Or.inr (List.mem_singleton.mp h1)

theorem mem_mapSet : ∀ {l : List (CellId × Val)} {k : CellId} {v : Val}
    {p : CellId × Val}, p ∈ mapSet l k v → p = (k, v) ∨ p ∈ l := by
  intro l
  induction l with
  | nil =>
    intro k v p h
    rw [mapSet] at h
    exact Or.inl (List.mem_singleton.mp h)
  | cons q rest ih =>
    intro k v p h
    obtain ⟨k', v'⟩ := q
    rw [mapSet] at h
    by_cases hk : k' = k
    · rw [if_pos hk] at h
      rcases List.mem_cons.mp h with h1 | h1
      · exact Or.inl h1
      · exact Or.inr (List.mem_cons_of_mem _ h1)
    · rw [if_neg hk] at h
      rcases List.mem_cons.mp h with h1 | h1
      · exact Or.inr (h1 ▸ List.mem_cons_self _ _)
      · rcases ih h1 with h2 | h2
        · exact Or.inl h2
        · exact Or.inr (List.mem_cons_of_mem _ h2)

theorem extractAt_mem : ∀ {l : List α} {k : Nat} {e : α} {rest : List α},
    extractAt l k = some (e, rest) → e ∈ l ∧ ∀ x ∈ rest, x ∈ l := by
  intro l
  induction l with
  | nil => intro k e rest h; rw [extractAt] at h; cases h
  | cons a t ih =>
    intro k e rest h
    cases k with
    | zero =>
      rw [extractAt] at h
      injection h with h
      injection h with h1 h2
      subst h1
      subst h2
      exact ⟨List.mem_cons_self _ _, fun x hx => List.mem_cons_of_mem _ hx⟩
    | succ n =>
      rw [extractAt] at h
      rcases hx : extractAt t n with _ | ⟨b, r⟩
      · rw [hx] at h; cases h
      · rw [hx] at h
        injection h with h
        injection h with h1 h2
        subst h1
        subst h2
        obtain ⟨hb, hr⟩ := ih hx
        refine ⟨List.mem_cons_of_mem _ hb, ?_⟩
        intro x hx2
        rcases List.mem_cons.mp hx2 with h3 | h3
        · exact h3 ▸ List.mem_cons_self _ _
        · exact List.mem_cons_of_mem _ (hr x h3)

theorem unt_setSig {c : Nat} {s : St} {i : Nat} {g : Signal → Signal}
    (h : cUntouched c s)
    (hg : ∀ sg, Sub.comp c ∈ (g sg).subscribers → Sub.comp c ∈ sg.subscribers) :
    cUntouched c (s.setSig i g) := by
  refine ⟨?_, h.2.1, h.2.2⟩
  intro y
  cases y with
  | cId j => rw [subsOf_setSig_c]; exact h.1 _
  | wId j =>
    by_cases hj : j = i
    · subst hj
      rw [subsOf_setSig_self]
      cases hn : nth s.signals j with
      | none => intro hmem; simp at hmem
      | some sg =>
        intro hmem
        have hmem2 : Sub.comp c ∈ (g sg).subscribers := by simpa using hmem
        have := hg sg hmem2
        have hsub : Sub.comp c ∈ s.subsOf (.wId j) := by simp [St.subsOf, hn, this]
        exact h.1 _ hsub
    · rw [subsOf_setSig_wne _ _ hj]; exact h.1 _

theorem unt_setComp {c : Nat} {s : St} {i : Nat} {g : Computed → Computed}
    (h : cUntouched c s)
    (hg1 : ∀ cc, Sub.comp c ∈ (g cc).subscribers → Sub.comp c ∈ cc.subscribers)
    (hg2 : ∀ cc, (g cc).getter = cc.getter)
    (hg3 : ∀ cc, (∀ e ∈ cc.cache, ∀ p ∈ e.dependencies, p.1 ≠ CellId.cId c) →
      ∀ e ∈ (g cc).cache, ∀ p ∈ e.dependencies, p.1 ≠ CellId.cId c) :
    cUntouched c (s.setComp i g) := by
  refine ⟨?_, h.2.1, ?_⟩
  · intro y
    cases y with
    | wId j => rw [subsOf_setComp_w]; exact h.1 _
    | cId j =>
      by_cases hj : j = i
      · subst hj
        rw [subsOf_setComp_self]
        cases hn : nth s.computeds j with
        | none => intro hmem; simp at hmem
        | some cc =>
          intro hmem
          have hmem2 : Sub.comp c ∈ (g cc).subscribers := by simpa using hmem
          have := hg1 cc hmem2
          have hsub : Sub.comp c ∈ s.subsOf (.cId j) := by simp [St.subsOf, hn, this]
          exact h.1 _ hsub
      · rw [subsOf_setComp_cne _ _ hj]; exact h.1 _
  · intro d cc' hd
    show mentionsC c cc'.getter = false ∧ _
    by_cases hdi : d = i
    · subst hdi
      rw [St.setComp] at hd
      rw [show ({ s with computeds := updAt s.computeds d g } : St).computeds =
        updAt s.computeds d g from rfl] at hd
      rw [nth_updAt_self] at hd
      cases hn : nth s.computeds d with
      | none => rw [hn] at hd; cases hd
      | some cc =>
        rw [hn] at hd
        injection hd with hd
        subst hd
        obtain ⟨hm, hcache⟩ := h.2.2 d cc hn
        exact ⟨(hg2 cc) ▸ hm, hg3 cc hcache⟩
    · rw [St.setComp] at hd
      rw [show ({ s with computeds := updAt s.computeds i g } : St).computeds =
        updAt s.computeds i g from rfl] at hd
      rw [nth_updAt_ne _ _ hdi] at hd
      exact h.2.2 d cc' hd

theorem unt_log {c : Nat} {s : St} (l : List (CellId × Nat × Val)) (hu : cUntouched c s) :
    cUntouched c { s with log := l } :=
  unt_of_eq hu (by intro y; cases y <;> rfl) rfl rfl

theorem unt_runs {c : Nat} {s : St} (r : List Nat) (hu : cUntouched c s) :
    cUntouched c { s with getterRuns := r } :=
  unt_of_eq hu (by intro y; cases y <;> rfl) rfl rfl

theorem unt_reads {c : Nat} {s : St} (r : List (Nat × CellId)) (hu : cUntouched c s) :
    cUntouched c { s with readLog := r } :=
  unt_of_eq hu (by intro y; cases y <;> rfl) rfl rfl

theorem unt_buc {c : Nat} {s : St} (b : Option (List Nat)) (hu : cUntouched c s) :
    cUntouched c { s with batchedUpdateChecks := b } :=
  unt_of_eq hu (by intro y; cases y <;> rfl) rfl rfl

theorem unt_ctxPop {c : Nat} {s : St} (hu : cUntouched c s) :
    cUntouched c { s with context := s.context.dropLast } := by
  refine ⟨fun y => ?_, ?_, hu.2.2⟩
  · have he : ({ s with context := s.context.dropLast } : St).subsOf y = s.subsOf y := by
      cases y <;> rfl
    rw [he]
    exact hu.1 y
  · intro hmem
    exact hu.2.1 (List.dropLast_subset _ hmem)

theorem unt_ctxPush {c i : Nat} {s : St} (hi : i ≠ c) (hu : cUntouched c s) :
    cUntouched c { s with context := s.context ++ [i] } := by
  refine ⟨fun y => ?_, ?_, hu.2.2⟩
  · have he : ({ s with context := s.context ++ [i] } : St).subsOf y = s.subsOf y := by
      cases y <;> rfl
    rw [he]
    exact hu.1 y
  · intro hmem
    rcases List.mem_append.mp hmem with h | h
    · exact hu.2.1 h
    · exact hi (List.mem_singleton.mp h).symm

theorem unt_seedComp {c : Nat} {s : St} {i : Nat} (hu : cUntouched c s) :
    cUntouched c (s.setComp i seedComp) := by
  apply unt_setComp hu
  · intro cc h
    unfold seedComp at h
    dsimp only at h
    split at h <;> exact h
  · intro cc
    unfold seedComp
    dsimp only
    split <;> rfl
  · intro cc hc
    unfold seedComp
    dsimp only
    split
    · intro e he p hp
      rcases List.mem_cons.mp he with rfl | h1
      · cases hp
      · exact hc e (List.take_subset _ _ h1) p hp
    · exact hc

theorem unt_storeVal {c : Nat} {s : St} {i : Nat} (v : Val) (hu : cUntouched c s) :
    cUntouched c (s.setComp i (storeVal v)) := by
  apply unt_setComp hu
  · intro cc h; exact h
  · intro cc; rfl
  · intro cc hc e he p hp
    unfold storeVal at he
    dsimp only at he
    rcases hcc : cc.cache with _ | ⟨e0, rest⟩
    · rw [hcc] at he; cases he
    · rw [hcc] at he
      rcases List.mem_cons.mp he with rfl | h1
      · exact hc e0 (hcc ▸ List.mem_cons_self _ _) p hp
      · exact hc e (hcc ▸ List.mem_cons_of_mem _ h1) p hp

theorem unt_adoptHit {c : Nat} {s : St} {i : Nat} (k : Nat) (hu : cUntouched c s) :
    cUntouched c (s.setComp i (adoptHit k)) := by
  apply unt_setComp hu
  · intro cc h
    unfold adoptHit at h
    rcases hx : extractAt cc.cache k with _ | ⟨e0, rest⟩
    · rw [hx] at h; exact h
    · rw [hx] at h; exact h
  · intro cc
    unfold adoptHit
    rcases hx : extractAt cc.cache k with _ | ⟨e0, rest⟩ <;> rfl
  · intro cc hc e he p hp
    unfold adoptHit at he
    rcases hx : extractAt cc.cache k with _ | ⟨e0, rest⟩
    · rw [hx] at he; exact hc e he p hp
    · rw [hx] at he
      dsimp only at he
      obtain ⟨hmem, hsub⟩ := extractAt_mem hx
      rcases List.mem_cons.mp he with rfl | h1
      · exact hc e hmem p hp
      · exact hc e (hsub e h1) p hp

theorem unt_recordDep {c : Nat} {s : St} {i : Nat} (x : CellId) (v : Val)
    (hx : x ≠ CellId.cId c) (hu : cUntouched c s) :
    cUntouched c (s.setComp i (recordDep x v)) := by
  apply unt_setComp hu
  · intro cc h; exact h
  · intro cc; rfl
  · intro cc hc e he p hp
    unfold recordDep at he
    dsimp only at he
    rcases hcc : cc.cache with _ | ⟨e0, rest⟩
    · rw [hcc] at he; cases he
    · rw [hcc] at he
      rcases List.mem_cons.mp he with rfl | h1
      · dsimp only at hp
        rcases mem_mapSet hp with rfl | h2
        · exact hx
        · exact hc e0 (hcc ▸ List.mem_cons_self _ _) p h2
      · exact hc e (hcc ▸ List.mem_cons_of_mem _ h1) p hp

theorem unt_subsConstC {c : Nat} {s : St} {i : Nat} (l : List Sub)
    (hl : Sub.comp c ∉ l) (hu : cUntouched c s) :
    cUntouched c (s.setComp i (fun c' => { c' with subscribers := l })) := by
  apply unt_setComp hu
  · intro cc h; exact absurd h hl
  · intro cc; rfl
  · intro cc hc; exact hc

theorem unt_subsFilterC {c : Nat} {s : St} {i : Nat} (p : Sub → Bool) (hu : cUntouched c s) :
    cUntouched c (s.setComp i (fun c' => { c' with subscribers := c'.subscribers.filter p })) := by
  apply unt_setComp hu
  · intro cc h; exact List.mem_of_mem_filter h
  · intro cc; rfl
  · intro cc hc; exact hc

theorem unt_toUnsubAppend {c : Nat} {s : St} {i : Nat} (x : CellId) (hu : cUntouched c s) :
    cUntouched c (s.setComp i (fun c' =>
      { c' with toUnsubscribe := c'.toUnsubscribe ++ [x] })) := by
  apply unt_setComp hu
  · intro cc h; exact h
  · intro cc; rfl
  · intro cc hc; exact hc

theorem unt_toUnsubClear {c : Nat} {s : St} {i : Nat} (hu : cUntouched c s) :
    cUntouched c (s.setComp i (fun c' => { c' with toUnsubscribe := [] })) := by
  apply unt_setComp hu
  · intro cc h; exact h
  · intro cc; rfl
  · intro cc hc; exact hc

theorem unt_lastBC {c : Nat} {s : St} {i : Nat} (hu : cUntouched c s) :
    cUntouched c (s.setComp i (fun cc => { cc with lastBroadcastValue := cc.value })) := by
  apply unt_setComp hu
  · intro cc h; exact h
  · intro cc; rfl
  · intro cc hc; exact hc

theorem unt_subsAddW {c : Nat} {s : St} {i : Nat} (sub : Sub)
    (hsub : sub ≠ Sub.comp c) (hu : cUntouched c s) :
    cUntouched c (s.setSig i (fun sg =>
      { sg with subscribers := addDedup sg.subscribers sub })) := by
  apply unt_setSig hu
  intro sg h
  rcases mem_addDedup h with h1 | h1
  · exact h1
  · exact absurd h1.symm hsub

theorem unt_subsFilterW {c : Nat} {s : St} {i : Nat} (p : Sub → Bool) (hu : cUntouched c s) :
    cUntouched c (s.setSig i (fun sg => { sg with subscribers := sg.subscribers.filter p })) := by
  apply unt_setSig hu
  intro sg h
  exact List.mem_of_mem_filter h

theorem unt_valueW {c : Nat} {s : St} {i : Nat} (v : Val) (hu : cUntouched c s) :
    cUntouched c (s.setSig i (fun sg => { sg with value := v })) := by
  apply unt_setSig hu
  intro sg h
  exact h

theorem unt_lastBW {c : Nat} {s : St} {i : Nat} (hu : cUntouched c s) :
    cUntouched c (s.setSig i (fun sg => { sg with lastBroadcastValue := sg.value })) := by
  apply unt_setSig hu
  intro sg h
  exact h

theorem lazyGo (c : Nat) : ∀ (f : Nat) (j : Job) (s : St), AvoidsC c j → cUntouched c s →
    LazyRel c s (exec f j s).2 := by
  intro f
  induction f with
  | zero => intro j s _ hu; rw [exec]; exact lazyRefl hu
  | succ f ih =>
    intro j s hj hu
    have hEval : ∀ (e : Expr) (s : St), mentionsC c e = false → cUntouched c s →
        LazyRel c s (evalGo (exec f) e s).2 := by
      intro e
      induction e with
      | const v => intro s _ hu; exact lazyRefl hu
      | throw => intro s _ hu; exact lazyRefl hu
      | getW i => intro s _ hu; exact ih (.getCell (.wId i)) s (by simp [AvoidsC]) hu
      | getC d =>
        intro s hm hu
        have hdc : d ≠ c := by simpa [mentionsC] using hm
        exact ih (.getCell (.cId d)) s (by simpa [AvoidsC] using hdc) hu
      | add a b iha ihb =>
        intro s hm hu
        have hma : mentionsC c a = false ∧ mentionsC c b = false := by
          simpa [mentionsC] using hm
        simp only [evalGo]
        rcases ha : evalGo (exec f) a s with ⟨r, s1⟩
        have h1 := iha s hma.1 hu
        rw [ha] at h1
        cases r with
        | error e => exact h1
        | ok va =>
          simp only [andThen]
          rcases hb : evalGo (exec f) b s1 with ⟨r2, s2⟩
          have h2 := ihb s1 hma.2 h1.2
          rw [hb] at h2
          cases r2 with
          | error e => exact lazyTrans h1 h2
          | ok vb => exact lazyTrans h1 h2
      | ifPos x t e ihx iht ihe =>
        intro s hm hu
        have hma : (mentionsC c x = false ∧ mentionsC c t = false) ∧ mentionsC c e = false := by
          simpa [mentionsC] using hm
        simp only [evalGo]
        rcases hx : evalGo (exec f) x s with ⟨r, s1⟩
        have h1 := ihx s hma.1.1 hu
        rw [hx] at h1
        cases r with
        | error err => exact h1
        | ok vx =>
          simp only [andThen]
          by_cases hp : isPos vx
          · simp only [hp, if_true]
            have h2 := iht s1 hma.1.2 h1.2
            exact lazyTrans h1 h2
          · simp only [hp, if_false]
            have h2 := ihe s1 hma.2 h1.2
            exact lazyTrans h1 h2
    have hCheck : ∀ (deps : List (CellId × Val)) (s : St),
        (∀ p ∈ deps, p.1 ≠ CellId.cId c) → cUntouched c s →
        LazyRel c s (checkGo (exec f) deps s).2 := by
      intro deps
      induction deps with
      | nil => intro s _ hu; exact lazyRefl hu
      | cons d rest ihd =>
        intro s hd hu
        rcases d with ⟨x, u⟩
        have hx : x ≠ CellId.cId c := hd (x, u) (List.mem_cons_self _ _)
        simp only [checkGo]
        rcases hp : exec f (.peekCell x) s with ⟨r, s1⟩
        have h1 := ih (.peekCell x) s (by simpa [AvoidsC] using hx) hu
        rw [hp] at h1
        cases r with
        | error e => exact h1
        | ok v =>
          dsimp only
          by_cases hv : v = u
          · rw [if_pos hv]
            exact lazyTrans h1 (ihd s1 (fun p hp2 => hd p (List.mem_cons_of_mem _ hp2)) h1.2)
          · rw [if_neg hv]
            exact h1
    have hScan : ∀ (entries : List CachedResult) (s : St),
        (∀ e ∈ entries, ∀ p ∈ e.dependencies, p.1 ≠ CellId.cId c) → cUntouched c s →
        LazyRel c s (scanGo (exec f) entries s).2 := by
      intro entries
      induction entries with
      | nil => intro s _ hu; exact lazyRefl hu
      | cons e rest ihe =>
        intro s he hu
        simp only [scanGo]
        rcases hc : checkGo (exec f) e.dependencies s with ⟨r, s1⟩
        have h1 := hCheck e.dependencies s (he e (List.mem_cons_self _ _)) hu
        rw [hc] at h1
        cases r with
        | error err => exact h1
        | ok b =>
          cases b with
          | true => exact h1
          | false =>
            dsimp only
            rcases hs2 : scanGo (exec f) rest s1 with ⟨r2, s2⟩
            have h2 := ihe s1 (fun e2 he2 => he e2 (List.mem_cons_of_mem _ he2)) h1.2
            rw [hs2] at h2
            cases r2 with
            | error err => exact lazyTrans h1 h2
            | ok o => cases o <;> exact lazyTrans h1 h2
    have hDrop : ∀ (l : List CellId) (who : Nat) (s : St), cUntouched c s →
        LazyRel c s (dropGo (exec f) who l s).2 := by
      intro l who
      induction l with
      | nil => intro s hu; exact lazyRefl hu
      | cons d rest ihd =>
        intro s hu
        simp only [dropGo]
        rcases hr : exec f (.removeSubC d (.comp who)) s with ⟨r, s1⟩
        have h1 := ih (.removeSubC d (.comp who)) s (by simp [AvoidsC]) hu
        rw [hr] at h1
        cases r with
        | error e => exact h1
        | ok v =>
          simp only [andThen]
          exact lazyTrans h1 (ihd s1 h1.2)
    have hActs : ∀ (acts : List Job) (s : St), (∀ a ∈ acts, AvoidsC c a) → cUntouched c s →
        LazyRel c s (actsGo (exec f) acts s).2 := by
      intro acts
      induction acts with
      | nil => intro s _ hu; exact lazyRefl hu
      | cons a rest iha =>
        intro s ha hu
        simp only [actsGo]
        rcases hr : exec f a s with ⟨r, s1⟩
        have h1 := ih a s (ha a (List.mem_cons_self _ _)) hu
        rw [hr] at h1
        cases r with
        | error e => exact h1
        | ok v =>
          simp only [andThen]
          exact lazyTrans h1 (iha s1 (fun b hb => ha b (List.mem_cons_of_mem _ hb)) h1.2)
    have hFlush : ∀ (l : List Nat) (s : St), cUntouched c s →
        LazyRel c s (flushGo (exec f) l s).2 := by
      intro l
      induction l with
      | nil => intro s hu; exact lazyRefl hu
      | cons i rest ihi =>
        intro s hu
        simp only [flushGo]
        rcases hr : exec f (.updSubs (.wId i)) s with ⟨r, s1⟩
        have h1 := ih (.updSubs (.wId i)) s (by simp [AvoidsC]) hu
        rw [hr] at h1
        cases r with
        | error e => exact h1
        | ok v =>
          simp only [andThen]
          exact lazyTrans h1 (ihi s1 h1.2)
    rw [exec]
    cases j with
    | peekCell x =>
      cases x with
      | wId i =>
        simp only [execBody]
        cases nth s.signals i <;> exact lazyRefl hu
      | cId i =>
        have hic : i ≠ c := by
          have hxc : (CellId.cId i : CellId) ≠ CellId.cId c := by simpa [AvoidsC] using hj
          exact fun h => hxc (by rw [h])
        simp only [execBody]
        cases hget : nth s.computeds i with
        | none => exact lazyRefl hu
        | some cobj =>
          dsimp only
          rcases hs1 : scanGo (exec f) cobj.cache s with ⟨r, s1⟩
          have h1 := hScan cobj.cache s ((hu.2.2 i cobj hget).2) hu
          rw [hs1] at h1
          cases r with
          | error e => exact h1
          | ok o =>
            cases o with
            | some k =>
              dsimp only
              exact lazyTrans h1 (lazyStep0 (by simp [St.setComp]) (unt_adoptHit k h1.2))
            | none =>
              dsimp only
              rcases h2r : exec f (.computeC i) s1 with ⟨r2, s2⟩
              have h2 := ih (.computeC i) s1 (by simpa [AvoidsC] using hic) h1.2
              rw [h2r] at h2
              cases r2 with
              | error e => exact lazyTrans h1 h2
              | ok v => exact lazyTrans h1 h2
    | computeC i =>
      have hic : i ≠ c := by simpa [AvoidsC] using hj
      simp only [execBody]
      cases hget : nth s.computeds i with
      | none => exact lazyRefl hu
      | some cobj =>
        dsimp only
        have h0 : LazyRel c s { s with context := s.context ++ [i] } :=
          lazyStep0 rfl (unt_ctxPush hic hu)
        rcases hd : dropGo (exec f) i cobj.toUnsubscribe { s with context := s.context ++ [i] }
          with ⟨r, s2⟩
        have h2 := hDrop cobj.toUnsubscribe i { s with context := s.context ++ [i] } h0.2
        rw [hd] at h2
        cases r with
        | error e => exact lazyTrans h0 h2
        | ok v =>
          simp only [andThen]
          have h3 : LazyRel c s2 (s2.setComp i seedComp) :=
            lazyStep0 (by simp [St.setComp]) (unt_seedComp h2.2)
          have h4 : LazyRel c (s2.setComp i seedComp)
              { s2.setComp i seedComp with
                getterRuns := (s2.setComp i seedComp).getterRuns ++ [i] } :=
            ⟨⟨[i], rfl, fun h => hic (List.mem_singleton.mp h).symm⟩,
              unt_runs _ h3.2⟩
          have hpre := lazyTrans h0 (lazyTrans h2 (lazyTrans h3 h4))
          rcases he : evalGo (exec f)
              ((nth ({ s2.setComp i seedComp with
                getterRuns := (s2.setComp i seedComp).getterRuns ++ [i] } : St).computeds i).map
                Computed.getter |>.getD .throw)
              { s2.setComp i seedComp with
                getterRuns := (s2.setComp i seedComp).getterRuns ++ [i] } with ⟨r2, s5⟩
          have hget4 : mentionsC c
              (((nth ({ s2.setComp i seedComp with
                getterRuns := (s2.setComp i seedComp).getterRuns ++ [i] } : St).computeds i).map
                Computed.getter).getD .throw) = false := by
            cases hg : nth ({ s2.setComp i seedComp with
                getterRuns := (s2.setComp i seedComp).getterRuns ++ [i] } : St).computeds i with
            | none => rfl
            | some cc4 => simpa using (hpre.2.2.2 i cc4 hg).1
          have h5 := hEval _ _ hget4 hpre.2
          rw [he] at h5
          cases r2 with
          | error e => exact lazyTrans hpre h5
          | ok v2 =>
            dsimp only
            have h6 : LazyRel c s5 (s5.setComp i (storeVal v2)) :=
              lazyStep0 (by simp [St.setComp]) (unt_storeVal v2 h5.2)
            have h7 : LazyRel c (s5.setComp i (storeVal v2))
                { s5.setComp i (storeVal v2) with
                  context := (s5.setComp i (storeVal v2)).context.dropLast } :=
              lazyStep0 rfl (unt_ctxPop h6.2)
            exact lazyTrans hpre (lazyTrans h5 (lazyTrans h6 h7))
    | getCell x =>
      have hxc : x ≠ CellId.cId c := by simpa [AvoidsC] using hj
      simp only [execBody]
      rcases hp : exec f (.peekCell x) s with ⟨r, s1⟩
      have h1 := ih (.peekCell x) s (by simpa [AvoidsC] using hxc) hu
      rw [hp] at h1
      cases r with
      | error e => exact h1
      | ok v =>
        simp only [andThen]
        cases hlast : s.context.getLast? with
        | none => exact h1
        | some k =>
          dsimp only
          have hkc : k ≠ c := by
            intro h
            subst h
            obtain ⟨hne, hk2⟩ := List.mem_getLast?_eq_getLast (l := s.context) (x := k)
              (by rw [Option.mem_def, hlast])
            exact hu.2.1 (by rw [hk2]; exact List.getLast_mem hne)
          rcases h2r : exec f (.setDep k x v) s1 with ⟨r2, s2⟩
          have h2 := ih (.setDep k x v) s1 (by simp [AvoidsC]; exact ⟨hkc, hxc⟩) h1.2
          rw [h2r] at h2
          cases r2 with
          | error e => exact lazyTrans h1 h2
          | ok v2 => exact lazyTrans h1 h2
    | setDep k x v =>
      obtain ⟨hkc, hxc⟩ : k ≠ c ∧ x ≠ CellId.cId c := by simpa [AvoidsC] using hj
      simp only [execBody]
      cases hget : nth s.computeds k with
      | none => exact lazyRefl hu
      | some cobj =>
        dsimp only
        have h0 : LazyRel c s { s with readLog := s.readLog ++ [(k, x)] } :=
          lazyStep0 rfl (unt_reads _ hu)
        by_cases hsubs : cobj.subscribers ≠ []
        · simp only [if_pos hsubs]
          rcases ho : exec f (.observeCell x (.comp k)) { s with readLog := s.readLog ++ [(k, x)] }
            with ⟨r, s1⟩
          have h1 := ih (.observeCell x (.comp k)) { s with readLog := s.readLog ++ [(k, x)] }
            (by simp [AvoidsC]; exact ⟨hxc, hkc⟩) h0.2
          rw [ho] at h1
          cases r with
          | error e => exact lazyTrans h0 h1
          | ok v1 =>
            simp only [andThen]
            have h2 : LazyRel c s1 (s1.setComp k fun c' =>
                { c' with toUnsubscribe := c'.toUnsubscribe ++ [x] }) :=
              lazyStep0 (by simp [St.setComp]) (unt_toUnsubAppend x h1.2)
            exact lazyTrans h0 (lazyTrans h1 (lazyTrans h2
              (lazyStep0 (by simp [St.setComp]) (unt_recordDep x v hxc h2.2))))
        · simp only [if_neg hsubs]
          simp only [andThen]
          exact lazyTrans h0
            (lazyStep0 (by simp [St.setComp]) (unt_recordDep x v hxc h0.2))
    | observeCell x sub =>
      obtain ⟨hxc, hsc⟩ : x ≠ CellId.cId c ∧ sub ≠ Sub.comp c := by simpa [AvoidsC] using hj
      cases x with
      | wId i =>
        simp only [execBody]
        cases nth s.signals i with
        | none => exact lazyRefl hu
        | some sig =>
          exact lazyStep0 (by simp [St.setSig]) (unt_subsAddW sub hsc hu)
      | cId i =>
        have hic : i ≠ c := fun h => hxc (h ▸ rfl)
        simp only [execBody]
        cases hget : nth s.computeds i with
        | none => exact lazyRefl hu
        | some cobj =>
          dsimp only
          have hnew : Sub.comp c ∉ addDedup cobj.subscribers sub := by
            intro hmem
            rcases mem_addDedup hmem with h1 | h1
            · have : Sub.comp c ∈ s.subsOf (.cId i) := by simp [St.subsOf, hget, h1]
              exact hu.1 _ this
            · exact hsc h1.symm
          have h0 : LazyRel c s (s.setComp i fun c' =>
              { c' with subscribers := addDedup cobj.subscribers sub }) :=
            lazyStep0 (by simp [St.setComp]) (unt_subsConstC _ hnew hu)
          by_cases hlen : (addDedup cobj.subscribers sub).length = 1
          · simp only [hlen, if_pos rfl]
            rcases hc2 : exec f (.computeC i)
              (s.setComp i fun c' => { c' with subscribers := addDedup cobj.subscribers sub })
              with ⟨r, s2⟩
            have h2 := ih (.computeC i)
              (s.setComp i fun c' => { c' with subscribers := addDedup cobj.subscribers sub })
              (by simpa [AvoidsC] using hic) h0.2
            rw [hc2] at h2
            cases r with
            | error e => exact lazyTrans h0 h2
            | ok v => simp only [andThen]; exact lazyTrans h0 h2
          · simp only [hlen, if_neg, if_false]
            exact h0
    | removeSubC x sub =>
      cases x with
      | wId i =>
        simp only [execBody]
        cases nth s.signals i with
        | none => exact lazyRefl hu
        | some sig =>
          exact lazyStep0 (by simp [St.setSig]) (unt_subsFilterW _ hu)
      | cId i =>
        simp only [execBody]
        cases hget : nth s.computeds i with
        | none => exact lazyRefl hu
        | some cobj =>
          dsimp only
          have h0 : LazyRel c s (s.setComp i fun c' =>
              { c' with subscribers := c'.subscribers.filter (· ≠ sub) }) :=
            lazyStep0 (by simp [St.setComp]) (unt_subsFilterC _ hu)
          cases hget1 : nth (s.setComp i fun c' =>
              { c' with subscribers := c'.subscribers.filter (· ≠ sub) }).computeds i with
          | none => exact h0
          | some c1 =>
            dsimp only
            by_cases hemp : c1.subscribers = []
            · simp only [hemp, if_pos rfl]
              rcases hd : dropGo (exec f) i c1.toUnsubscribe
                (s.setComp i fun c' =>
                  { c' with subscribers := c'.subscribers.filter (· ≠ sub) }) with ⟨r, s2⟩
              have h2 := hDrop c1.toUnsubscribe i _ h0.2
              rw [hd] at h2
              cases r with
              | error e => exact lazyTrans h0 h2
              | ok v =>
                simp only [andThen]
                exact lazyTrans h0 (lazyTrans h2
                  (lazyStep0 (by simp [St.setComp]) (unt_toUnsubClear h2.2)))
            · simp only [hemp, if_neg, if_false]
              exact h0
    | updSubs x =>
      cases x with
      | wId i =>
        simp only [execBody]
        cases hget : nth s.signals i with
        | none => exact lazyRefl hu
        | some sig =>
          dsimp only
          by_cases hguard : (decide (sig.subscribers ≠ []) &&
              sig.hasChanged sig.lastBroadcastValue sig.value) = true
          · rw [if_pos hguard]
            rcases hn : exec f (.notifyLoop (.wId i) []) s with ⟨r, s1⟩
            have h1 := ih (.notifyLoop (.wId i) []) s (by simp [AvoidsC]) hu
            rw [hn] at h1
            cases r with
            | error e => exact h1
            | ok v =>
              simp only [andThen]
              exact lazyTrans h1
                (lazyStep0 (by simp [St.setSig]) (unt_lastBW h1.2))
          · rw [if_neg hguard]
            exact lazyRefl hu
      | cId i =>
        have hic : i ≠ c := by
          have hxc : (CellId.cId i : CellId) ≠ CellId.cId c := by simpa [AvoidsC] using hj
          exact fun h => hxc (by rw [h])
        simp only [execBody]
        cases hget : nth s.computeds i with
        | none => exact lazyRefl hu
        | some cobj =>
          dsimp only
          by_cases hsubs : cobj.subscribers ≠ []
          · rw [if_pos hsubs]
            rcases hp : exec f (.peekCell (.cId i)) s with ⟨r, s1⟩
            have h1 := ih (.peekCell (.cId i)) s (by simpa [AvoidsC] using hic) hu
            rw [hp] at h1
            cases r with
            | error e => exact h1
            | ok v =>
              simp only [andThen]
              cases hget1 : nth s1.computeds i with
              | none => exact h1
              | some c1 =>
                dsimp only
                by_cases hch : c1.hasChanged c1.lastBroadcastValue v = true
                · rw [if_pos hch]
                  rcases hn : exec f (.notifyLoop (.cId i) []) s1 with ⟨r2, s2⟩
                  have h2 := ih (.notifyLoop (.cId i) []) s1 (by simp [AvoidsC]) h1.2
                  rw [hn] at h2
                  cases r2 with
                  | error e => exact lazyTrans h1 h2
                  | ok v2 =>
                    simp only [andThen]
                    exact lazyTrans h1 (lazyTrans h2
                      (lazyStep0 (by simp [St.setComp]) (unt_lastBC h2.2)))
                · rw [if_neg hch]
                  exact h1
          · rw [if_neg hsubs]
            exact lazyRefl hu
    | notifyLoop x visited =>
      simp only [execBody]
      cases hfind : (s.subsOf x).find? (fun sub => sub ∉ visited) with
      | none => exact lazyRefl hu
      | some sub =>
        dsimp only
        have hsubmem : sub ∈ s.subsOf x := List.mem_of_find?_eq_some hfind
        cases sub with
        | ext n =>
          dsimp only
          simp only [andThen]
          have h0 : LazyRel c s { s with log := s.log ++ [(x, n, s.rawValue x)] } :=
            lazyStep0 rfl (unt_log _ hu)
          rcases hn : exec f (.notifyLoop x (visited ++ [Sub.ext n]))
            { s with log := s.log ++ [(x, n, s.rawValue x)] } with ⟨r, s1⟩
          have h1 := ih (.notifyLoop x (visited ++ [Sub.ext n]))
            { s with log := s.log ++ [(x, n, s.rawValue x)] } (by simp [AvoidsC]) h0.2
          rw [hn] at h1
          exact lazyTrans h0 h1
        | comp d =>
          have hdc : d ≠ c := by
            intro h
            subst h
            exact hu.1 x hsubmem
          dsimp only
          rcases hup : exec f (.updSubs (.cId d)) s with ⟨r, s1⟩
          have h1 := ih (.updSubs (.cId d)) s (by simpa [AvoidsC] using hdc) hu
          rw [hup] at h1
          cases r with
          | error e => exact h1
          | ok v =>
            simp only [andThen]
            rcases hn : exec f (.notifyLoop x (visited ++ [Sub.comp d])) s1 with ⟨r2, s2⟩
            have h2 := ih (.notifyLoop x (visited ++ [Sub.comp d])) s1 (by simp [AvoidsC]) h1.2
            rw [hn] at h2
            exact lazyTrans h1 h2
    | setW i v =>
      simp only [execBody]
      cases hget : nth s.signals i with
      | none => exact lazyRefl hu
      | some sig =>
        dsimp only
        have h0 : LazyRel c s (s.setSig i fun sg => { sg with value := v }) :=
          lazyStep0 (by simp [St.setSig]) (unt_valueW v hu)
        cases hb : (s.setSig i fun sg => { sg with value := v }).batchedUpdateChecks with
        | some l =>
          exact lazyTrans h0 (lazyStep0 rfl (unt_buc _ h0.2))
        | none =>
          rcases hup : exec f (.updSubs (.wId i)) (s.setSig i fun sg => { sg with value := v })
            with ⟨r, s1⟩
          have h1 := ih (.updSubs (.wId i)) (s.setSig i fun sg => { sg with value := v })
            (by simp [AvoidsC]) h0.2
          rw [hup] at h1
          exact lazyTrans h0 h1
    | batch acts =>
      simp only [execBody]
      cases hb : s.batchedUpdateChecks with
      | none =>
        simp only [Option.isNone_none, if_true]
        have h0 : LazyRel c s { s with batchedUpdateChecks := some [] } :=
          lazyStep0 rfl (unt_buc _ hu)
        rcases hA : actsGo (exec f) acts { s with batchedUpdateChecks := some [] }
          with ⟨r2, s2⟩
        have h2 := hActs acts { s with batchedUpdateChecks := some [] }
          (by simpa [AvoidsC] using hj) h0.2
        rw [hA] at h2
        cases r2 with
        | error e => exact lazyTrans h0 h2
        | ok v2 =>
          simp only [andThen]
          rcases hF : flushGo (exec f) (s2.batchedUpdateChecks.getD []) s2 with ⟨r3, s3⟩
          have h3 := hFlush (s2.batchedUpdateChecks.getD []) s2 h2.2
          rw [hF] at h3
          cases r3 with
          | error e => exact lazyTrans h0 (lazyTrans h2 h3)
          | ok v3 =>
            simp only [andThen]
            exact lazyTrans h0 (lazyTrans h2 (lazyTrans h3
              (lazyStep0 rfl (unt_buc none h3.2))))
      | some l =>
        simp only [Option.isNone_some, Bool.false_eq_true, if_false]
        rcases hA : actsGo (exec f) acts s with ⟨r2, s2⟩
        have h2 := hActs acts s (by simpa [AvoidsC] using hj) hu
        rw [hA] at h2
        cases r2 with
        | error e => exact h2
        | ok v2 =>
          simp only [andThen]
          exact h2
    | subscribeTop x e =>
      have hxc : x ≠ CellId.cId c := by simpa [AvoidsC] using hj
      simp only [execBody]
      rcases ho : exec f (.observeCell x (.ext e)) s with ⟨r, s1⟩
      have h1 := ih (.observeCell x (.ext e)) s
        (by simpa [AvoidsC] using hxc) hu
      rw [ho] at h1
      cases r with
      | error err => exact h1
      | ok v1 =>
        simp only [andThen]
        rcases hp : exec f (.peekCell x) s1 with ⟨r2, s2⟩
        have h2 := ih (.peekCell x) s1 (by simpa [AvoidsC] using hxc) h1.2
        rw [hp] at h2
        cases r2 with
        | error err => exact lazyTrans h1 h2
        | ok v =>
          dsimp only
          have h3 : LazyRel c s2 { s2 with log := s2.log ++ [(x, e, v)] } :=
            lazyStep0 rfl (unt_log _ h2.2)
          have hpre := lazyTrans h1 (lazyTrans h2 h3)
          cases x with
          | wId i =>
            exact lazyTrans hpre (lazyStep0 (by simp [St.setSig]) (unt_lastBW hpre.2))
          | cId i =>
            exact lazyTrans hpre (lazyStep0 (by simp [St.setComp]) (unt_lastBC hpre.2))

/-- C2: a computed (Derived) cell `c` with an empty subscriber set that is
inert — registered as a dependent nowhere, not mid-recomputation, and not
read by any other getter or cache snapshot — never has its getter invoked by
a dependency change: any `set`, batched `set` sequence, or in general any
operation that is not a direct `get`/`peek`/`observe`/`subscribe`/recompute
on `c` itself leaves the getter-run trace free of `c` (and leaves `c` inert,
so this holds along any such sequence of operations). -/
theorem tC2 (f : Nat) (s : St) (c : Nat) (cc : Computed)
    (hc : nth s.computeds c = some cc) (hsubs : cc.subscribers = [])
    (hunt : cUntouched c s) :
    (∀ i v, ∃ u, (exec f (.setW i v) s).2.getterRuns = s.getterRuns ++ u ∧ c ∉ u) ∧
    (∀ sets : List (Nat × Val), ∃ u,
      (exec f (.batch (sets.map fun p => Job.setW p.1 p.2)) s).2.getterRuns =
        s.getterRuns ++ u ∧ c ∉ u) ∧
    (∀ j, AvoidsC c j →
      (∃ u, (exec f j s).2.getterRuns = s.getterRuns ++ u ∧ c ∉ u) ∧
      cUntouched c (exec f j s).2) := by
  refine ⟨?_, ?_, ?_⟩
  · intro i v
    exact (lazyGo c f (.setW i v) s (by simp [AvoidsC]) hunt).1
  · intro sets
    refine (lazyGo c f _ s ?_ hunt).1
    simp only [AvoidsC]
    intro a ha
    obtain ⟨p, _, rfl⟩ := List.mem_map.mp ha
    simp [AvoidsC]
  · intro j hav
    exact lazyGo c f j s hav hunt

theorem tC2_witness :
    ∃ u, (exec 4 (.setW 0 (some 5)) lazySt).2.getterRuns = lazySt.getterRuns ++ u ∧ 0 ∉ u :=
  (tC2 4 lazySt 0 ⟨some 0, none, [], notEqual, .getW 0, 1, [], []⟩ rfl rfl
    (cUntouched_of_b (by decide))).1 0 (some 5)

theorem scanGo_allMissW (f : Nat) (w : Nat) (sig : Signal) :
    ∀ (entries : List CachedResult) (s : St), nth s.signals w = some sig →
    (∀ e ∈ entries, ∃ u, e.dependencies = [(CellId.wId w, u)] ∧ u ≠ sig.value) →
    scanGo (exec (f + 1)) entries s = (.ok none, s) := by
  intro entries
  induction entries with
  | nil => intro s _ _; rfl
  | cons e rest ih =>
    intro s hw he
    obtain ⟨u, hdep, hne⟩ := he e (List.mem_cons_self _ _)
    simp only [scanGo]
    rw [hdep]
    simp only [checkGo]
    rw [exec]
    simp only [execBody]
    rw [hw]
    dsimp only
    rw [if_neg (fun h => hne h.symm)]
    dsimp only
    rw [ih s hw (fun e2 h2 => he e2 (List.mem_cons_of_mem _ h2))]

theorem scanGo_firstHitW (f : Nat) (w : Nat) (sig : Signal) :
    ∀ (pre : List CachedResult) (e : CachedResult) (post : List CachedResult) (s : St),
    nth s.signals w = some sig →
    (∀ e' ∈ pre, ∃ u, e'.dependencies = [(CellId.wId w, u)] ∧ u ≠ sig.value) →
    e.dependencies = [(CellId.wId w, sig.value)] →
    scanGo (exec (f + 1)) (pre ++ e :: post) s = (.ok (some pre.length), s) := by
  intro pre
  induction pre with
  | nil =>
    intro e post s hw _ hdep
    simp only [List.nil_append, scanGo]
    rw [hdep]
    simp only [checkGo]
    rw [exec]
    simp only [execBody]
    rw [hw]
    dsimp only
    rw [if_pos rfl]
    rfl
  | cons e0 rest ih =>
    intro e post s hw hpre hdep
    obtain ⟨u, hdep0, hne⟩ := hpre e0 (List.mem_cons_self _ _)
    simp only [List.cons_append, scanGo]
    rw [hdep0]
    simp only [checkGo]
    rw [exec]
    simp only [execBody]
    rw [hw]
    dsimp only
    rw [if_neg (fun h => hne h.symm)]
    dsimp only
    simp only [List.append_eq]
    rw [ih e post s hw (fun e2 h2 => hpre e2 (List.mem_cons_of_mem _ h2)) hdep]
    rfl

theorem extractAt_append (b : α) (c : List α) :
    ∀ (a : List α), extractAt (a ++ b :: c) a.length = some (b, a ++ c) := by
  intro a
  induction a with
  | nil => rfl
  | cons x t ih =>
    show extractAt (x :: (t ++ b :: c)) (t.length + 1) = some (b, x :: (t ++ c))
    rw [extractAt, ih]

theorem c4set (f : Nat) (N : Nat) (v v' cv : Val) (hist : List Val) (runs : List Nat)
    (reads : List (Nat × CellId)) :
    exec (f + 2) (.setW 0 v') (c4St N v cv hist runs reads) =
      (.ok none, c4St N v' cv hist runs reads) := by
  rw [exec]
  simp only [execBody]
  rw [show nth (c4St N v cv hist runs reads).signals 0 =
    some ⟨v, none, [], notEqual⟩ from rfl]
  dsimp only
  rw [show ((c4St N v cv hist runs reads).setSig 0 fun sg =>
    { sg with value := v' }).batchedUpdateChecks = none from rfl]
  rw [exec]
  simp only [execBody]
  rw [show ((c4St N v cv hist runs reads).setSig 0 fun sg =>
      { sg with value := v' }) = c4St N v' cv hist runs reads from rfl]
  rw [show nth (c4St N v' cv hist runs reads).signals 0 =
    some ⟨v', none, [], notEqual⟩ from rfl]
  dsimp only
  rw [if_neg]
  intro h
  simp at h

theorem c4setDep (f N : Nat) (v cv u : Val) (e : CachedResult) (rest : List CachedResult)
    (ctx : List Nat) (runs : List Nat) (reads : List (Nat × CellId)) :
    exec (f + 1) (.setDep 0 (.wId 0) u) (c4Stx N v cv (e :: rest) ctx runs reads) =
      (.ok none, c4Stx N v cv
        ({ e with dependencies := mapSet e.dependencies (.wId 0) u } :: rest) ctx runs
        (reads ++ [(0, .wId 0)])) := by
  rw [exec]
  simp only [execBody]
  rw [show nth (c4Stx N v cv (e :: rest) ctx runs reads).computeds 0 =
    some ⟨cv, none, [], notEqual, .getW 0, N, e :: rest, []⟩ from rfl]
  dsimp only
  rw [if_neg (by simp)]
  simp only [andThen]
  rfl

theorem c4getCell (f N : Nat) (v cv : Val) (e : CachedResult) (rest : List CachedResult)
    (runs : List Nat) (reads : List (Nat × CellId)) :
    exec (f + 2) (.getCell (.wId 0)) (c4Stx N v cv (e :: rest) [0] runs reads) =
      (.ok v, c4Stx N v cv
        ({ e with dependencies := mapSet e.dependencies (.wId 0) v } :: rest) [0] runs
        (reads ++ [(0, .wId 0)])) := by
  rw [exec]
  simp only [execBody]
  rw [show exec (f + 1) (.peekCell (.wId 0)) (c4Stx N v cv (e :: rest) [0] runs reads) =
      (.ok v, c4Stx N v cv (e :: rest) [0] runs reads) from by
    rw [exec]
    simp only [execBody]
    rfl]
  simp only [andThen]
  rw [show (c4Stx N v cv (e :: rest) [0] runs reads).context.getLast? = some 0 from rfl]
  dsimp only
  rw [c4setDep f N v cv v e rest [0] runs reads]

theorem c4computeC (f N : Nat) (hN : N ≠ 0) (v cv : Val) (cm : List CachedResult)
    (runs : List Nat) (reads : List (Nat × CellId)) :
    exec (f + 3) (.computeC 0) (c4Stx N v cv cm [] runs reads) =
      (.ok none, c4Stx N v v
        (⟨v, [(CellId.wId 0, v)]⟩ :: cm.take (N - 1)) [] (runs ++ [0])
        (reads ++ [(0, .wId 0)])) := by
  rw [exec]
  simp only [execBody]
  rw [show nth (c4Stx N v cv cm [] runs reads).computeds 0 =
    some ⟨cv, none, [], notEqual, .getW 0, N, cm, []⟩ from rfl]
  dsimp only
  rw [show dropGo (exec (f + 2)) 0 ([] : List CellId)
      { c4Stx N v cv cm [] runs reads with
          context := (c4Stx N v cv cm [] runs reads).context ++ [0] } =
    (.ok none, c4Stx N v cv cm [0] runs reads) from rfl]
  simp only [andThen]
  have hseed : (c4Stx N v cv cm [0] runs reads).setComp 0 seedComp =
      c4Stx N v cv (⟨cv, []⟩ :: cm.take (N - 1)) [0] runs reads := by
    show ({ c4Stx N v cv cm [0] runs reads with
      computeds := updAt (c4Stx N v cv cm [0] runs reads).computeds 0 seedComp } : St) = _
    rw [show updAt (c4Stx N v cv cm [0] runs reads).computeds 0 seedComp =
      [seedComp ⟨cv, none, [], notEqual, .getW 0, N, cm, []⟩] from rfl]
    rw [show seedComp ⟨cv, none, [], notEqual, .getW 0, N, cm, []⟩ =
        ⟨cv, none, [], notEqual, .getW 0, N, ⟨cv, []⟩ :: cm.take (N - 1), []⟩ from by
      unfold seedComp
      dsimp only
      rw [if_pos hN]]
    rfl
  rw [hseed]
  rw [show ((nth (({ c4Stx N v cv (⟨cv, []⟩ :: cm.take (N - 1)) [0] runs reads with
      getterRuns := (c4Stx N v cv (⟨cv, []⟩ :: cm.take (N - 1)) [0] runs reads).getterRuns
        ++ [0] } : St)).computeds 0).map Computed.getter).getD .throw = Expr.getW 0 from rfl]
  rw [show evalGo (exec (f + 2)) (.getW 0)
      ({ c4Stx N v cv (⟨cv, []⟩ :: cm.take (N - 1)) [0] runs reads with
        getterRuns := (c4Stx N v cv (⟨cv, []⟩ :: cm.take (N - 1)) [0] runs reads).getterRuns
          ++ [0] } : St) =
    exec (f + 2) (.getCell (.wId 0))
      (c4Stx N v cv (⟨cv, []⟩ :: cm.take (N - 1)) [0] (runs ++ [0]) reads) from rfl]
  rw [c4getCell f N v cv ⟨cv, []⟩ (cm.take (N - 1)) (runs ++ [0]) reads]
  rfl

theorem c4peekMiss (f N : Nat) (hN : N ≠ 0) (v cv : Val) (hist : List Val)
    (runs : List Nat) (reads : List (Nat × CellId))
    (hmiss : ∀ u ∈ hist, u ≠ v) :
    exec (f + 4) (.peekCell (.cId 0)) (c4St N v cv hist runs reads) =
      (.ok v, c4St N v v (v :: hist.take (N - 1)) (runs ++ [0]) (reads ++ [(0, .wId 0)])) := by
  rw [exec]
  simp only [execBody]
  rw [show nth (c4St N v cv hist runs reads).computeds 0 =
    some ⟨cv, none, [], notEqual, .getW 0, N, hist.map mkEntry, []⟩ from rfl]
  dsimp only
  rw [scanGo_allMissW (f + 2) 0 ⟨v, none, [], notEqual⟩ (hist.map mkEntry)
    (c4St N v cv hist runs reads) rfl (by
      intro e he
      obtain ⟨u, hu, rfl⟩ := List.mem_map.mp he
      exact ⟨u, rfl, hmiss u hu⟩)]
  dsimp only
  rw [show (c4St N v cv hist runs reads : St) =
    c4Stx N v cv (hist.map mkEntry) [] runs reads from rfl]
  rw [c4computeC f N hN v cv (hist.map mkEntry) runs reads]
  simp only [andThen]
  rw [show (⟨v, [(CellId.wId 0, v)]⟩ :: (hist.map mkEntry).take (N - 1) :
      List CachedResult) = (v :: hist.take (N - 1)).map mkEntry from by
    simp [mkEntry, List.map_take]]
  rfl

theorem c4peekHit (f N : Nat) (v cv : Val) (pre post : List Val)
    (runs : List Nat) (reads : List (Nat × CellId))
    (hpre : ∀ u ∈ pre, u ≠ v) :
    exec (f + 2) (.peekCell (.cId 0)) (c4St N v cv (pre ++ v :: post) runs reads) =
      (.ok v, c4St N v v (v :: (pre ++ post)) runs reads) := by
  rw [exec]
  simp only [execBody]
  rw [show nth (c4St N v cv (pre ++ v :: post) runs reads).computeds 0 =
    some ⟨cv, none, [], notEqual, .getW 0, N, (pre ++ v :: post).map mkEntry, []⟩ from rfl]
  dsimp only
  rw [show (pre ++ v :: post).map mkEntry =
    pre.map mkEntry ++ mkEntry v :: post.map mkEntry from by simp]
  rw [scanGo_firstHitW f 0 ⟨v, none, [], notEqual⟩ (pre.map mkEntry) (mkEntry v)
    (post.map mkEntry) (c4St N v cv (pre ++ v :: post) runs reads) rfl (by
      intro e he
      obtain ⟨u, hu, rfl⟩ := List.mem_map.mp he
      exact ⟨u, rfl, hpre u hu⟩) rfl]
  dsimp only
  have hadopt : adoptHit (pre.map mkEntry).length
      (⟨cv, none, [], notEqual, .getW 0, N, (pre ++ v :: post).map mkEntry, []⟩ : Computed) =
      ⟨v, none, [], notEqual, .getW 0, N, (v :: (pre ++ post)).map mkEntry, []⟩ := by
    unfold adoptHit
    rw [show (pre ++ v :: post).map mkEntry =
      pre.map mkEntry ++ mkEntry v :: post.map mkEntry from by simp]
    rw [extractAt_append]
    dsimp only
    rw [show (v :: (pre ++ post)).map mkEntry =
      mkEntry v :: (pre.map mkEntry ++ post.map mkEntry) from by simp]
    rfl
  have hstate : (c4St N v cv (pre ++ v :: post) runs reads).setComp 0
      (adoptHit (pre.map mkEntry).length) = c4St N v v (v :: (pre ++ post)) runs reads := by
    show ({ c4St N v cv (pre ++ v :: post) runs reads with
      computeds := updAt (c4St N v cv (pre ++ v :: post) runs reads).computeds 0
        (adoptHit (pre.map mkEntry).length) } : St) = _
    rw [show updAt (c4St N v cv (pre ++ v :: post) runs reads).computeds 0
        (adoptHit (pre.map mkEntry).length) =
      [adoptHit (pre.map mkEntry).length
        ⟨cv, none, [], notEqual, .getW 0, N, (pre ++ v :: post).map mkEntry, []⟩] from rfl]
    rw [hadopt]
    rfl
  rw [hstate]
  rfl

theorem c4drive_append (f : Nat) : ∀ (a b : List Val) (s : St),
    c4drive f (a ++ b) s = c4drive f b (c4drive f a s) := by
  intro a
  induction a with
  | nil => intro b s; rfl
  | cons w rest ih =>
    intro b s
    show c4drive f (rest ++ b) _ = _
    rw [ih]
    rfl

theorem take_cut (A : List Val) (hist : List Val) (N : Nat) (hA : A ≠ []) :
    (A ++ hist.take (N - 1)).take N = (A ++ hist).take N := by
  rw [List.take_append_eq_append_take, List.take_append_eq_append_take]
  congr 1
  rw [List.take_take]
  congr 1
  have : 1 ≤ A.length := List.length_pos.mpr hA
  omega

theorem c4driveGo (f N : Nat) (hN : N ≠ 0) : ∀ (ws : List Val) (v cv : Val)
    (hist : List Val) (runs : List Nat) (reads : List (Nat × CellId)),
    c4misses N ws hist → hist.length ≤ N →
    ∃ reads', c4drive (f + 4) ws (c4St N v cv hist runs reads) =
      c4St N (lastD ws v) (lastD ws cv) ((ws.reverse ++ hist).take N)
        (runs ++ List.replicate ws.length 0) reads' := by
  intro ws
  induction ws with
  | nil =>
    intro v cv hist runs reads _ hlen
    refine ⟨reads, ?_⟩
    show c4St N v cv hist runs reads = _
    rw [show (([] : List Val).reverse ++ hist).take N = hist from by
      simp [List.take_of_length_le hlen]]
    simp [lastD]
  | cons w rest ihw =>
    intro v cv hist runs reads hm hlen
    obtain ⟨hmiss, hm2⟩ := hm
    simp only [c4drive]
    rw [show exec (f + 4) (.setW 0 w) (c4St N v cv hist runs reads) =
      (.ok none, c4St N w cv hist runs reads) from c4set (f + 2) N v w cv hist runs reads]
    rw [show exec (f + 4) (.peekCell (.cId 0)) (c4St N w cv hist runs reads) =
      (.ok w, c4St N w w (w :: hist.take (N - 1)) (runs ++ [0]) (reads ++ [(0, .wId 0)]))
      from c4peekMiss f N hN w cv hist runs reads hmiss]
    obtain ⟨reads', heq⟩ := ihw w w (w :: hist.take (N - 1)) (runs ++ [0])
      (reads ++ [(0, .wId 0)]) hm2 (by
        have : (hist.take (N - 1)).length ≤ N - 1 := by
          simpa using List.length_take_le (N - 1) hist
        simp only [List.length_cons]
        omega)
    refine ⟨reads', ?_⟩
    rw [heq]
    rw [show ((w :: rest).reverse ++ hist).take N =
        (rest.reverse ++ (w :: hist.take (N - 1))).take N from by
      rw [List.reverse_cons]
      rw [show rest.reverse ++ w :: hist.take (N - 1) =
        (rest.reverse ++ [w]) ++ hist.take (N - 1) from by simp]
      exact (take_cut (rest.reverse ++ [w]) hist N (by simp)).symm]
    rw [show runs ++ List.replicate (w :: rest).length 0 =
        (runs ++ [0]) ++ List.replicate rest.length 0 from by
      simp [List.replicate_succ]]
    rfl

theorem c4misses_of_nodup (N : Nat) : ∀ (ws hist : List Val),
    (ws ++ hist).Nodup → c4misses N ws hist := by
  intro ws
  induction ws with
  | nil => intro hist _; exact trivial
  | cons w rest ih =>
    intro hist hnd
    refine ⟨?_, ?_⟩
    · intro u hu heq
      exact (List.nodup_cons.mp hnd).1 (List.mem_append.mpr (Or.inr (heq ▸ hu)))
    · apply ih
      have h1 : (w :: (rest ++ hist.take (N - 1))).Nodup := by
        refine List.Nodup.sublist ?_ hnd
        exact List.Sublist.cons₂ w (List.Sublist.append_left (List.take_sublist _ _) rest)
      exact (List.perm_middle.nodup_iff).mpr h1

/-- C4 (amended): for a computed with `cacheSize = N ≥ 1` over one writable
dependency and an empty cache, driving the dependency through `N + 1`
distinct values (reading the computed after each) and then back to the
oldest invokes the getter exactly `N + 2` times — not the `N + 1` the claim
asserts, because the oldest entry has been evicted — while any read made
when the dependency holds one of the `N` cached snapshot values is served
from the cache: the matching entry moves to the front, its value is adopted,
and the getter-run trace is unchanged. -/
theorem tC4 (f N : Nat) (hN : 1 ≤ N) (v0 : Val) (tl : List Val) (v cv : Val)
    (hlen : tl.length = N) (hnd : (v0 :: tl).Nodup) :
    (c4drive (f + 4) ((v0 :: tl) ++ [v0]) (c4St N v cv [] [] [])).getterRuns =
      List.replicate (N + 2) 0 ∧
    (∀ (g : Nat) (v' cv' : Val) (pre post : List Val) (runs : List Nat)
        (reads : List (Nat × CellId)), (∀ u ∈ pre, u ≠ v') →
      exec (g + 2) (.peekCell (.cId 0)) (c4St N v' cv' (pre ++ v' :: post) runs reads) =
        (.ok v', c4St N v' v' (v' :: (pre ++ post)) runs reads)) := by
  constructor
  · rw [c4drive_append]
    obtain ⟨reads1, h1⟩ := c4driveGo f N (by omega) (v0 :: tl) v cv [] [] []
      (c4misses_of_nodup N _ _ (by simpa using hnd)) (by simp)
    rw [h1]
    simp only [List.nil_append]
    rw [show ((v0 :: tl).reverse ++ ([] : List Val)).take N = tl.reverse from by
      rw [List.reverse_cons, List.append_nil, List.take_append_eq_append_take]
      rw [List.take_of_length_le (by simp [hlen])]
      simp [hlen]]
    obtain ⟨reads2, h2⟩ := c4driveGo f N (by omega) [v0] (lastD (v0 :: tl) v)
      (lastD (v0 :: tl) cv) tl.reverse (List.replicate (v0 :: tl).length 0) reads1
      (⟨fun u hu heq => (List.nodup_cons.mp hnd).1
        (by rw [← heq]; exact List.mem_reverse.mp hu), trivial⟩)
      (by simp [hlen])
    rw [h2]
    show List.replicate (v0 :: tl).length 0 ++ List.replicate 1 0 = _
    rw [← List.replicate_add]
    simp [hlen]
  · intro g v' cv' pre post runs reads hpre
    exact c4peekHit g N v' cv' pre post runs reads hpre

theorem tC4_witness :
    (c4drive 7 ((some 0 :: [some 1, some 2]) ++ [some 0])
      (c4St 2 none none [] [] [])).getterRuns = List.replicate 4 0 ∧
    exec 5 (.peekCell (.cId 0))
      (c4St 2 (some 1) none ([some 2] ++ some 1 :: [some 0]) [] []) =
      (.ok (some 1), c4St 2 (some 1) (some 1) (some 1 :: ([some 2] ++ [some 0])) [] []) := by
  have h := tC4 3 2 (by decide) (some 0) [some 1, some 2] none none rfl (by decide)
  exact ⟨h.1, h.2 3 (some 1) none [some 2] [some 0] [] [] (by decide)⟩

/-- C8 (amended): what `Signal.set` actually does and what the claim's policy
check corresponds to.  In Signal.ts, `set` assigns the value unconditionally
and always requests propagation: inside an open batch it registers the cell
with the coordinator (even when the policy reports the value unchanged);
outside a batch it assigns and then runs `updateSubscribers()` — the policy
is consulted only there, against `lastBroadcastValue`.  The stored value
after a successful `set` is always the new value.  The behavior the claim
describes — consult the policy against the current value and assign only on
change — is that of `Writable.set` in the older src/Observable.ts, modeled
by `writableSet`. -/
theorem tC8 :
    (∀ f i v s (l : List Nat) sig, nth s.signals i = some sig →
      s.batchedUpdateChecks = some l →
      exec (f + 1) (.setW i v) s =
        (.ok none,
          { s.setSig i (fun sg => { sg with value := v }) with
              batchedUpdateChecks := some (addDedupNat l i) })) ∧
    (∀ f i v s sig, nth s.signals i = some sig →
      s.batchedUpdateChecks = none →
      exec (f + 1) (.setW i v) s =
        exec f (.updSubs (.wId i)) (s.setSig i fun sg => { sg with value := v })) ∧
    (∀ f i v s sig v' s', nth s.signals i = some sig →
      s.batchedUpdateChecks = none →
      (s.subsOf (.wId i)).Nodup →
      exec (f + 2) (.setW i v) s = (.ok v', s') →
      s'.rawValue (.wId i) = v) ∧
    (∀ (w : Signal) (v : Val),
      (w.hasChanged w.value v = false → writableSet w v = (w, false)) ∧
      (w.hasChanged w.value v = true → writableSet w v = ({ w with value := v }, true))) := by
  refine ⟨?_, ?_, ?_, ?_⟩
  · intro f i v s l sig hget hbuc
    rw [exec]
    simp only [execBody]
    rw [hget]
    dsimp only
    rw [show (s.setSig i fun sg => { sg with value := v }).batchedUpdateChecks =
      some l from hbuc]
  · intro f i v s sig hget hbuc
    rw [exec]
    simp only [execBody]
    rw [hget]
    dsimp only
    rw [show (s.setSig i fun sg => { sg with value := v }).batchedUpdateChecks =
      none from hbuc]
  · intro f i v s sig v' s' hget hbuc hnd hrun
    rw [exec] at hrun
    simp only [execBody] at hrun
    rw [hget] at hrun
    dsimp only at hrun
    rw [show (s.setSig i fun sg => { sg with value := v }).batchedUpdateChecks =
      none from hbuc] at hrun
    have hget1 : nth (s.setSig i fun sg => { sg with value := v }).signals i =
        some { sig with value := v } := by
      show nth (updAt s.signals i _) i = _
      rw [nth_updAt_self, hget]
      rfl
    have hnd1 : ((s.setSig i fun sg => { sg with value := v }).subsOf (.wId i)).Nodup := by
      rw [subsOf_setSig_self]
      cases hn : nth s.signals i with
      | none => simp
      | some sg =>
        have : sg = sig := by rw [hn] at hget; exact Option.some.inj hget
        subst this
        have hsub : s.subsOf (.wId i) = sg.subscribers := by simp [St.subsOf, hn]
        rw [hsub] at hnd
        simpa using hnd
    obtain ⟨t, hlog, hWi, hOther, hlen, hval, hlb, hhc, hext, hndp, hbuc2⟩ :=
      updSubsW f i (s.setSig i fun sg => { sg with value := v }) v' s'
        { sig with value := v } hget1 hnd1 hrun
    have := hval i
    rw [hget1] at this
    show ((nth s'.signals i).map Signal.value).getD none = v
    rw [this]
    rfl
  · intro w v
    constructor
    · intro h
      simp [writableSet, h]
    · intro h
      simp [writableSet, h]

theorem tC8_witness :
    exec 1 (.setW 0 (some 5)) neverChangedSt =
      (.ok none,
        { neverChangedSt.setSig 0 (fun sg => { sg with value := some 5 }) with
            batchedUpdateChecks := some (addDedupNat [] 0) }) ∧
    (exec 3 (.setW 0 (some 7)) customEqSt).2.rawValue (.wId 0) = some 7 := by
  refine ⟨tC8.1 0 0 (some 5) neverChangedSt [] (Signal.newWith (some 0) (fun _ _ => false))
    rfl rfl, ?_⟩
  exact tC8.2.2.1 1 0 (some 7) customEqSt ⟨some 0, some 0, [.ext 0], fun _ _ => false⟩
    none (exec 3 (.setW 0 (some 7)) customEqSt).2 rfl rfl (by decide) rfl

theorem self_mem_addDedup (l : List Sub) (x : Sub) : x ∈ addDedup l x := by
  rw [addDedup]
  by_cases h : x ∈ l
  · rw [if_pos h]; exact h
  · rw [if_neg h]; simp

theorem removeSub_pure : ∀ (f : Nat) (x : CellId) (sub : Sub) (s : St),
    (exec f (.removeSubC x sub) s).2.context = s.context ∧
    (exec f (.removeSubC x sub) s).2.readLog = s.readLog := by
  intro f
  induction f with
  | zero => intro x sub s; rw [exec]; exact ⟨rfl, rfl⟩
  | succ f ih =>
    have dropPure : ∀ (l : List CellId) (who : Nat) (s : St),
        (dropGo (exec f) who l s).2.context = s.context ∧
        (dropGo (exec f) who l s).2.readLog = s.readLog := by
      intro l
      induction l with
      | nil => intro who s; exact ⟨rfl, rfl⟩
      | cons d rest ihl =>
        intro who s
        simp only [dropGo]
        rcases hr : exec f (.removeSubC d (.comp who)) s with ⟨r, s1⟩
        have h1 := ih d (.comp who) s
        rw [hr] at h1
        cases r with
        | error e => exact h1
        | ok v =>
          simp only [andThen]
          exact ⟨(ihl who s1).1.trans h1.1, (ihl who s1).2.trans h1.2⟩
    intro x sub s
    rw [exec]
    cases x with
    | wId i =>
      simp only [execBody]
      cases nth s.signals i with
      | none => exact ⟨rfl, rfl⟩
      | some sig => exact ⟨rfl, rfl⟩
    | cId i =>
      simp only [execBody]
      cases hget : nth s.computeds i with
      | none => exact ⟨rfl, rfl⟩
      | some cobj =>
        dsimp only
        cases hget1 : nth (s.setComp i fun c' =>
            { c' with subscribers := c'.subscribers.filter (· ≠ sub) }).computeds i with
        | none => exact ⟨rfl, rfl⟩
        | some c1 =>
          dsimp only
          by_cases hemp : c1.subscribers = []
          · simp only [hemp, if_pos rfl]
            rcases hd : dropGo (exec f) i c1.toUnsubscribe
              (s.setComp i fun c' =>
                { c' with subscribers := c'.subscribers.filter (· ≠ sub) }) with ⟨r, s2⟩
            have h2 := dropPure c1.toUnsubscribe i
              (s.setComp i fun c' =>
                { c' with subscribers := c'.subscribers.filter (· ≠ sub) })
            rw [hd] at h2
            cases r with
            | error e => exact h2
            | ok v =>
              simp only [andThen]
              exact ⟨by simpa [St.setComp] using h2.1, by simpa [St.setComp] using h2.2⟩
          · simp only [hemp, if_neg, if_false]
            exact ⟨rfl, rfl⟩

theorem dropGo_pure (f : Nat) (who : Nat) : ∀ (l : List CellId) (s : St),
    (dropGo (exec f) who l s).2.context = s.context ∧
    (dropGo (exec f) who l s).2.readLog = s.readLog := by
  intro l
  induction l with
  | nil => intro s; exact ⟨rfl, rfl⟩
  | cons d rest ihl =>
    intro s
    simp only [dropGo]
    rcases hr : exec f (.removeSubC d (.comp who)) s with ⟨r, s1⟩
    have h1 := removeSub_pure f d (.comp who) s
    rw [hr] at h1
    cases r with
    | error e => exact h1
    | ok v =>
      simp only [andThen]
      exact ⟨(ihl s1).1.trans h1.1, (ihl s1).2.trans h1.2⟩

theorem c3read (f : Nat) (c i : Nat) (s : St) (cc : Computed) (sig : Signal)
    (hc : nth s.computeds c = some cc) (hsubs : cc.subscribers ≠ [])
    (hctx : s.context.getLast? = some c)
    (hsig : nth s.signals i = some sig) :
    exec (f + 3) (.getCell (.wId i)) s =
      (.ok sig.value,
        ((({ s with readLog := s.readLog ++ [(c, CellId.wId i)] }).setSig i fun sg =>
            { sg with subscribers := addDedup sg.subscribers (.comp c) }).setComp c fun c' =>
            { c' with toUnsubscribe := c'.toUnsubscribe ++ [CellId.wId i] }).setComp c
          (recordDep (CellId.wId i) sig.value)) := by
  rw [exec]
  simp only [execBody]
  rw [show exec (f + 2) (.peekCell (.wId i)) s = (.ok sig.value, s) from by
    rw [exec]
    simp only [execBody]
    rw [hsig]]
  simp only [andThen]
  rw [hctx]
  dsimp only
  rw [show exec (f + 2) (.setDep c (.wId i) sig.value) s =
      (.ok none,
        ((({ s with readLog := s.readLog ++ [(c, CellId.wId i)] }).setSig i fun sg =>
            { sg with subscribers := addDedup sg.subscribers (.comp c) }).setComp c fun c' =>
            { c' with toUnsubscribe := c'.toUnsubscribe ++ [CellId.wId i] }).setComp c
          (recordDep (CellId.wId i) sig.value)) from by
    rw [exec]
    simp only [execBody]
    rw [hc]
    dsimp only
    rw [if_pos hsubs]
    rw [show exec (f + 1) (.observeCell (.wId i) (.comp c))
        { s with readLog := s.readLog ++ [(c, CellId.wId i)] } =
      (.ok none, ({ s with readLog := s.readLog ++ [(c, CellId.wId i)] }).setSig i fun sg =>
        { sg with subscribers := addDedup sg.subscribers (.comp c) }) from by
      rw [exec]
      simp only [execBody]
      rw [show nth ({ s with readLog := s.readLog ++ [(c, CellId.wId i)] } : St).signals i =
        some sig from hsig]]
    simp only [andThen]]

theorem subsOf_setComp_tu (s : St) (i : Nat) (x : CellId) (y : CellId) :
    (s.setComp i (fun c' =>
      { c' with toUnsubscribe := c'.toUnsubscribe ++ [x] })).subsOf y = s.subsOf y := by
  apply subsOf_setComp_keepSubs
  intro c'
  rfl

theorem subsOf_setComp_rd (s : St) (i : Nat) (x : CellId) (v : Val) (y : CellId) :
    (s.setComp i (recordDep x v)).subsOf y = s.subsOf y := by
  apply subsOf_setComp_keepSubs
  intro c'
  rfl

theorem subsOf_setComp_sv (s : St) (i : Nat) (v : Val) (y : CellId) :
    (s.setComp i (storeVal v)).subsOf y = s.subsOf y := by
  apply subsOf_setComp_keepSubs
  intro c'
  rfl

theorem subsOf_setComp_seed (s : St) (i : Nat) (y : CellId) :
    (s.setComp i seedComp).subsOf y = s.subsOf y := by
  apply subsOf_setComp_keepSubs
  intro c'
  unfold seedComp
  dsimp only
  split <;> rfl

theorem c3rel_refl (c : Nat) (s : St) : C3Rel c s s :=
  ⟨rfl, rfl, fun _ => rfl, [], by simp, by simp, fun j => by simp⟩

theorem c3rel_trans {c : Nat} {s s1 s2 : St} (h1 : C3Rel c s s1) (h2 : C3Rel c s1 s2) :
    C3Rel c s s2 := by
  obtain ⟨hc1, hm1, hcid1, t1, hr1, ha1, hi1⟩ := h1
  obtain ⟨hc2, hm2, hcid2, t2, hr2, ha2, hi2⟩ := h2
  refine ⟨hc2.trans hc1, hm2.trans hm1, fun y => (hcid2 y).trans (hcid1 y),
    t1 ++ t2, ?_, ?_, ?_⟩
  · rw [hr2, hr1, List.append_assoc]
  · intro e he
    rcases List.mem_append.mp he with h | h
    · exact ha1 e h
    · exact ha2 e h
  · intro j
    rw [hi2 j, hi1 j, List.mem_append]
    tauto

theorem c3rel_ctx {c : Nat} {s s' : St} (h : C3Rel c s s')
    (hctx : s.context.getLast? = some c) : s'.context.getLast? = some c := by
  rw [h.1]
  exact hctx

theorem c3rel_inv {c : Nat} {s s' : St} (h : C3Rel c s s')
    (hinv : ∃ cc, nth s.computeds c = some cc ∧ cc.subscribers ≠ []) :
    ∃ cc, nth s'.computeds c = some cc ∧ cc.subscribers ≠ [] := by
  obtain ⟨cc, hc, hsubs⟩ := hinv
  have hm := h.2.1
  rw [hc] at hm
  cases hn : nth s'.computeds c with
  | none => rw [hn] at hm; cases hm
  | some cc1 =>
    rw [hn] at hm
    refine ⟨cc1, rfl, ?_⟩
    have : cc1.subscribers = cc.subscribers := by simpa using hm
    rw [this]
    exact hsubs

theorem c3eval (f c : Nat) : ∀ (e : Expr) (s : St),
    noGetC e = true →
    s.context.getLast? = some c →
    (∃ cc, nth s.computeds c = some cc ∧ cc.subscribers ≠ []) →
    C3Rel c s (evalGo (exec (f + 3)) e s).2 := by
  intro e
  induction e with
  | const v => intro s _ _ _; exact c3rel_refl c s
  | throw => intro s _ _ _; exact c3rel_refl c s
  | getC d => intro s hg _ _; simp [noGetC] at hg
  | getW i =>
    intro s hg hctx hinv
    obtain ⟨cc, hc, hsubs⟩ := hinv
    show C3Rel c s (exec (f + 3) (.getCell (.wId i)) s).2
    cases hsig : nth s.signals i with
    | none =>
      rw [show exec (f + 3) (.getCell (.wId i)) s = (.error .oob, s) from by
        rw [exec]
        simp only [execBody]
        rw [show exec (f + 2) (.peekCell (.wId i)) s = (.error .oob, s) from by
          rw [exec]
          simp only [execBody]
          rw [hsig]]
        rfl]
      exact c3rel_refl c s
    | some sig =>
      rw [c3read f c i s cc sig hc hsubs hctx hsig]
      refine ⟨rfl, ?_, ?_, [(c, CellId.wId i)], rfl, by simp, ?_⟩
      · show (nth (updAt (updAt s.computeds c _) c _) c).map Computed.subscribers = _
        rw [nth_updAt_self, nth_updAt_self]
        cases nth s.computeds c <;> rfl
      · intro y
        rw [subsOf_setComp_rd, subsOf_setComp_tu, subsOf_setSig_c]
        cases y <;> rfl
      · intro j
        rw [subsOf_setComp_rd, subsOf_setComp_tu]
        by_cases hj : j = i
        · subst hj
          rw [subsOf_setSig_self]
          rw [show nth ({ s with readLog := s.readLog ++ [(c, CellId.wId j)] } : St).signals j =
            some sig from hsig]
          simp only [Option.map_some, Option.getD_some]
          constructor
          · intro _
            exact Or.inr (by simp)
          · intro _
            exact self_mem_addDedup _ _
        · rw [subsOf_setSig_wne _ _ hj]
          have he : ({ s with readLog := s.readLog ++ [(c, CellId.wId i)] } : St).subsOf
              (.wId j) = s.subsOf (.wId j) := rfl
          rw [he]
          have hne : ((c, CellId.wId j) ∈ [((c : Nat), CellId.wId i)]) ↔ False := by
            simp [hj]
          rw [hne]
          simp
  | add a b iha ihb =>
    intro s hg hctx hinv
    obtain ⟨hga, hgb⟩ : noGetC a = true ∧ noGetC b = true := by
      simpa [noGetC, Bool.and_eq_true] using hg
    simp only [evalGo]
    rcases ha : evalGo (exec (f + 3)) a s with ⟨r, s1⟩
    have h1 := iha s hga hctx hinv
    rw [ha] at h1
    cases r with
    | error e => exact h1
    | ok va =>
      simp only [andThen]
      rcases hb : evalGo (exec (f + 3)) b s1 with ⟨r2, s2⟩
      have h2 := ihb s1 hgb (c3rel_ctx h1 hctx) (c3rel_inv h1 hinv)
      rw [hb] at h2
      cases r2 with
      | error e => exact c3rel_trans h1 h2
      | ok vb => exact c3rel_trans h1 h2
  | ifPos x t e ihx iht ihe =>
    intro s hg hctx hinv
    obtain ⟨⟨hgx, hgt⟩, hge⟩ : (noGetC x = true ∧ noGetC t = true) ∧ noGetC e = true := by
      simpa [noGetC, Bool.and_eq_true] using hg
    simp only [evalGo]
    rcases hx : evalGo (exec (f + 3)) x s with ⟨r, s1⟩
    have h1 := ihx s hgx hctx hinv
    rw [hx] at h1
    cases r with
    | error err => exact h1
    | ok vx =>
      simp only [andThen]
      by_cases hp : isPos vx
      · simp only [hp, if_true]
        rcases ht : evalGo (exec (f + 3)) t s1 with ⟨r2, s2⟩
        have h2 := iht s1 hgt (c3rel_ctx h1 hctx) (c3rel_inv h1 hinv)
        rw [ht] at h2
        exact c3rel_trans h1 h2
      · simp only [hp, if_false]
        rcases he : evalGo (exec (f + 3)) e s1 with ⟨r2, s2⟩
        have h2 := ihe s1 hge (c3rel_ctx h1 hctx) (c3rel_inv h1 hinv)
        rw [he] at h2
        exact c3rel_trans h1 h2

/-- C3: a recomputation of a subscribed computed `c` whose stored
unsubscribers cover its current incoming edges replaces that edge set with
exactly the set of cells read during this recomputation: afterwards `c` is
registered as a dependent of writable `j` iff the run's read-log delta
records a read of `j` by `c`, and of no computed; a conditional getter that
skips its `B` branch therefore drops the `B` edge, so later changes to `B`
no longer notify `c`. -/
theorem tC3 (f c : Nat) (s : St) (cc : Computed) (v : Val) (s' : St)
    (hc : nth s.computeds c = some cc)
    (hext : extTags cc.subscribers ≠ [])
    (hctx : s.context = [])
    (hget : noGetC cc.getter = true)
    (hcov : ∀ X, Sub.comp c ∈ s.subsOf X → X ∈ cc.toUnsubscribe)
    (hrun : exec (f + 4) (.computeC c) s = (.ok v, s')) :
    ∃ t, s'.readLog = s.readLog ++ t ∧
      (∀ e ∈ t, ∃ j, e = (c, CellId.wId j)) ∧
      (∀ j, Sub.comp c ∈ s'.subsOf (.wId j) ↔ (c, CellId.wId j) ∈ t) ∧
      (∀ y, Sub.comp c ∉ s'.subsOf (.cId y)) := by
  rw [exec] at hrun
  simp only [execBody] at hrun
  rw [hc] at hrun
  dsimp only at hrun
  rw [hctx] at hrun
  simp only [List.nil_append] at hrun
  rcases hd : dropGo (exec (f + 3)) c cc.toUnsubscribe { s with context := [c] } with ⟨r, s2⟩
  rw [hd] at hrun
  cases r with
  | error e => simp [andThen] at hrun
  | ok v2 =>
    simp only [andThen] at hrun
    have hstar := dropGo_star (f + 3) c cc.toUnsubscribe { s with context := [c] }
    rw [hd] at hstar
    have hunch := star_unch hstar
    have hpure := dropGo_pure (f + 3) c cc.toUnsubscribe { s with context := [c] }
    rw [hd] at hpure
    have hall : ∀ X, Sub.comp c ∉ s2.subsOf X := by
      intro X hmem
      have hs1 : Sub.comp c ∈ ({ s with context := [c] } : St).subsOf X := by
        have h := dropGo_shrink (f + 3) c cc.toUnsubscribe { s with context := [c] } X (.comp c)
        rw [hd] at h
        exact h hmem
      have hs0 : Sub.comp c ∈ s.subsOf X := by
        cases X <;> exact hs1
      exact absurd hmem
        (dropGo_removes (f + 2) c cc.toUnsubscribe { s with context := [c] } v2 s2 hd X
          (hcov X hs0))
    have hgm := hunch.1.2.2.2.2.2.2.1 c
    have hgm2 : (nth s2.computeds c).map Computed.getter = some cc.getter := by
      rw [hgm]
      show (nth s.computeds c).map Computed.getter = some cc.getter
      rw [hc]
      rfl
    obtain ⟨cc2, hc2, hgetter2⟩ : ∃ cc2, nth s2.computeds c = some cc2 ∧
        cc2.getter = cc.getter := by
      cases hn : nth s2.computeds c with
      | none => rw [hn] at hgm2; cases hgm2
      | some cc2 =>
        rw [hn] at hgm2
        exact ⟨cc2, rfl, by simpa using hgm2⟩
    have hext2 : extTags (s2.subsOf (.cId c)) = extTags cc.subscribers := by
      have h := hunch.1.2.2.2.2.2.2.2.2.1 (CellId.cId c)
      rw [h]
      show extTags (s.subsOf (.cId c)) = _
      simp [St.subsOf, hc]
    have hsubs2 : cc2.subscribers ≠ [] := by
      intro hnil
      apply hext
      rw [← hext2]
      simp [St.subsOf, hc2, hnil, extTags]
    have hc4 : nth ({ s2.setComp c seedComp with
        getterRuns := (s2.setComp c seedComp).getterRuns ++ [c] } : St).computeds c =
        some (seedComp cc2) := by
      show nth (updAt s2.computeds c seedComp) c = _
      rw [nth_updAt_self, hc2]
      rfl
    rw [hc4] at hrun
    rw [show ((some (seedComp cc2)).map Computed.getter).getD Expr.throw = cc.getter from by
      rw [← hgetter2]
      show (seedComp cc2).getter = cc2.getter
      unfold seedComp
      dsimp only
      split <;> rfl] at hrun
    rcases he : evalGo (exec (f + 3)) cc.getter ({ s2.setComp c seedComp with
        getterRuns := (s2.setComp c seedComp).getterRuns ++ [c] } : St) with ⟨r5, s5⟩
    rw [he] at hrun
    have hctx4 : ({ s2.setComp c seedComp with
        getterRuns := (s2.setComp c seedComp).getterRuns ++ [c] } : St).context.getLast? =
        some c := by
      show s2.context.getLast? = some c
      rw [hpure.1]
      rfl
    have hinv4 : ∃ ccx, nth ({ s2.setComp c seedComp with
        getterRuns := (s2.setComp c seedComp).getterRuns ++ [c] } : St).computeds c =
        some ccx ∧ ccx.subscribers ≠ [] := by
      refine ⟨seedComp cc2, hc4, ?_⟩
      intro hnil
      apply hsubs2
      have hkeep : (seedComp cc2).subscribers = cc2.subscribers := by
        unfold seedComp
        dsimp only
        split <;> rfl
      rw [hkeep] at hnil
      exact hnil
    have hrel := c3eval f c cc.getter _ hget hctx4 hinv4
    rw [he] at hrel
    cases r5 with
    | error e => simp at hrun
    | ok v5 =>
      dsimp only at hrun
      have hs' : s' = { s5.setComp c (storeVal v5) with
          context := (s5.setComp c (storeVal v5)).context.dropLast } :=
        (congrArg Prod.snd hrun).symm
      obtain ⟨hctx5, hm5, hcid5, t, hr5, hT, hiff⟩ := hrel
      refine ⟨t, ?_, hT, ?_, ?_⟩
      · rw [hs']
        show s5.readLog = s.readLog ++ t
        rw [hr5]
        show s2.readLog ++ t = s.readLog ++ t
        rw [hpure.2]
      · intro j
        rw [hs']
        have h1 : ({ s5.setComp c (storeVal v5) with
            context := (s5.setComp c (storeVal v5)).context.dropLast } : St).subsOf
            (.wId j) = (s5.setComp c (storeVal v5)).subsOf (.wId j) := rfl
        rw [h1, subsOf_setComp_sv, hiff j]
        have h2 : ({ s2.setComp c seedComp with
            getterRuns := (s2.setComp c seedComp).getterRuns ++ [c] } : St).subsOf
            (.wId j) = (s2.setComp c seedComp).subsOf (.wId j) := rfl
        rw [h2, subsOf_setComp_seed]
        simp [hall (.wId j)]
      · intro y
        rw [hs']
        have h1 : ({ s5.setComp c (storeVal v5) with
            context := (s5.setComp c (storeVal v5)).context.dropLast } : St).subsOf
            (.cId y) = (s5.setComp c (storeVal v5)).subsOf (.cId y) := rfl
        rw [h1, subsOf_setComp_sv, hcid5 y]
        have h2 : ({ s2.setComp c seedComp with
            getterRuns := (s2.setComp c seedComp).getterRuns ++ [c] } : St).subsOf
            (.cId y) = (s2.setComp c seedComp).subsOf (.cId y) := rfl
        rw [h2, subsOf_setComp_seed]
        exact hall (.cId y)

theorem tC3_witness :
    (Sub.comp 0 ∉ (exec 9 (.computeC 0) condSt).2.subsOf (.wId 1)) ∧
    (Sub.comp 0 ∈ (exec 9 (.computeC 0) condSt).2.subsOf (.wId 0)) := by
  have h1 : (exec 9 (.computeC 0) condSt).1 = .ok none := by decide
  have hrun := eq_ok_split h1
  have hcov : ∀ X, Sub.comp 0 ∈ condSt.subsOf X →
      X ∈ (⟨some 5, none, [.ext 7], notEqual,
        .ifPos (.getW 0) (.add (.getW 0) (.getW 1)) (.const (some 0)), 1, [],
        [.wId 0, .wId 1]⟩ : Computed).toUnsubscribe := by
    intro X h
    cases X with
    | wId i =>
      cases i with
      | zero => exact List.mem_cons_self _ _
      | succ m =>
        cases m with
        | zero => exact List.mem_cons_of_mem _ (List.mem_cons_self _ _)
        | succ n => simp [condSt, St.subsOf, nth] at h
    | cId i =>
      cases i with
      | zero => simp [condSt, St.subsOf, nth] at h
      | succ n => simp [condSt, St.subsOf, nth] at h
  obtain ⟨t, hreads, hT, hiff, hcid⟩ :=
    tC3 5 0 condSt _ none _ rfl (by decide) rfl rfl hcov hrun
  have ht : (exec 9 (.computeC 0) condSt).2.readLog = t := by simpa using hreads
  constructor
  · rw [hiff 1, ← ht]
    decide
  · rw [hiff 0, ← ht]
    decide

end Solit
